import Mathlib

/-!
# Path and artifact layout of `internal/exec/path_utils.go`

A shallow embedding of the path utilities of the atmos workflow wrapper and
the properties of its specification that concern them.

Go strings are byte sequences.  They are embedded as Lean `String`s (sequences
of Unicode scalar values); the only bytes the embedded code inspects are the
ASCII characters `/`, `.` and `%`, which in UTF-8 never occur inside the
encoding of another character, so that the character-wise reading agrees with
the byte-wise one on every valid UTF-8 string.  The host is a Unix host: the
path separator is `/` and there are no volume names.
-/

namespace Atmos

/-! ## Go builtins and the parts of the standard library the source calls -/

/-- The builtin `len` on strings: the number of bytes of the string. -/
def len (s : String) : Nat := s.utf8ByteSize

namespace fmt

/-- The verbs of `fmt` that take their operand as it is when the operand is a
string (or an error, given by its message): `%s`, `%v`, and `%w` where
wrapping is allowed (`Errorf`). -/
def isStringVerb (wrap : Bool) (c : Char) : Bool :=
  c == 's' || c == 'v' || (wrap && c == 'w')

/-- The formatting loop of `fmt.Sprintf` on the characters of the format, for
string operands.  `%%` prints a percent sign, a string verb prints the next
operand, and a string verb without an operand left prints `%!s(MISSING)` (with
the verb in place of `s`).  The source uses no other verb; any other text,
a `%` before another character included, is copied. -/
def sprintfChars (wrap : Bool) : List Char → List String → List Char
  | [], _ => []
  | '%' :: '%' :: rest, args => '%' :: sprintfChars wrap rest args
  | '%' :: c :: rest, args =>
    if isStringVerb wrap c then
      match args with
      | a :: args => a.data ++ sprintfChars wrap rest args
      | [] => '%' :: '!' :: c :: "(MISSING)".data ++ sprintfChars wrap rest []
    else '%' :: c :: sprintfChars wrap rest args
  | c :: rest, args => c :: sprintfChars wrap rest args

/-- `fmt.Sprintf(format, args...)` for string operands. -/
def Sprintf (format : String) (args : List String) : String :=
  String.mk (sprintfChars false format.data args)

/-- `fmt.Errorf(format, args...)`: the error is represented by its message;
`%w` formats its operand as `%v` does. -/
def Errorf (format : String) (args : List String) : String :=
  String.mk (sprintfChars true format.data args)

end fmt

namespace strings

/-- `strings.HasPrefix(s, prefix)`: whether `s` begins with `pfx`. -/
def HasPrefix (s pfx : String) : Bool := pfx.data.isPrefixOf s.data

/-- `strings.Join(elems, sep)`: the elements with `sep` between each two. -/
def Join : List String → String → String
  | [], _ => ""
  | [a], _ => a
  | a :: b :: rest, sep => a ++ sep ++ Join (b :: rest) sep

/-- `strings.Contains(s, substr)`: whether `substr` occurs within `s`. -/
def Contains (s substr : String) : Bool := decide (substr.data <:+: s.data)

end strings

namespace os

/-- `os.IsPathSeparator` on a Unix host. -/
def IsPathSeparator (c : Char) : Bool := c == '/'

end os

namespace filepath

/-- `filepath.Separator` on a Unix host. -/
def Separator : Char := '/'

/-- The test `r == n || os.IsPathSeparator(path[r])` of `Clean`, on the part
of the path from index `r` on: the element being read ends here. -/
def elemEnds : List Char → Bool
  | [] => true
  | c :: _ => os.IsPathSeparator c

/-- The inner loop of the `..` case of `Clean`, after the first `out.w--`:
`for out.w > dotdot && !os.IsPathSeparator(out.index(out.w)) { out.w-- }`,
from the write index `w`; the value is the final write index. -/
def backtrack (buf : List Char) (dotdot : Nat) : Nat → Nat
  | 0 => 0
  | w + 1 =>
    if w + 1 > dotdot && !os.IsPathSeparator (buf.getD (w + 1) Separator) then
      backtrack buf dotdot w
    else w + 1

/-- The body of the loop `for r < n` of `Clean`, one iteration on the byte
`c = path[r]` and the bytes `rest = path[r+1:]` after it: the `switch` on the
kind of path element.  `out` holds the `out.w` bytes written so far and
`dotdot` is the index in `out` where `..` must stop.  The value is the part
of the path still to be read, the new buffer and the new `dotdot`. -/
def cleanStep (rooted : Bool) (c : Char) (rest out : List Char) (dotdot : Nat) :
    List Char × List Char × Nat :=
  if os.IsPathSeparator c then
    -- empty path element
    (rest, out, dotdot)
  else if c == '.' && elemEnds rest then
    -- . element
    (rest, out, dotdot)
  else if c == '.' && rest.head? == some '.' && elemEnds rest.tail then
    -- .. element: remove to last separator
    if out.length > dotdot then
      -- can backtrack
      (rest.tail, out.take (backtrack out dotdot (out.length - 1)), dotdot)
    else if !rooted then
      -- cannot backtrack, but not rooted, so append .. element
      let out1 := if out.length > 0 then out ++ [Separator] else out
      let out2 := out1 ++ ['.', '.']
      (rest.tail, out2, out2.length)
    else
      (rest.tail, out, dotdot)
  else
    -- real path element: add slash if needed, copy element
    let out1 :=
      if (rooted && out.length != 1) || (!rooted && out.length != 0) then
        out ++ [Separator]
      else out
    let elemRest := (c :: rest).span (fun x => !os.IsPathSeparator x)
    (elemRest.2, out1 ++ elemRest.1, dotdot)

/-- The loop `for r < n` of `Clean` from the state where `path[r:]` is the
second argument.  Every iteration reads at least one byte, so the fuel, which
`Clean` sets to the length of the path, is never used up (`cleanLoop_fuel`). -/
def cleanLoop (rooted : Bool) : Nat → List Char → List Char → Nat → List Char
  | 0, _, out, _ => out
  | _ + 1, [], out, _ => out
  | fuel + 1, c :: rest, out, dotdot =>
    let s := cleanStep rooted c rest out dotdot
    cleanLoop rooted fuel s.1 s.2.1 s.2.2

/-- `filepath.Clean(path)` on a Unix host (no volume name, `FromSlash` is the
identity): the shortest path name equivalent to `path` by purely lexical
processing. -/
def Clean (path : String) : String :=
  if path == "" then path ++ "."
  else
    let p := path.data
    let rooted := os.IsPathSeparator (p.headD Separator)
    let out :=
      if rooted then cleanLoop rooted p.length (p.drop 1) [Separator] 1
      else cleanLoop rooted p.length p [] 0
    -- Turn empty string into "."
    String.mk (if out.length == 0 then ['.'] else out)

/-- `filepath.Join(elem...)`: the elements from the first non-empty one on are
joined with the separator and the result is cleaned; when every element is
empty the result is the empty string. -/
def Join : List String → String
  | [] => ""
  | e :: rest =>
    if e != "" then Clean (strings.Join (e :: rest) (String.singleton Separator))
    else Join rest

end filepath

/-! ## The host filesystem and the log -/

namespace os

/-- A directory entry as `os.ReadDir` reports it (`fs.DirEntry`): its name and
whether it describes a directory. -/
structure DirEntry where
  Name : String
  IsDir : Bool
  deriving DecidableEq, Repr

/-- What a call of `os.ReadDir(name)` gives: the entries of the directory, or
an error, represented by its message. -/
abbrev ReadDirFn := String → Except String (List DirEntry)

/-- A filesystem tree without links: a node is a file or a directory with
named children. -/
inductive Node where
  | file : Node
  | dir : List (String × Node) → Node

/-- Whether a node is a directory. -/
def Node.isDir : Node → Bool
  | .file => false
  | .dir _ => true

/-- A filesystem of the host: the tree below `/` and the working directory of
the process, given by the names on the way from `/` to it.  The process holds
its working directory by a handle, so `cwd` stays what it is when the
directory, or a directory above it, is removed from the tree; no operation
modelled here creates an entry, so a directory at the location `cwd` is the
working directory itself. -/
structure FileSystem where
  root : Node
  cwd : List String

/-- The elements of a path name, the text between the separators
(`a//b` has the elements `a`, the empty element and `b`). -/
def pathElems : List Char → List String
  | [] => [""]
  | c :: cs =>
    if IsPathSeparator c then "" :: pathElems cs
    else
      match pathElems cs with
      | [] => [String.singleton c]
      | e :: es => (String.singleton c ++ e) :: es

/-- Path resolution of the host, element by element, from the directory `cur`
whose ancestors are `anc` (nearest first).  Every element is looked up in a
directory; the empty element and `.` stay, `..` goes to the parent (and stays
at `/`), a name goes to the child of that name. -/
def walk : List Node → Node → List String → Except String Node
  | _, cur, [] => .ok cur
  | anc, cur, e :: es =>
    match cur with
    | .file => .error "not a directory"
    | .dir children =>
      if e == "" || e == "." then walk anc cur es
      else if e == ".." then
        match anc with
        | [] => walk [] cur es
        | parent :: anc => walk anc parent es
      else
        match children.lookup e with
        | none => .error "no such file or directory"
        | some child => walk (cur :: anc) child es

/-- The elements by which a relative path name is looked up from `/`.  The
leading elements that are empty, `.` or `..` are resolved on the handle of the
working directory `cwd`: `..` goes to the directory above it (and stays at
`/`), also when the working directory has been removed from the tree.  The
other elements are looked up from the directory so reached, that is from `/`
through the names of its location. -/
def fromCwd : List String → List String → List String
  | cwd, [] => cwd
  | cwd, e :: es =>
    if e == "" || e == "." then fromCwd cwd es
    else if e == ".." then fromCwd cwd.dropLast es
    else cwd ++ e :: es

/-- The node that a path name denotes: an absolute name is resolved from `/`,
a relative one from the working directory; the empty name denotes nothing,
and so does a name that leads to or through a directory that has been
removed. -/
def FileSystem.resolve (fs : FileSystem) (name : String) : Except String Node :=
  if name == "" then .error "no such file or directory"
  else if IsPathSeparator (name.data.headD '.') then walk [] fs.root (pathElems name.data)
  else walk [] fs.root (fromCwd fs.cwd (pathElems name.data))

/-- The order of strings in Go, byte by byte. -/
def lessChars : List Char → List Char → Bool
  | _, [] => false
  | [], _ :: _ => true
  | a :: as, b :: bs => a.toNat < b.toNat || (a.toNat == b.toNat && lessChars as bs)

/-- Insertion of an entry into a list of entries sorted by filename. -/
def insertEntry (d : DirEntry) : List DirEntry → List DirEntry
  | [] => [d]
  | e :: es => if lessChars e.Name.data d.Name.data then e :: insertEntry d es else d :: e :: es

/-- The entries sorted by filename. -/
def sortEntries : List DirEntry → List DirEntry
  | [] => []
  | d :: ds => insertEntry d (sortEntries ds)

/-- `os.ReadDir(name)` on the filesystem `fs`: all the entries of the named
directory, sorted by filename; an error when the name does not resolve or
does not denote a directory. -/
def ReadDir (fs : FileSystem) : ReadDirFn := fun name =>
  match fs.resolve name with
  | .error cause => .error ("open " ++ name ++ ": " ++ cause)
  | .ok .file => .error ("readdirent " ++ name ++ ": not a directory")
  | .ok (.dir children) =>
    .ok (sortEntries (children.map (fun child => { Name := child.1, IsDir := child.2.isDir })))

end os

namespace utils

/-- The level of a log record. -/
inductive LogLevel where
  | Warning
  | Info
  deriving DecidableEq, Repr

/-- Modelled from the spec: `u.LogWarning` and `u.LogInfo` (package
`pkg/utils`) are not part of the sources at hand; the spec gives them as two
sinks, `warn(message)` and `info(message)`.  A record is a message sent to one
of them; the log of a call is the list of its records in the order sent. -/
structure LogRecord where
  level : LogLevel
  message : String
  deriving DecidableEq, Repr

/-- Modelled from the spec: `u.LogWarning(cliConfig, message)`, not part of the
sources at hand, sends the message to the warning sink. -/
def LogWarning (log : List LogRecord) (message : String) : List LogRecord :=
  log ++ [{ level := .Warning, message := message }]

/-- Modelled from the spec: `u.LogInfo(cliConfig, message)`, not part of the
sources at hand, sends the message to the info sink. -/
def LogInfo (log : List LogRecord) (message : String) : List LogRecord :=
  log ++ [{ level := .Info, message := message }]

end utils

/-! ## The schema records -/

namespace schema

/-- Modelled from the spec: the declaration of `schema.Terraform` is not part
of the sources at hand; of its fields the code reads `BasePath`, the subpath
under the project root that contains the terraform modules. -/
structure Terraform where
  BasePath : String
  deriving DecidableEq, Repr

/-- Modelled from the spec: the declaration of `schema.Helmfile` is not part
of the sources at hand; of its fields the code reads `BasePath`, the subpath
under the project root that contains the helmfile charts. -/
structure Helmfile where
  BasePath : String
  deriving DecidableEq, Repr

/-- Modelled from the spec: the declaration of `schema.Components` is not part
of the sources at hand; it groups the per-tool settings. -/
structure Components where
  Terraform : Terraform
  Helmfile : Helmfile
  deriving DecidableEq, Repr

/-- Modelled from the spec: the declaration of `schema.CliConfiguration` is
not part of the sources at hand; the code reads the project root `BasePath`
and the per-tool base paths. -/
structure CliConfiguration where
  BasePath : String
  Components : Components
  deriving DecidableEq, Repr

/-- Modelled from the spec: the declaration of `schema.ConfigAndStacksInfo` is
not part of the sources at hand; the code reads the five fields below, all of
them plain strings. -/
structure ConfigAndStacksInfo where
  ComponentFolderPrefix : String
  ComponentFolderPrefixReplaced : String
  FinalComponent : String
  Component : String
  ContextPrefix : String
  deriving DecidableEq, Repr

end schema

namespace exec

open schema

/-! ## Naming rules -/

/-- The planfile name for a terraform component in a stack. -/
def constructTerraformComponentPlanfileName (info : ConfigAndStacksInfo) : String :=
  if len info.ComponentFolderPrefixReplaced == 0 then
    fmt.Sprintf "%s-%s.planfile" [info.ContextPrefix, info.Component]
  else
    fmt.Sprintf "%s-%s-%s.planfile"
      [info.ContextPrefix, info.ComponentFolderPrefixReplaced, info.Component]

/-- The varfile name for a terraform component in a stack. -/
def constructTerraformComponentVarfileName (info : ConfigAndStacksInfo) : String :=
  if len info.ComponentFolderPrefixReplaced == 0 then
    fmt.Sprintf "%s-%s.terraform.tfvars.json" [info.ContextPrefix, info.Component]
  else
    fmt.Sprintf "%s-%s-%s.terraform.tfvars.json"
      [info.ContextPrefix, info.ComponentFolderPrefixReplaced, info.Component]

/-- The varfile name for a helmfile component in a stack. -/
def constructHelmfileComponentVarfileName (info : ConfigAndStacksInfo) : String :=
  if len info.ComponentFolderPrefixReplaced == 0 then
    fmt.Sprintf "%s-%s.helmfile.vars.yaml" [info.ContextPrefix, info.Component]
  else
    fmt.Sprintf "%s-%s-%s.helmfile.vars.yaml"
      [info.ContextPrefix, info.ComponentFolderPrefixReplaced, info.Component]

/-! ## Working directories and artifact paths -/

/-- The working dir for a terraform component in a stack. -/
def constructTerraformComponentWorkingDir (cliConfig : CliConfiguration)
    (info : ConfigAndStacksInfo) : String :=
  filepath.Join [cliConfig.BasePath, cliConfig.Components.Terraform.BasePath,
    info.ComponentFolderPrefix, info.FinalComponent]

/-- The varfile path for a terraform component in a stack. -/
def constructTerraformComponentVarfilePath (Config : CliConfiguration)
    (info : ConfigAndStacksInfo) : String :=
  filepath.Join [constructTerraformComponentWorkingDir Config info,
    constructTerraformComponentVarfileName info]

/-- The planfile path for a terraform component in a stack. -/
def constructTerraformComponentPlanfilePath (cliConfig : CliConfiguration)
    (info : ConfigAndStacksInfo) : String :=
  filepath.Join [constructTerraformComponentWorkingDir cliConfig info,
    constructTerraformComponentPlanfileName info]

/-- The working dir for a helmfile component in a stack. -/
def constructHelmfileComponentWorkingDir (cliConfig : CliConfiguration)
    (info : ConfigAndStacksInfo) : String :=
  filepath.Join [cliConfig.BasePath, cliConfig.Components.Helmfile.BasePath,
    info.ComponentFolderPrefix, info.FinalComponent]

/-- The varfile path for a helmfile component in a stack. -/
def constructHelmfileComponentVarfilePath (cliConfig : CliConfiguration)
    (info : ConfigAndStacksInfo) : String :=
  filepath.Join [constructHelmfileComponentWorkingDir cliConfig info,
    constructHelmfileComponentVarfileName info]

/-! ## Housekeeping: find folders with prefix -/

/-- The state of `findFoldersNamesWithPrefix` while it runs: the slice
`folderNames` and the log written so far. -/
structure FindState where
  folderNames : List String
  log : List utils.LogRecord
  deriving DecidableEq, Repr

/-- The body of the inner loop `for _, subDir := range level2Dirs`. -/
def findLevel2Step (pfx dirName : String) (folderNames : List String)
    (subDir : os.DirEntry) : List String :=
  if subDir.IsDir && (pfx == "" || strings.HasPrefix subDir.Name pfx) then
    folderNames ++ [filepath.Join [dirName, subDir.Name]]
  else folderNames

/-- The body of the outer loop `for _, dir := range level1Dirs`. -/
def findLevel1Step (readDir : os.ReadDirFn) (root pfx : String) (st : FindState)
    (dir : os.DirEntry) : FindState :=
  if dir.IsDir then
    -- If the directory at level 1 matches the prefix, add it
    let folderNames :=
      if pfx == "" || strings.HasPrefix dir.Name pfx then st.folderNames ++ [dir.Name]
      else st.folderNames
    -- Now, explore one level deeper (level 2)
    let level2Path := filepath.Join [root, dir.Name]
    match readDir level2Path with
    | .error err =>
      { folderNames := folderNames,
        log := utils.LogWarning st.log
          (fmt.Sprintf "Error reading subdirectory %s: %v" [level2Path, err]) }
    | .ok level2Dirs =>
      { folderNames := level2Dirs.foldl (findLevel2Step pfx dir.Name) folderNames,
        log := st.log }
  else st

/-- The names of folders that match the given prefix under the specified root
path, at the root level (level 1) and one level deeper (level 2), and the log
of the call.  `readDir` is `os.ReadDir` on the filesystem of the host. -/
def findFoldersNamesWithPrefix (readDir : os.ReadDirFn) (root pfx : String) :
    Except String (List String) × List utils.LogRecord :=
  -- First, read the directories at the root level (level 1)
  match readDir root with
  | .error err => (.error (fmt.Errorf "error reading root directory %s: %w" [root, err]), [])
  | .ok level1Dirs =>
    let st := level1Dirs.foldl (findLevel1Step readDir root pfx)
      { folderNames := [], log := [] }
    (.ok st.folderNames, st.log)

/-- The walk that the specification of `find-folders-with-prefix` describes,
over the entries of `root` in listing order: for each child directory `d`, its
name if the prefix is empty or the name starts with it, followed, when `d` can
be listed, by `join(d.name, s.name)` for each child sub-directory `s` of `d`
whose name starts with the prefix (or the prefix is empty).  The children of
`d` are what listing `join(root, d.name)` gives. -/
def specFindFolders (readDir : os.ReadDirFn) (root pfx : String)
    (entries : List os.DirEntry) : List String :=
  entries.flatMap (fun d =>
    if d.IsDir then
      (if pfx = "" ∨ pfx.data <+: d.Name.data then [d.Name] else []) ++
        (match readDir (filepath.Join [root, d.Name]) with
         | .ok children =>
           (children.filter
              (fun s => s.IsDir && decide (pfx = "" ∨ pfx.data <+: s.Name.data))).map
             (fun s => filepath.Join [d.Name, s.Name])
         | .error _ => [])
    else [])

/-- The tree of scenario S4: the directories `/root/tf-a`, `/root/tf-b/sub1`,
`/root/tf-b/sub-tf-c`, `/root/other/tf-d` and the file `/root/tf-file`. -/
def scenarioS4 : os.FileSystem :=
  { root := .dir [("root", .dir [
      ("tf-a", .dir []),
      ("tf-b", .dir [("sub1", .dir []), ("sub-tf-c", .dir [])]),
      ("other", .dir [("tf-d", .dir [])]),
      ("tf-file", .file)])],
    cwd := [] }

end exec

/-! ## The states of the loop of `Clean` -/

namespace filepath

/-- The loop `for r < n` of `Clean` as `cleanLoop`, with the final value of
`dotdot` next to the final buffer. -/
def cleanState (rooted : Bool) : Nat → List Char → List Char → Nat → List Char × Nat
  | 0, _, out, dotdot => (out, dotdot)
  | _ + 1, [], out, dotdot => (out, dotdot)
  | fuel + 1, c :: rest, out, dotdot =>
    let s := cleanStep rooted c rest out dotdot
    cleanState rooted fuel s.1 s.2.1 s.2.2

/-- The loop of `Clean` run on the path bytes `p` from the buffer `out` and
the index `dotdot`, with the fuel that suffices. -/
def cleanRun (rooted : Bool) (p out : List Char) (dotdot : Nat) : List Char × Nat :=
  cleanState rooted p.length p out dotdot

/-- A real path element: not empty, without separator, neither `.` nor `..`. -/
def isName (x : List Char) : Prop :=
  x ≠ [] ∧ '/' ∉ x ∧ x ≠ ['.'] ∧ x ≠ ['.', '.']

instance (x : List Char) : Decidable (isName x) := by
  unfold isName; infer_instance

/-- The buffer after the step "add slash if needed" of `Clean`. -/
def addSep (rooted : Bool) (out : List Char) : List Char :=
  if (rooted && out.length != 1) || (!rooted && out.length != 0) then out ++ [Separator]
  else out

/-- The buffer with which `Clean` starts. -/
def initOut (rooted : Bool) : List Char := if rooted then [Separator] else []

/-- The buffers and `dotdot` indices that the loop of `Clean` passes through:
the initial one, one with a further `..` when the path is not rooted and the
buffer holds `..` elements only, and one with a further real element. -/
inductive Canon (rooted : Bool) : List Char → Nat → Prop
  | init : Canon rooted (initOut rooted) (initOut rooted).length
  | dotdot {out : List Char} {dotdot : Nat} :
      Canon rooted out dotdot → rooted = false → out.length = dotdot →
      Canon rooted ((if out.length > 0 then out ++ [Separator] else out) ++ ['.', '.'])
        ((if out.length > 0 then out ++ [Separator] else out) ++ ['.', '.']).length
  | name {out : List Char} {dotdot : Nat} {x : List Char} :
      Canon rooted out dotdot → isName x → Canon rooted (addSep rooted out ++ x) dotdot

end filepath

namespace filepath

/-- The final buffer and `dotdot` index of the loop of `Clean` on the
non-empty path `p`, before the empty buffer is turned into `.`. -/
def cleanOut (p : List Char) : List Char × Nat :=
  cleanRun (os.IsPathSeparator (p.headD Separator))
    (p.drop (initOut (os.IsPathSeparator (p.headD Separator))).length)
    (initOut (os.IsPathSeparator (p.headD Separator)))
    (initOut (os.IsPathSeparator (p.headD Separator))).length

end filepath

/-! ## Names of directory entries, final segments and warnings -/

namespace os

/-- The names in a filesystem tree are file names: every name of a child is a
real path element (not empty, without separator, neither `.` nor `..`). -/
inductive Node.ValidNames : Node → Prop
  | file : Node.ValidNames .file
  | dir (children : List (String × Node)) :
      (∀ child ∈ children, filepath.isName child.1.data) →
      (∀ child ∈ children, Node.ValidNames child.2) →
      Node.ValidNames (.dir children)

end os

namespace exec

/-- The final segment of a path: the text after the last separator. -/
def finalSegment (p : String) : String :=
  String.mk (p.data.reverse.takeWhile (fun c => !os.IsPathSeparator c)).reverse

/-- The warnings that the specification of `find-folders-with-prefix`
describes, over the entries of `root` in listing order: one warning naming
the failing path for each child directory that cannot be listed. -/
def specFindWarnings (readDir : os.ReadDirFn) (root : String)
    (entries : List os.DirEntry) : List utils.LogRecord :=
  entries.flatMap (fun d =>
    if d.IsDir then
      (match readDir (filepath.Join [root, d.Name]) with
       | .ok _ => []
       | .error cause =>
         [{ level := .Warning,
            message := "Error reading subdirectory " ++ filepath.Join [root, d.Name]
              ++ ": " ++ cause }])
    else [])

/-- A host on which the directory `/root` holds the directories `tf-a`, which
cannot be listed, and `tf-b`, which holds the directory `tf-c` and the file
`notes`. -/
def hostUnreadable : os.ReadDirFn := fun name =>
  if name == "/root" then .ok [⟨"tf-a", true⟩, ⟨"tf-b", true⟩]
  else if name == "/root/tf-a" then .error "open /root/tf-a: permission denied"
  else if name == "/root/tf-b" then .ok [⟨"notes", false⟩, ⟨"tf-c", true⟩]
  else .error ("open " ++ name ++ ": no such file or directory")

end exec

/-! ## Removal on the host filesystem -/

namespace os

/-- The node at a location of the tree, a location being the names on the way
from the node down. -/
def Node.at : Node → List String → Option Node
  | n, [] => some n
  | .file, _ :: _ => none
  | .dir children, c :: cs =>
    match children.lookup c with
    | none => none
    | some child => child.at cs

/-- The kind of the entry at a location: nothing, a file (`false`) or a
directory (`true`). -/
def Node.kindAt (n : Node) (loc : List String) : Option Bool :=
  (n.at loc).map Node.isDir

/-- The tree without the entry at a location below the node, and without
everything beneath that entry. -/
def Node.removeAt : Node → List String → Node
  | n, [] => n
  | .file, _ :: _ => .file
  | .dir children, c :: cs =>
    match cs with
    | [] => .dir (children.filter (fun child => child.1 != c))
    | _ :: _ =>
      .dir (children.map (fun child =>
        if child.1 == c then (child.1, child.2.removeAt cs) else child))

/-- The names of the children of the directory at a location. -/
def Node.childNames (n : Node) (loc : List String) : List String :=
  match n.at loc with
  | some (.dir children) => children.map (fun child => child.1)
  | _ => []

/-- The tree in which the directory at a location is left without entries. -/
def Node.emptyAt (n : Node) (loc : List String) : Node :=
  (n.childNames loc).foldl (fun t c => t.removeAt (loc ++ [c])) n

/-- The errors of path resolution. -/
inductive Errno where
  | ENOENT
  | ENOTDIR
  deriving DecidableEq, Repr

/-- Path resolution of the host to a location, element by element, from the
location `loc`: as `walk`, every element is looked up in a directory; the empty
element and `.` stay, `..` goes to the parent (and stays at `/`), a name goes
to the child of that name, which must exist. -/
def locateFrom (root : Node) : List String → List String → Except Errno (List String)
  | loc, [] => .ok loc
  | loc, e :: es =>
    match root.kindAt loc with
    | some true =>
      if e == "" || e == "." then locateFrom root loc es
      else if e == ".." then locateFrom root loc.dropLast es
      else
        match root.kindAt (loc ++ [e]) with
        | none => .error .ENOENT
        | some _ => locateFrom root (loc ++ [e]) es
    | _ => .error .ENOTDIR

/-- The location that a path name denotes (`lstat`): an absolute name is
resolved from `/`, a relative one from the working directory, as in
`FileSystem.resolve`; the empty name denotes nothing. -/
def FileSystem.locate (fs : FileSystem) (name : String) : Except Errno (List String) :=
  if name == "" then .error .ENOENT
  else if IsPathSeparator (name.data.headD '.') then locateFrom fs.root [] (pathElems name.data)
  else locateFrom fs.root [] (fromCwd fs.cwd (pathElems name.data))

/-- Whether something exists at a path name. -/
def FileSystem.pathExists (fs : FileSystem) (name : String) : Bool :=
  match fs.locate name with
  | .ok _ => true
  | .error _ => false

/-- The test `endsWithDot` of `os.RemoveAll`: the final element of the path is
`.`. -/
def endsWithDot (path : String) : Bool :=
  path == "." ||
    (match path.data.reverse with
     | '.' :: c :: _ => IsPathSeparator c
     | _ => false)

/-- Whether the final element of the path is `..`. -/
def endsWithDotDot (path : String) : Bool :=
  path == ".." ||
    (match path.data.reverse with
     | '.' :: '.' :: c :: _ => IsPathSeparator c
     | _ => false)

/-- `os.RemoveAll(path)` on the filesystem `fs`: the new filesystem and the
error, if any.  The empty path is left alone without error and a path whose
final element is `.` is refused.  A path at which nothing exists is no error;
a path that leads through a file is one.  Otherwise the entry and everything
beneath it is removed; when the entry is `/`, or the final element of the path
is `..`, the entries beneath it are removed, the directory itself cannot be,
and that is an error. -/
def RemoveAll (fs : FileSystem) (path : String) : FileSystem × Option String :=
  if path == "" then (fs, none)
  else if endsWithDot path then (fs, some ("RemoveAll " ++ path ++ ": invalid argument"))
  else
    match fs.locate path with
    | .error .ENOENT => (fs, none)
    | .error .ENOTDIR => (fs, some ("unlinkat " ++ path ++ ": not a directory"))
    | .ok loc =>
      if loc == [] || endsWithDotDot path then
        ({ fs with root := fs.root.emptyAt loc },
          some ("unlinkat " ++ path ++ ": directory not empty"))
      else ({ fs with root := fs.root.removeAt loc }, none)

/-- The host as the code sees it: a state with the two calls of package `os`
that the housekeeping operations make. -/
structure Host (σ : Type) where
  ReadDir : σ → String → Except String (List DirEntry)
  RemoveAll : σ → String → σ × Option String

/-- The host whose state is a filesystem tree. -/
def treeHost : Host FileSystem :=
  { ReadDir := ReadDir, RemoveAll := RemoveAll }

end os

namespace exec

/-! ## Housekeeping: delete files and folders recursive -/

/-- A call of the host filesystem. -/
inductive FsAction where
  | RemoveAll (path : String)
  | ReadDir (path : String)
  deriving DecidableEq, Repr

/-- The state of `deleteFilesAndFoldersRecursive` while it runs: the state of
the host, the log written so far and the calls of the host made so far, in
order. -/
structure DeleteState (σ : Type) where
  fs : σ
  log : List utils.LogRecord
  actions : List FsAction

/-- The body of the first loop `for _, item := range items`. -/
def deleteLevel0Step {σ : Type} (host : os.Host σ) (basePath : String)
    (st : DeleteState σ) (item : String) : DeleteState σ :=
  let fullPath := filepath.Join [basePath, item]
  -- Attempt to delete the file or folder
  let r := host.RemoveAll st.fs fullPath
  match r.2 with
  | some err =>
    { fs := r.1,
      log := utils.LogWarning st.log (fmt.Sprintf "Error deleting %s: %v" [fullPath, err]),
      actions := st.actions ++ [.RemoveAll fullPath] }
  | none =>
    { fs := r.1,
      log := utils.LogInfo st.log (fmt.Sprintf "Deleted %s" [item]),
      actions := st.actions ++ [.RemoveAll fullPath] }

/-- The first loop: delete files and folders directly under the base path. -/
def deleteLevel0 {σ : Type} (host : os.Host σ) (fs : σ) (basePath : String)
    (items : List String) : DeleteState σ :=
  items.foldl (deleteLevel0Step host basePath) { fs := fs, log := [], actions := [] }

/-- The body of the inner loop `for _, item := range items` of the second
loop. -/
def deleteLevel1Item {σ : Type} (host : os.Host σ) (subDirPath : String)
    (st : DeleteState σ) (item : String) : DeleteState σ :=
  let fullPath := filepath.Join [subDirPath, item]
  -- Attempt to delete the file or folder
  let r := host.RemoveAll st.fs fullPath
  match r.2 with
  | some err =>
    { fs := r.1,
      log := utils.LogWarning st.log (fmt.Sprintf "Error deleting %s: %v" [item, err]),
      actions := st.actions ++ [.RemoveAll fullPath] }
  | none =>
    { fs := r.1, log := st.log, actions := st.actions ++ [.RemoveAll fullPath] }

/-- The body of the second loop `for _, entry := range entries`. -/
def deleteLevel1Step {σ : Type} (host : os.Host σ) (basePath : String) (items : List String)
    (st : DeleteState σ) (entry : os.DirEntry) : DeleteState σ :=
  -- Only proceed if the entry is a directory
  if entry.IsDir then
    let subDirPath := filepath.Join [basePath, entry.Name]
    items.foldl (deleteLevel1Item host subDirPath) st
  else st

/-- Deletes specified files and folders from the base path, including those
found in immediate subdirectories.  The value is the error returned (`none`
for `nil`) and the final state. -/
def deleteFilesAndFoldersRecursive {σ : Type} (host : os.Host σ) (fs : σ) (basePath : String)
    (items : List String) : Option String × DeleteState σ :=
  -- First, delete files and folders directly under the base path
  let st0 := deleteLevel0 host fs basePath items
  -- Now, delete matching files and folders from immediate subdirectories
  let st := { st0 with actions := st0.actions ++ [.ReadDir basePath] }
  match host.ReadDir st0.fs basePath with
  | .error err => (some (fmt.Errorf "error reading the base path %s: %v" [basePath, err]), st)
  | .ok entries => (none, entries.foldl (deleteLevel1Step host basePath items) st)

/-- The tree of scenario S5: `/root` holds the file `planfile.txt`, the
directory `nested/dir`, the directory `groupA` with the file `planfile.txt`
and the directory `groupB` with the file `main.tf`. -/
def scenarioS5 : os.FileSystem :=
  { root := .dir [("root", .dir [
      ("planfile.txt", .file),
      ("nested", .dir [("dir", .dir [])]),
      ("groupA", .dir [("planfile.txt", .file)]),
      ("groupB", .dir [("main.tf", .file)])])],
    cwd := [] }

/-- A tree for a call with a relative base path that removes the working
directory of the process: `/root` holds the directory `groupA`, which is the
working directory, and the directory `groupB` with a directory `groupA`. -/
def scenarioRelative : os.FileSystem :=
  { root := .dir [("root", .dir [
      ("groupA", .dir []),
      ("groupB", .dir [("groupA", .dir [])])])],
    cwd := ["root", "groupA"] }

end exec

namespace os

/-- The tree `t'` holds no entry that the tree `t` does not hold, with the
same kind. -/
def Node.Pruned (t' t : Node) : Prop :=
  ∀ (l : List String) (k : Bool), t'.kindAt l = some k → t.kindAt l = some k

end os

namespace os

/-- The states of `walk`: the directory `cur` lies at the location `loc` of
the tree and `anc` are the directories on the way to it, nearest first. -/
inductive Trail (root : Node) : List Node → Node → List String → Prop
  | root : Trail root [] root []
  | child {anc : List Node} {cur : Node} {loc : List String}
      {children : List (String × Node)} {e : String} {child : Node} :
      Trail root anc cur loc → cur = .dir children → children.lookup e = some child →
      Trail root (cur :: anc) child (loc ++ [e])

end os

namespace exec

/-- The removals of the second loop, in order: every directory among the
entries with every item. -/
def level1Pairs (entries : List os.DirEntry) (items : List String) :
    List (os.DirEntry × String) :=
  (entries.filter (fun d => d.IsDir)).flatMap (fun d => items.map (fun item => (d, item)))

end exec

namespace utils

/-- The log holds no warning. -/
def noWarning (log : List LogRecord) : Prop :=
  ∀ r ∈ log, r.level ≠ LogLevel.Warning

instance (log : List LogRecord) : Decidable (noWarning log) := by
  unfold noWarning; infer_instance

end utils

namespace os

/-- Whether the location `l` is that of the entry which the path name
denotes, or lies beneath it. -/
def FileSystem.beneath (fs : FileSystem) (name : String) (l : List String) : Bool :=
  match fs.locate name with
  | .ok loc => decide (loc <+: l)
  | .error _ => false

end os

/-! ## Lemmas on the builtins -/

theorem utf8ByteSize_go_eq_zero (cs : List Char) :
    String.utf8ByteSize.go cs = 0 ↔ cs = [] := by
  cases cs with
  | nil => simp [String.utf8ByteSize.go]
  | cons c cs =>
    have h := Char.utf8Size_pos c
    simp [String.utf8ByteSize.go]
    omega

/-- A string has length zero exactly when it is the empty string. -/
theorem len_eq_zero_iff (s : String) : len s = 0 ↔ s = "" := by
  cases s with
  | mk cs =>
    simp only [len, String.utf8ByteSize, utf8ByteSize_go_eq_zero]
    constructor
    · intro h; subst h; rfl
    · intro h; exact congrArg String.data h

theorem len_beq_zero (s : String) : (len s == 0) = decide (s = "") := by
  by_cases h : s = ""
  · simp [h, (len_eq_zero_iff "").2]
  · have : len s ≠ 0 := fun h0 => h ((len_eq_zero_iff s).1 h0)
    simp [h, this]

theorem string_append_right_cancel {a b t : String} (h : a ++ t = b ++ t) : a = b := by
  have hd := congrArg String.data h
  simp only [String.data_append] at hd
  exact String.ext (List.append_cancel_right hd)

theorem string_append_ne {a b : String} (h : a ≠ b) (t : String) : a ++ t ≠ b ++ t :=
  fun e => h (string_append_right_cancel e)

theorem contains_iff (s substr : String) :
    strings.Contains s substr = true ↔ substr.data <:+: s.data := by
  simp [strings.Contains]

namespace exec

open schema

/-! ## Naming rules: the three shapes -/

theorem planfileName_eq (info : ConfigAndStacksInfo) :
    constructTerraformComponentPlanfileName info =
      if info.ComponentFolderPrefixReplaced = "" then
        info.ContextPrefix ++ "-" ++ info.Component ++ ".planfile"
      else
        info.ContextPrefix ++ "-" ++ info.ComponentFolderPrefixReplaced ++ "-"
          ++ info.Component ++ ".planfile" := by
  unfold constructTerraformComponentPlanfileName
  rw [len_beq_zero]
  by_cases h : info.ComponentFolderPrefixReplaced = ""
  · simp only [h, decide_True, if_true]
    apply String.ext
    simp [fmt.Sprintf, fmt.sprintfChars, fmt.isStringVerb]
  · simp only [h, decide_False, if_false, Bool.false_eq_true]
    apply String.ext
    simp [fmt.Sprintf, fmt.sprintfChars, fmt.isStringVerb]

theorem varfileName_eq (info : ConfigAndStacksInfo) :
    constructTerraformComponentVarfileName info =
      if info.ComponentFolderPrefixReplaced = "" then
        info.ContextPrefix ++ "-" ++ info.Component ++ ".terraform.tfvars.json"
      else
        info.ContextPrefix ++ "-" ++ info.ComponentFolderPrefixReplaced ++ "-"
          ++ info.Component ++ ".terraform.tfvars.json" := by
  unfold constructTerraformComponentVarfileName
  rw [len_beq_zero]
  by_cases h : info.ComponentFolderPrefixReplaced = ""
  · simp only [h, decide_True, if_true]
    apply String.ext
    simp [fmt.Sprintf, fmt.sprintfChars, fmt.isStringVerb]
  · simp only [h, decide_False, if_false, Bool.false_eq_true]
    apply String.ext
    simp [fmt.Sprintf, fmt.sprintfChars, fmt.isStringVerb]

theorem helmfileName_eq (info : ConfigAndStacksInfo) :
    constructHelmfileComponentVarfileName info =
      if info.ComponentFolderPrefixReplaced = "" then
        info.ContextPrefix ++ "-" ++ info.Component ++ ".helmfile.vars.yaml"
      else
        info.ContextPrefix ++ "-" ++ info.ComponentFolderPrefixReplaced ++ "-"
          ++ info.Component ++ ".helmfile.vars.yaml" := by
  unfold constructHelmfileComponentVarfileName
  rw [len_beq_zero]
  by_cases h : info.ComponentFolderPrefixReplaced = ""
  · simp only [h, decide_True, if_true]
    apply String.ext
    simp [fmt.Sprintf, fmt.sprintfChars, fmt.isStringVerb]
  · simp only [h, decide_False, if_false, Bool.false_eq_true]
    apply String.ext
    simp [fmt.Sprintf, fmt.sprintfChars, fmt.isStringVerb]

/-- C1: the terraform varfile name is `ContextPrefix-Component.terraform.tfvars.json`
when `ComponentFolderPrefixReplaced` is empty and
`ContextPrefix-ComponentFolderPrefixReplaced-Component.terraform.tfvars.json`
otherwise; for the inputs of scenario S2 it is
`tenant1-ue1-prod-networking-aws-vpc.terraform.tfvars.json`. -/
theorem C1_terraform_varfile_name :
    (∀ info : ConfigAndStacksInfo,
      constructTerraformComponentVarfileName info =
        if info.ComponentFolderPrefixReplaced = "" then
          info.ContextPrefix ++ "-" ++ info.Component ++ ".terraform.tfvars.json"
        else
          info.ContextPrefix ++ "-" ++ info.ComponentFolderPrefixReplaced ++ "-"
            ++ info.Component ++ ".terraform.tfvars.json") ∧
    constructTerraformComponentVarfileName
        { ComponentFolderPrefix := "networking/aws",
          ComponentFolderPrefixReplaced := "networking-aws",
          FinalComponent := "vpc", Component := "vpc",
          ContextPrefix := "tenant1-ue1-prod" }
      = "tenant1-ue1-prod-networking-aws-vpc.terraform.tfvars.json" :=
  ⟨varfileName_eq, by decide⟩

/-- C2: the terraform planfile name is `ContextPrefix-Component.planfile` when
`ComponentFolderPrefixReplaced` is empty and
`ContextPrefix-ComponentFolderPrefixReplaced-Component.planfile` otherwise.  The
function is total (it returns a name for every input, without validation): an
empty `ContextPrefix` with `Component` `foo` and an empty prefix gives
`-foo.planfile`. -/
theorem C2_terraform_planfile_name :
    (∀ info : ConfigAndStacksInfo,
      constructTerraformComponentPlanfileName info =
        if info.ComponentFolderPrefixReplaced = "" then
          info.ContextPrefix ++ "-" ++ info.Component ++ ".planfile"
        else
          info.ContextPrefix ++ "-" ++ info.ComponentFolderPrefixReplaced ++ "-"
            ++ info.Component ++ ".planfile") ∧
    (∀ folderPrefix finalComponent : String,
      constructTerraformComponentPlanfileName
          { ComponentFolderPrefix := folderPrefix,
            ComponentFolderPrefixReplaced := "",
            FinalComponent := finalComponent, Component := "foo",
            ContextPrefix := "" }
        = "-foo.planfile") :=
  ⟨planfileName_eq, fun _ _ => rfl⟩

/-- C3: the helmfile varfile name is `ContextPrefix-Component.helmfile.vars.yaml`
when `ComponentFolderPrefixReplaced` is empty and
`ContextPrefix-ComponentFolderPrefixReplaced-Component.helmfile.vars.yaml`
otherwise. -/
theorem C3_helmfile_varfile_name (info : ConfigAndStacksInfo) :
    constructHelmfileComponentVarfileName info =
      if info.ComponentFolderPrefixReplaced = "" then
        info.ContextPrefix ++ "-" ++ info.Component ++ ".helmfile.vars.yaml"
      else
        info.ContextPrefix ++ "-" ++ info.ComponentFolderPrefixReplaced ++ "-"
          ++ info.Component ++ ".helmfile.vars.yaml" :=
  helmfileName_eq info

end exec

/-! ## Lemmas on `filepath.Clean` and `filepath.Join` -/

namespace filepath

theorem span_rest_length (f : Char → Bool) (l : List Char) :
    (l.span f).2.length ≤ l.length := by
  rw [List.span_eq_take_drop]
  exact (List.dropWhile_suffix f).length_le

theorem cleanStep_length (rooted : Bool) (c : Char) (rest out : List Char) (dotdot : Nat) :
    (cleanStep rooted c rest out dotdot).1.length ≤ rest.length := by
  unfold cleanStep
  split
  · exact le_rfl
  · split
    · exact le_rfl
    · split
      · split
        · simp
        · split <;> simp
      · rename_i h _ _
        have hc : (!os.IsPathSeparator c) = true := by simpa using h
        simp only [List.span_eq_take_drop, List.dropWhile_cons, hc, if_true]
        exact (List.dropWhile_suffix _).length_le

theorem cleanLoop_fuel_eq (rooted : Bool) :
    ∀ (f1 f2 : Nat) (p out : List Char) (dotdot : Nat),
      p.length ≤ f1 → p.length ≤ f2 →
      cleanLoop rooted f1 p out dotdot = cleanLoop rooted f2 p out dotdot := by
  intro f1
  induction f1 with
  | zero =>
    intro f2 p out dotdot h1 _
    have hp : p = [] := List.length_eq_zero.mp (Nat.le_zero.mp h1)
    subst hp
    cases f2 <;> rfl
  | succ n ih =>
    intro f2 p out dotdot h1 h2
    cases p with
    | nil => cases f2 <;> rfl
    | cons c rest =>
      cases f2 with
      | zero => simp at h2
      | succ m =>
        simp only [cleanLoop]
        have hl := cleanStep_length rooted c rest out dotdot
        simp only [List.length_cons] at h1 h2
        exact ih m _ _ _ (by omega) (by omega)

end filepath

namespace filepath

theorem elemEnds_iff (b : List Char) :
    elemEnds b = true ↔ b = [] ∨ ∃ t, b = '/' :: t := by
  cases b with
  | nil => simp [elemEnds]
  | cons c t => simp [elemEnds, os.IsPathSeparator]

theorem elemEnds_append (a b : List Char) (hb : elemEnds b = true) :
    elemEnds (a ++ '/' :: b) = elemEnds (a ++ b) := by
  cases a with
  | nil => simpa [elemEnds, os.IsPathSeparator] using hb.symm
  | cons c t => rfl

theorem span_append_ends (l y : List Char) (hy : elemEnds y = true) :
    (l ++ y).span (fun x => !os.IsPathSeparator x)
      = (l.takeWhile (fun x => !os.IsPathSeparator x),
         l.dropWhile (fun x => !os.IsPathSeparator x) ++ y) := by
  induction l with
  | nil =>
    rcases (elemEnds_iff y).1 hy with h | ⟨t, h⟩ <;> subst h <;>
      simp [List.span_eq_take_drop, os.IsPathSeparator]
  | cons x l ih =>
    rw [List.span_eq_take_drop] at ih ⊢
    by_cases hx : os.IsPathSeparator x = true
    · simp [List.takeWhile_cons, List.dropWhile_cons, hx]
    · simp only [Prod.mk.injEq] at ih
      simp [List.takeWhile_cons, List.dropWhile_cons, hx, ih.1, ih.2]

/-- One iteration of the loop of `Clean` does not see whether a separator that
is followed by a separator, or by nothing, is there. -/
theorem cleanStep_skip (rooted : Bool) (c : Char) (a b out : List Char) (dotdot : Nat)
    (hb : elemEnds b = true) :
    ∃ a2 : List Char, a2.length ≤ a.length ∧
      (cleanStep rooted c (a ++ '/' :: b) out dotdot).1 = a2 ++ '/' :: b ∧
      (cleanStep rooted c (a ++ b) out dotdot).1 = a2 ++ b ∧
      (cleanStep rooted c (a ++ '/' :: b) out dotdot).2
        = (cleanStep rooted c (a ++ b) out dotdot).2 := by
  have h1 := elemEnds_append a b hb
  have h2 : (((a ++ '/' :: b).head? == some '.') && elemEnds (a ++ '/' :: b).tail)
      = (((a ++ b).head? == some '.') && elemEnds (a ++ b).tail) := by
    cases a with
    | nil =>
      rcases (elemEnds_iff b).1 hb with h | ⟨t, h⟩ <;> subst h <;> simp
    | cons d t =>
      simp only [List.cons_append, List.head?_cons, List.tail_cons]
      rw [elemEnds_append t b hb]
  have h3 : (((a ++ '/' :: b).head? == some '.') && elemEnds (a ++ '/' :: b).tail) = true →
      ∃ d t, a = d :: t := by
    cases a with
    | nil => simp
    | cons d t => intro _; exact ⟨d, t, rfl⟩
  by_cases hc : os.IsPathSeparator c = true
  · exact ⟨a, le_rfl, by simp only [cleanStep, if_pos hc], by simp only [cleanStep, if_pos hc],
      by simp only [cleanStep, if_pos hc]⟩
  · by_cases hd : (c == '.' && elemEnds (a ++ b)) = true
    · have hd1 : (c == '.' && elemEnds (a ++ '/' :: b)) = true := by rw [h1]; exact hd
      exact ⟨a, le_rfl, by simp only [cleanStep, if_neg hc, if_pos hd1],
        by simp only [cleanStep, if_neg hc, if_pos hd],
        by simp only [cleanStep, if_neg hc, if_pos hd1, if_pos hd]⟩
    · have hd1 : ¬ (c == '.' && elemEnds (a ++ '/' :: b)) = true := by rw [h1]; exact hd
      by_cases he : (c == '.' && (a ++ b).head? == some '.' && elemEnds (a ++ b).tail) = true
      · have he1 : (c == '.' && (a ++ '/' :: b).head? == some '.'
            && elemEnds (a ++ '/' :: b).tail) = true := by
          rw [Bool.and_assoc, h2, ← Bool.and_assoc]; exact he
        have hne : ∃ d t, a = d :: t := by
          apply h3
          rw [Bool.and_assoc, Bool.and_eq_true] at he1
          exact he1.2
        obtain ⟨d, t, rfl⟩ := hne
        refine ⟨t, by simp, ?_, ?_, ?_⟩
        · simp only [cleanStep, if_neg hc, if_neg hd1, if_pos he1]
          by_cases hw : out.length > dotdot
          · simp only [if_pos hw, List.cons_append, List.tail_cons]
          · cases rooted <;> simp [if_neg hw]
        · simp only [cleanStep, if_neg hc, if_neg hd, if_pos he]
          by_cases hw : out.length > dotdot
          · simp only [if_pos hw, List.cons_append, List.tail_cons]
          · cases rooted <;> simp [if_neg hw]
        · simp only [cleanStep, if_neg hc, if_neg hd1, if_pos he1, if_neg hd, if_pos he]
          by_cases hw : out.length > dotdot
          · simp only [if_pos hw]
          · cases rooted <;> simp [if_neg hw]
      · have he1 : ¬ (c == '.' && (a ++ '/' :: b).head? == some '.'
            && elemEnds (a ++ '/' :: b).tail) = true := by
          rw [Bool.and_assoc, h2, ← Bool.and_assoc]; exact he
        have hcf : (!os.IsPathSeparator c) = true := by simpa using hc
        have e1 : c :: (a ++ '/' :: b) = (c :: a) ++ '/' :: b := rfl
        have e2 : c :: (a ++ b) = (c :: a) ++ b := rfl
        have hb1 : elemEnds ('/' :: b) = true := rfl
        refine ⟨a.dropWhile (fun x => !os.IsPathSeparator x),
          (List.dropWhile_suffix _).length_le, ?_, ?_, ?_⟩
        · simp only [cleanStep, if_neg hc, if_neg hd1, if_neg he1, e1]
          rw [span_append_ends _ _ hb1]
          simp [List.dropWhile_cons, hcf]
        · simp only [cleanStep, if_neg hc, if_neg hd, if_neg he, e2]
          rw [span_append_ends _ _ hb]
          simp [List.dropWhile_cons, hcf]
        · simp only [cleanStep, if_neg hc, if_neg hd1, if_neg he1, if_neg hd, if_neg he, e1, e2]
          rw [span_append_ends _ _ hb1, span_append_ends _ _ hb]

end filepath

namespace filepath

/-- The loop of `Clean` does not see whether a separator that is followed by a
separator, or by nothing, is there. -/
theorem cleanLoop_skip (rooted : Bool) :
    ∀ (n : Nat) (a b out : List Char) (dotdot f1 f2 : Nat), a.length ≤ n →
      elemEnds b = true → (a ++ '/' :: b).length ≤ f1 → (a ++ b).length ≤ f2 →
      cleanLoop rooted f1 (a ++ '/' :: b) out dotdot
        = cleanLoop rooted f2 (a ++ b) out dotdot := by
  intro n
  induction n with
  | zero =>
    intro a b out dotdot f1 f2 ha hb h1 h2
    have : a = [] := List.length_eq_zero.mp (Nat.le_zero.mp ha)
    subst this
    cases f1 with
    | zero => simp at h1
    | succ g =>
      simp only [List.nil_append, List.length_cons] at h1 h2 ⊢
      have hs : cleanStep rooted '/' b out dotdot = (b, out, dotdot) := by
        simp [cleanStep, os.IsPathSeparator]
      simp only [cleanLoop, hs]
      exact cleanLoop_fuel_eq rooted _ _ _ _ _ (by omega) h2
  | succ n ih =>
    intro a b out dotdot f1 f2 ha hb h1 h2
    cases a with
    | nil => exact ih [] b out dotdot f1 f2 (Nat.zero_le _) hb h1 h2
    | cons c a =>
      cases f1 with
      | zero => simp at h1
      | succ g1 =>
        cases f2 with
        | zero => simp at h2
        | succ g2 =>
          obtain ⟨a2, hlen, e1, e2, e3⟩ := cleanStep_skip rooted c a b out dotdot hb
          simp only [List.cons_append, List.length_cons, List.length_append] at h1 h2 ha
          show cleanLoop rooted g1 (cleanStep rooted c (a ++ '/' :: b) out dotdot).1
              (cleanStep rooted c (a ++ '/' :: b) out dotdot).2.1
              (cleanStep rooted c (a ++ '/' :: b) out dotdot).2.2
            = cleanLoop rooted g2 (cleanStep rooted c (a ++ b) out dotdot).1
              (cleanStep rooted c (a ++ b) out dotdot).2.1
              (cleanStep rooted c (a ++ b) out dotdot).2.2
          rw [e1, e2, e3]
          apply ih a2 b _ _ g1 g2 (by omega) hb
          · simp only [List.length_append, List.length_cons]; omega
          · simp only [List.length_append]; omega

theorem string_ne_empty_iff (s : String) : s ≠ "" ↔ s.data ≠ [] := by
  constructor
  · intro h hd; exact h (String.ext hd)
  · intro h hs; exact h (by subst hs; rfl)

/-- `Clean` does not see whether a separator that is followed by a separator,
or by nothing, and is not the first byte of the path, is there. -/
theorem Clean_skip (a b : List Char) (ha : a ≠ []) (hb : elemEnds b = true) :
    Clean (String.mk (a ++ '/' :: b)) = Clean (String.mk (a ++ b)) := by
  obtain ⟨c, t, rfl⟩ := List.exists_cons_of_ne_nil ha
  have n1 : ¬ ((String.mk (c :: (t ++ '/' :: b))) == "") = true := by
    simp [String.ext_iff]
  have n2 : ¬ ((String.mk (c :: (t ++ b))) == "") = true := by
    simp [String.ext_iff]
  simp only [Clean, List.cons_append, if_neg n1, if_neg n2, List.headD_cons, List.drop_succ_cons,
    List.drop_zero]
  have k1 := cleanLoop_skip (os.IsPathSeparator c) t.length t b [Separator] 1
    (c :: (t ++ '/' :: b)).length (c :: (t ++ b)).length le_rfl hb (by simp) (by simp)
  have k2 := cleanLoop_skip (os.IsPathSeparator c) (c :: t).length (c :: t) b [] 0
    (c :: (t ++ '/' :: b)).length (c :: (t ++ b)).length le_rfl hb (by simp) (by simp)
  simp only [List.cons_append] at k2
  rw [k1, k2]

end filepath

namespace filepath

/-- The bytes that `strings.Join` puts after the first element. -/
theorem strings_Join_data (e : String) (rest : List String) :
    (strings.Join (e :: rest) (String.singleton Separator)).data
      = e.data ++ rest.flatMap (fun x => '/' :: x.data) := by
  induction rest generalizing e with
  | nil => simp [strings.Join]
  | cons x rest ih =>
    simp only [strings.Join, String.data_append, ih, List.flatMap_cons]
    simp [String.singleton, Separator]

theorem elemEnds_flatMap (rest : List String) :
    elemEnds (rest.flatMap (fun x => '/' :: x.data)) = true := by
  cases rest <;> simp [elemEnds, os.IsPathSeparator]

theorem Clean_skip_empty (pre : List Char) (hpre : pre ≠ []) (rest : List String) :
    Clean (String.mk (pre ++ rest.flatMap (fun x => '/' :: x.data)))
      = Clean (String.mk
          (pre ++ (rest.filter (fun x => x != "")).flatMap (fun x => '/' :: x.data))) := by
  induction rest generalizing pre with
  | nil => rfl
  | cons x rest ih =>
    by_cases hx : x = ""
    · subst hx
      have hf : (("" : String) != "") = false := by decide
      have e1 : ("" :: rest).flatMap (fun x => '/' :: x.data)
          = '/' :: rest.flatMap (fun x => '/' :: x.data) := rfl
      have e2 : ("" :: rest).filter (fun x => x != "") = rest.filter (fun x => x != "") := by
        rw [List.filter_cons, hf]; rfl
      rw [e1, e2, Clean_skip pre _ hpre (elemEnds_flatMap rest)]
      exact ih pre hpre
    · have hf : (x != "") = true := by simpa using hx
      simp only [List.flatMap_cons, List.filter_cons, hf, if_true]
      have := ih (pre ++ '/' :: x.data) (by simp)
      simpa [List.append_assoc] using this

/-- `Join` skips empty elements. -/
theorem Join_filter (elems : List String) :
    Join elems = Join (elems.filter (fun x => x != "")) := by
  induction elems with
  | nil => rfl
  | cons e rest ih =>
    by_cases he : e = ""
    · subst he
      have hf : (("" : String) != "") = false := by decide
      simp only [List.filter_cons, hf]
      simpa [Join] using ih
    · have hf : (e != "") = true := by simpa using he
      simp only [List.filter_cons, hf, if_true, Join]
      have hd : e.data ≠ [] := (string_ne_empty_iff e).1 he
      have h1 : strings.Join (e :: rest) (String.singleton Separator)
          = String.mk (e.data ++ rest.flatMap (fun x => '/' :: x.data)) :=
        String.ext (strings_Join_data e rest)
      have h2 : strings.Join (e :: rest.filter (fun x => x != "")) (String.singleton Separator)
          = String.mk (e.data ++ (rest.filter (fun x => x != "")).flatMap
              (fun x => '/' :: x.data)) :=
        String.ext (strings_Join_data e _)
      rw [h1, h2]
      exact Clean_skip_empty e.data hd rest

/-- `Join` cleans the non-empty elements joined with the separator. -/
theorem Join_eq_Clean (elems : List String) :
    Join elems =
      if (elems.filter (fun x => x != "")).isEmpty then ""
      else Clean (strings.Join (elems.filter (fun x => x != "")) (String.singleton Separator)) := by
  rw [Join_filter]
  have hall : ∀ x ∈ elems.filter (fun x => x != ""), (x != "") = true := by
    intro x hx; exact (List.mem_filter.1 hx).2
  generalize elems.filter (fun x => x != "") = l at hall
  cases l with
  | nil => rfl
  | cons e rest =>
    have := hall e (List.mem_cons_self _ _)
    simp [Join, this]

end filepath

namespace exec

open schema

/-- C4: the terraform and helmfile working directories are the path join of
`BasePath`, the tool's `BasePath`, `ComponentFolderPrefix` and `FinalComponent`;
the join skips empty elements and cleans the non-empty ones joined with the
separator (and is the empty string when all are empty).  With `BasePath`
`/repo`, terraform base `components/terraform` and `FinalComponent` `vpc` the
terraform working dir is `/repo/components/terraform/vpc` for an empty
`ComponentFolderPrefix` and `/repo/components/terraform/networking/aws/vpc` for
`ComponentFolderPrefix` `networking/aws`. -/
theorem C4_working_dir :
    (∀ (cliConfig : CliConfiguration) (info : ConfigAndStacksInfo),
      constructTerraformComponentWorkingDir cliConfig info =
        filepath.Join [cliConfig.BasePath, cliConfig.Components.Terraform.BasePath,
          info.ComponentFolderPrefix, info.FinalComponent]) ∧
    (∀ (cliConfig : CliConfiguration) (info : ConfigAndStacksInfo),
      constructHelmfileComponentWorkingDir cliConfig info =
        filepath.Join [cliConfig.BasePath, cliConfig.Components.Helmfile.BasePath,
          info.ComponentFolderPrefix, info.FinalComponent]) ∧
    (∀ elems : List String,
      filepath.Join elems = filepath.Join (elems.filter (fun x => x != ""))) ∧
    (∀ elems : List String,
      filepath.Join elems =
        if (elems.filter (fun x => x != "")).isEmpty then ""
        else filepath.Clean (strings.Join (elems.filter (fun x => x != ""))
          (String.singleton filepath.Separator))) ∧
    (∀ (helmfile : Helmfile) (replaced component contextPrefix : String),
      constructTerraformComponentWorkingDir
          { BasePath := "/repo",
            Components := { Terraform := { BasePath := "components/terraform" },
                            Helmfile := helmfile } }
          { ComponentFolderPrefix := "", ComponentFolderPrefixReplaced := replaced,
            FinalComponent := "vpc", Component := component,
            ContextPrefix := contextPrefix }
        = "/repo/components/terraform/vpc") ∧
    (∀ (helmfile : Helmfile) (replaced component contextPrefix : String),
      constructTerraformComponentWorkingDir
          { BasePath := "/repo",
            Components := { Terraform := { BasePath := "components/terraform" },
                            Helmfile := helmfile } }
          { ComponentFolderPrefix := "networking/aws",
            ComponentFolderPrefixReplaced := replaced,
            FinalComponent := "vpc", Component := component,
            ContextPrefix := contextPrefix }
        = "/repo/components/terraform/networking/aws/vpc") :=
  ⟨fun _ _ => rfl, fun _ _ => rfl, filepath.Join_filter, filepath.Join_eq_Clean,
    fun _ _ _ _ => by
      show filepath.Join ["/repo", "components/terraform", "", "vpc"] = _
      decide,
    fun _ _ _ _ => by
      show filepath.Join ["/repo", "components/terraform", "networking/aws", "vpc"] = _
      decide⟩

/-- C5: each artifact path is the path join of the working directory and the
artifact name: the terraform varfile path, the terraform planfile path and the
helmfile varfile path; for the inputs of scenario S3 the helmfile varfile path
is `/repo/components/helmfile/nginx/tenant1-ue1-prod-nginx.helmfile.vars.yaml`. -/
theorem C5_artifact_paths :
    (∀ (cliConfig : CliConfiguration) (info : ConfigAndStacksInfo),
      constructTerraformComponentVarfilePath cliConfig info =
        filepath.Join [constructTerraformComponentWorkingDir cliConfig info,
          constructTerraformComponentVarfileName info]) ∧
    (∀ (cliConfig : CliConfiguration) (info : ConfigAndStacksInfo),
      constructTerraformComponentPlanfilePath cliConfig info =
        filepath.Join [constructTerraformComponentWorkingDir cliConfig info,
          constructTerraformComponentPlanfileName info]) ∧
    (∀ (cliConfig : CliConfiguration) (info : ConfigAndStacksInfo),
      constructHelmfileComponentVarfilePath cliConfig info =
        filepath.Join [constructHelmfileComponentWorkingDir cliConfig info,
          constructHelmfileComponentVarfileName info]) ∧
    (∀ terraform : Terraform,
      constructHelmfileComponentVarfilePath
          { BasePath := "/repo",
            Components := { Terraform := terraform,
                            Helmfile := { BasePath := "components/helmfile" } } }
          { ComponentFolderPrefix := "", ComponentFolderPrefixReplaced := "",
            FinalComponent := "nginx", Component := "nginx",
            ContextPrefix := "tenant1-ue1-prod" }
        = "/repo/components/helmfile/nginx/tenant1-ue1-prod-nginx.helmfile.vars.yaml") :=
  ⟨fun _ _ => rfl, fun _ _ => rfl, fun _ _ => rfl, fun _ => by
    show filepath.Join [filepath.Join ["/repo", "components/helmfile", "", "nginx"],
      constructHelmfileComponentVarfileName
        { ComponentFolderPrefix := "", ComponentFolderPrefixReplaced := "",
          FinalComponent := "nginx", Component := "nginx",
          ContextPrefix := "tenant1-ue1-prod" }] = _
    decide⟩

/-- C6: two infos with the same `Component` and the same
`ComponentFolderPrefixReplaced` but different `ContextPrefix` have different
terraform varfile names, different terraform planfile names and different
helmfile varfile names. -/
theorem C6_distinct_stacks_distinct_names (i1 i2 : ConfigAndStacksInfo)
    (hc : i1.Component = i2.Component)
    (hp : i1.ComponentFolderPrefixReplaced = i2.ComponentFolderPrefixReplaced)
    (hx : i1.ContextPrefix ≠ i2.ContextPrefix) :
    constructTerraformComponentVarfileName i1 ≠ constructTerraformComponentVarfileName i2 ∧
    constructTerraformComponentPlanfileName i1 ≠ constructTerraformComponentPlanfileName i2 ∧
    constructHelmfileComponentVarfileName i1 ≠ constructHelmfileComponentVarfileName i2 := by
  have h2 : ∀ sfx : String,
      i1.ContextPrefix ++ "-" ++ i1.Component ++ sfx
        ≠ i2.ContextPrefix ++ "-" ++ i2.Component ++ sfx := fun sfx => by
    rw [hc]
    exact string_append_ne (string_append_ne (string_append_ne hx _) _) _
  have h3 : ∀ sfx : String,
      i1.ContextPrefix ++ "-" ++ i1.ComponentFolderPrefixReplaced ++ "-" ++ i1.Component ++ sfx
        ≠ i2.ContextPrefix ++ "-" ++ i1.ComponentFolderPrefixReplaced ++ "-" ++ i2.Component
            ++ sfx := fun sfx => by
    rw [hc]
    exact string_append_ne (string_append_ne (string_append_ne
      (string_append_ne (string_append_ne hx _) _) _) _) _
  rw [varfileName_eq, varfileName_eq, planfileName_eq, planfileName_eq, helmfileName_eq,
    helmfileName_eq, ← hp]
  by_cases he : i1.ComponentFolderPrefixReplaced = ""
  · simp only [if_pos he]
    exact ⟨h2 _, h2 _, h2 _⟩
  · simp only [if_neg he]
    exact ⟨h3 _, h3 _, h3 _⟩

/-- Witness of C6: the component `vpc` in the stacks `tenant1-ue1-dev` and
`tenant1-ue1-prod`. -/
theorem C6_distinct_stacks_distinct_names_witness :
    constructTerraformComponentVarfileName
        { ComponentFolderPrefix := "", ComponentFolderPrefixReplaced := "",
          FinalComponent := "vpc", Component := "vpc", ContextPrefix := "tenant1-ue1-dev" }
      ≠ constructTerraformComponentVarfileName
        { ComponentFolderPrefix := "", ComponentFolderPrefixReplaced := "",
          FinalComponent := "vpc", Component := "vpc", ContextPrefix := "tenant1-ue1-prod" } ∧
    constructTerraformComponentPlanfileName
        { ComponentFolderPrefix := "", ComponentFolderPrefixReplaced := "",
          FinalComponent := "vpc", Component := "vpc", ContextPrefix := "tenant1-ue1-dev" }
      ≠ constructTerraformComponentPlanfileName
        { ComponentFolderPrefix := "", ComponentFolderPrefixReplaced := "",
          FinalComponent := "vpc", Component := "vpc", ContextPrefix := "tenant1-ue1-prod" } ∧
    constructHelmfileComponentVarfileName
        { ComponentFolderPrefix := "", ComponentFolderPrefixReplaced := "",
          FinalComponent := "vpc", Component := "vpc", ContextPrefix := "tenant1-ue1-dev" }
      ≠ constructHelmfileComponentVarfileName
        { ComponentFolderPrefix := "", ComponentFolderPrefixReplaced := "",
          FinalComponent := "vpc", Component := "vpc", ContextPrefix := "tenant1-ue1-prod" } :=
  C6_distinct_stacks_distinct_names _ _ rfl rfl (by decide)

end exec


namespace exec

open schema

theorem sep_not_mem_append {a b : String} (ha : '/' ∉ a.data) (hb : '/' ∉ b.data) :
    '/' ∉ (a ++ b).data := by
  simp only [String.data_append, List.mem_append, not_or]
  exact ⟨ha, hb⟩

/-- C7, as stated, fails: a separator in `Component` is carried into the three
names (`Component` `a/b` in the stack `dev`). -/
theorem C7_counterexample :
    '/' ∈ (constructTerraformComponentVarfileName
        { ComponentFolderPrefix := "", ComponentFolderPrefixReplaced := "",
          FinalComponent := "b", Component := "a/b", ContextPrefix := "dev" }).data ∧
    '/' ∈ (constructTerraformComponentPlanfileName
        { ComponentFolderPrefix := "", ComponentFolderPrefixReplaced := "",
          FinalComponent := "b", Component := "a/b", ContextPrefix := "dev" }).data ∧
    '/' ∈ (constructHelmfileComponentVarfileName
        { ComponentFolderPrefix := "", ComponentFolderPrefixReplaced := "",
          FinalComponent := "b", Component := "a/b", ContextPrefix := "dev" }).data := by
  decide

/-- C7, amended: when none of `ContextPrefix`, `ComponentFolderPrefixReplaced`
and `Component` contains the path separator, none of the three names (terraform
varfile, terraform planfile, helmfile varfile) contains it. -/
theorem C7_no_separator_in_names (info : ConfigAndStacksInfo)
    (hx : '/' ∉ info.ContextPrefix.data)
    (hp : '/' ∉ info.ComponentFolderPrefixReplaced.data)
    (hc : '/' ∉ info.Component.data) :
    '/' ∉ (constructTerraformComponentVarfileName info).data ∧
    '/' ∉ (constructTerraformComponentPlanfileName info).data ∧
    '/' ∉ (constructHelmfileComponentVarfileName info).data := by
  have hd : '/' ∉ ("-" : String).data := by decide
  have h2 : ∀ sfx : String, '/' ∉ sfx.data →
      '/' ∉ (info.ContextPrefix ++ "-" ++ info.Component ++ sfx).data := fun sfx hs =>
    sep_not_mem_append (sep_not_mem_append (sep_not_mem_append hx hd) hc) hs
  have h3 : ∀ sfx : String, '/' ∉ sfx.data →
      '/' ∉ (info.ContextPrefix ++ "-" ++ info.ComponentFolderPrefixReplaced ++ "-"
        ++ info.Component ++ sfx).data := fun sfx hs =>
    sep_not_mem_append (sep_not_mem_append (sep_not_mem_append
      (sep_not_mem_append (sep_not_mem_append hx hd) hp) hd) hc) hs
  rw [varfileName_eq, planfileName_eq, helmfileName_eq]
  by_cases he : info.ComponentFolderPrefixReplaced = ""
  · simp only [if_pos he]
    exact ⟨h2 _ (by decide), h2 _ (by decide), h2 _ (by decide)⟩
  · simp only [if_neg he]
    exact ⟨h3 _ (by decide), h3 _ (by decide), h3 _ (by decide)⟩

/-- Witness of C7, amended: the inputs of scenario S2. -/
theorem C7_no_separator_in_names_witness :
    '/' ∉ (constructTerraformComponentVarfileName
        { ComponentFolderPrefix := "networking/aws",
          ComponentFolderPrefixReplaced := "networking-aws",
          FinalComponent := "vpc", Component := "vpc",
          ContextPrefix := "tenant1-ue1-prod" }).data ∧
    '/' ∉ (constructTerraformComponentPlanfileName
        { ComponentFolderPrefix := "networking/aws",
          ComponentFolderPrefixReplaced := "networking-aws",
          FinalComponent := "vpc", Component := "vpc",
          ContextPrefix := "tenant1-ue1-prod" }).data ∧
    '/' ∉ (constructHelmfileComponentVarfileName
        { ComponentFolderPrefix := "networking/aws",
          ComponentFolderPrefixReplaced := "networking-aws",
          FinalComponent := "vpc", Component := "vpc",
          ContextPrefix := "tenant1-ue1-prod" }).data :=
  C7_no_separator_in_names _ (by decide) (by decide) (by decide)

theorem contains_of_shape (x p y : String) :
    strings.Contains (x ++ "-" ++ p ++ "-" ++ y) p = true := by
  rw [contains_iff]
  refine ⟨(x ++ "-").data, ("-" ++ y).data, ?_⟩
  simp [String.data_append]

/-- C8, as stated, fails: with an empty `ComponentFolderPrefixReplaced` each of
the three names contains it as a substring (the empty string occurs in every
string), although its length is not greater than zero. -/
theorem C8_counterexample :
    ¬ (strings.Contains (constructTerraformComponentPlanfileName
          { ComponentFolderPrefix := "", ComponentFolderPrefixReplaced := "",
            FinalComponent := "vpc", Component := "vpc",
            ContextPrefix := "tenant1-ue1-prod" }) "" = true
        ↔ 0 < len "") ∧
    ¬ (strings.Contains (constructTerraformComponentVarfileName
          { ComponentFolderPrefix := "", ComponentFolderPrefixReplaced := "",
            FinalComponent := "vpc", Component := "vpc",
            ContextPrefix := "tenant1-ue1-prod" }) "" = true
        ↔ 0 < len "") ∧
    ¬ (strings.Contains (constructHelmfileComponentVarfileName
          { ComponentFolderPrefix := "", ComponentFolderPrefixReplaced := "",
            FinalComponent := "vpc", Component := "vpc",
            ContextPrefix := "tenant1-ue1-prod" }) "" = true
        ↔ 0 < len "") := by
  decide

/-- C8, amended: when the length of `ComponentFolderPrefixReplaced` is greater
than zero, each of the three names contains it as a substring. -/
theorem C8_prefix_in_names (info : ConfigAndStacksInfo)
    (h : 0 < len info.ComponentFolderPrefixReplaced) :
    strings.Contains (constructTerraformComponentVarfileName info)
        info.ComponentFolderPrefixReplaced = true ∧
    strings.Contains (constructTerraformComponentPlanfileName info)
        info.ComponentFolderPrefixReplaced = true ∧
    strings.Contains (constructHelmfileComponentVarfileName info)
        info.ComponentFolderPrefixReplaced = true := by
  have hne : info.ComponentFolderPrefixReplaced ≠ "" := by
    intro h0
    rw [(len_eq_zero_iff _).2 h0] at h
    exact Nat.lt_irrefl 0 h
  rw [varfileName_eq, planfileName_eq, helmfileName_eq]
  simp only [if_neg hne]
  refine ⟨?_, ?_, ?_⟩
  · rw [String.append_assoc]; exact contains_of_shape _ _ _
  · rw [String.append_assoc]; exact contains_of_shape _ _ _
  · rw [String.append_assoc]; exact contains_of_shape _ _ _

/-- Witness of C8, amended: the inputs of scenario S2. -/
theorem C8_prefix_in_names_witness :
    strings.Contains (constructTerraformComponentVarfileName
        { ComponentFolderPrefix := "networking/aws",
          ComponentFolderPrefixReplaced := "networking-aws",
          FinalComponent := "vpc", Component := "vpc",
          ContextPrefix := "tenant1-ue1-prod" }) "networking-aws" = true ∧
    strings.Contains (constructTerraformComponentPlanfileName
        { ComponentFolderPrefix := "networking/aws",
          ComponentFolderPrefixReplaced := "networking-aws",
          FinalComponent := "vpc", Component := "vpc",
          ContextPrefix := "tenant1-ue1-prod" }) "networking-aws" = true ∧
    strings.Contains (constructHelmfileComponentVarfileName
        { ComponentFolderPrefix := "networking/aws",
          ComponentFolderPrefixReplaced := "networking-aws",
          FinalComponent := "vpc", Component := "vpc",
          ContextPrefix := "tenant1-ue1-prod" }) "networking-aws" = true :=
  C8_prefix_in_names _ (by decide)

end exec

namespace exec

/-! ## Find folders with prefix -/

theorem matches_eq (pfx name : String) :
    (pfx == "" || strings.HasPrefix name pfx) = decide (pfx = "" ∨ pfx.data <+: name.data) := by
  by_cases h1 : pfx = ""
  · simp [h1]
  · by_cases h2 : pfx.data <+: name.data
    · simp [h1, h2, strings.HasPrefix, List.isPrefixOf_iff_prefix]
    · have hf : pfx.data.isPrefixOf name.data = false := by
        rw [Bool.eq_false_iff]
        exact fun h => h2 (List.isPrefixOf_iff_prefix.1 h)
      simp [h1, h2, strings.HasPrefix, hf]

theorem foldl_append_if {α β : Type} (q : α → Bool) (f : α → β) (l : List α) (acc : List β) :
    l.foldl (fun acc s => if q s then acc ++ [f s] else acc) acc
      = acc ++ (l.filter q).map f := by
  induction l generalizing acc with
  | nil => simp
  | cons s l ih =>
    rw [List.foldl_cons, ih]
    cases hq : q s <;> simp [List.filter_cons, hq]

theorem foldl_findLevel2Step (pfx dirName : String) (subs : List os.DirEntry)
    (acc : List String) :
    subs.foldl (findLevel2Step pfx dirName) acc
      = acc ++ (subs.filter
          (fun s => s.IsDir && decide (pfx = "" ∨ pfx.data <+: s.Name.data))).map
          (fun s => filepath.Join [dirName, s.Name]) := by
  have hstep : findLevel2Step pfx dirName
      = fun acc s =>
          if (fun s : os.DirEntry =>
              s.IsDir && decide (pfx = "" ∨ pfx.data <+: s.Name.data)) s
          then acc ++ [(fun s : os.DirEntry => filepath.Join [dirName, s.Name]) s] else acc := by
    funext acc s
    simp only [findLevel2Step, matches_eq]
  rw [hstep, foldl_append_if]

theorem findLevel1Step_folderNames (readDir : os.ReadDirFn) (root pfx : String)
    (st : FindState) (d : os.DirEntry) :
    (findLevel1Step readDir root pfx st d).folderNames
      = st.folderNames ++ specFindFolders readDir root pfx [d] := by
  unfold findLevel1Step specFindFolders
  by_cases hd : d.IsDir = true
  · simp only [hd, if_true, matches_eq, List.flatMap_cons, List.flatMap_nil, List.append_nil]
    cases hr : readDir (filepath.Join [root, d.Name]) with
    | error err =>
      by_cases hm : pfx = "" ∨ pfx.data <+: d.Name.data <;> simp [hm]
    | ok children =>
      simp only [foldl_findLevel2Step]
      by_cases hm : pfx = "" ∨ pfx.data <+: d.Name.data <;> simp [hm]
  · simp [hd]

theorem specFindFolders_cons (readDir : os.ReadDirFn) (root pfx : String)
    (d : os.DirEntry) (entries : List os.DirEntry) :
    specFindFolders readDir root pfx (d :: entries)
      = specFindFolders readDir root pfx [d] ++ specFindFolders readDir root pfx entries := by
  simp only [specFindFolders, List.flatMap_cons, List.flatMap_nil, List.append_nil]

theorem foldl_findLevel1Step (readDir : os.ReadDirFn) (root pfx : String)
    (entries : List os.DirEntry) (st : FindState) :
    (entries.foldl (findLevel1Step readDir root pfx) st).folderNames
      = st.folderNames ++ specFindFolders readDir root pfx entries := by
  induction entries generalizing st with
  | nil => simp [specFindFolders]
  | cons d entries ih =>
    rw [List.foldl_cons, ih, findLevel1Step_folderNames, List.append_assoc,
      ← specFindFolders_cons]

theorem mem_specFindFolders (readDir : os.ReadDirFn) (root pfx : String)
    (entries : List os.DirEntry) (p : String)
    (hp : p ∈ specFindFolders readDir root pfx entries) :
    ∃ d ∈ entries, d.IsDir = true ∧
      (p = d.Name ∨
        ∃ children, readDir (filepath.Join [root, d.Name]) = .ok children ∧
          ∃ s ∈ children, s.IsDir = true ∧ p = filepath.Join [d.Name, s.Name]) := by
  simp only [specFindFolders, List.mem_flatMap] at hp
  obtain ⟨d, hd, hp⟩ := hp
  by_cases hdir : d.IsDir = true
  · refine ⟨d, hd, hdir, ?_⟩
    simp only [hdir, if_true, List.mem_append] at hp
    rcases hp with hp | hp
    · left
      split at hp
      · simpa using hp
      · simp at hp
    · right
      cases hr : readDir (filepath.Join [root, d.Name]) with
      | error err => rw [hr] at hp; simp at hp
      | ok children =>
        rw [hr] at hp
        simp only [List.mem_map, List.mem_filter, Bool.and_eq_true] at hp
        obtain ⟨s, ⟨hs, hsd, _⟩, rfl⟩ := hp
        exact ⟨children, rfl, s, hs, hsd, rfl⟩
  · simp [hdir] at hp

/-- C9: when `root` can be listed, `findFoldersNamesWithPrefix(root, prefix)`
returns exactly the list obtained by walking the entries of `root` in listing
order and, for each entry `d` that is a directory, emitting `d`'s name if the
prefix is empty or the name starts with it, followed (when `d`, that is
`join(root, d.name)`, can be listed, whether `d` matched or not) by
`join(d.name, s.name)` for each entry `s` of `d`, in listing order, that is a
directory and whose name starts with the prefix or the prefix is empty.  Every
returned path comes from a directory entry of `root`, or from a directory entry
of such an entry: other entries contribute nothing and nothing below level 2
is returned. -/
theorem C9_find_folders_exact (readDir : os.ReadDirFn) (root pfx : String)
    (entries : List os.DirEntry) (hroot : readDir root = .ok entries) :
    (findFoldersNamesWithPrefix readDir root pfx).1
        = .ok (specFindFolders readDir root pfx entries) ∧
    ∀ p ∈ specFindFolders readDir root pfx entries,
      ∃ d ∈ entries, d.IsDir = true ∧
        (p = d.Name ∨
          ∃ children, readDir (filepath.Join [root, d.Name]) = .ok children ∧
            ∃ s ∈ children, s.IsDir = true ∧ p = filepath.Join [d.Name, s.Name]) := by
  refine ⟨?_, mem_specFindFolders readDir root pfx entries⟩
  simp only [findFoldersNamesWithPrefix, hroot, foldl_findLevel1Step, List.nil_append]


/-- Witness of C9: the tree of scenario S4, listed from `/root` with the
prefix `tf-`. -/
theorem C9_find_folders_exact_witness :
    (findFoldersNamesWithPrefix (os.ReadDir scenarioS4) "/root" "tf-").1
        = .ok (specFindFolders (os.ReadDir scenarioS4) "/root" "tf-"
            [⟨"other", true⟩, ⟨"tf-a", true⟩, ⟨"tf-b", true⟩, ⟨"tf-file", false⟩]) ∧
    ∀ p ∈ specFindFolders (os.ReadDir scenarioS4) "/root" "tf-"
        [⟨"other", true⟩, ⟨"tf-a", true⟩, ⟨"tf-b", true⟩, ⟨"tf-file", false⟩],
      ∃ d ∈ [(⟨"other", true⟩ : os.DirEntry), ⟨"tf-a", true⟩, ⟨"tf-b", true⟩,
          ⟨"tf-file", false⟩], d.IsDir = true ∧
        (p = d.Name ∨
          ∃ children, os.ReadDir scenarioS4 (filepath.Join ["/root", d.Name]) = .ok children ∧
            ∃ s ∈ children, s.IsDir = true ∧ p = filepath.Join [d.Name, s.Name]) :=
  C9_find_folders_exact (os.ReadDir scenarioS4) "/root" "tf-" _ rfl

/-- C10, as stated, fails: on the tree of scenario S4 the call
`findFoldersNamesWithPrefix("/root", "tf-")` does not return an ordering of
`tf-a`, `tf-b`, `other/tf-d` and `tf-b/sub-tf-c`, because it does not return
`tf-b/sub-tf-c`: the name `sub-tf-c` does not start with `tf-`. -/
theorem C10_counterexample :
    ¬ ∃ names, (findFoldersNamesWithPrefix (os.ReadDir scenarioS4) "/root" "tf-").1 = .ok names ∧
        names.Perm ["tf-a", "tf-b", "other/tf-d", "tf-b/sub-tf-c"] := by
  rintro ⟨names, h, hperm⟩
  have hv : (findFoldersNamesWithPrefix (os.ReadDir scenarioS4) "/root" "tf-").1
      = .ok ["other/tf-d", "tf-a", "tf-b"] := rfl
  rw [hv] at h
  injection h with h
  subst h
  exact absurd hperm.length_eq (by decide)

/-- C10, amended: on the tree of scenario S4 the call
`findFoldersNamesWithPrefix("/root", "tf-")` succeeds, without a warning, and
returns `other/tf-d`, `tf-a`, `tf-b`, an ordering of `tf-a`, `tf-b` and
`other/tf-d`; it returns neither `tf-b/sub-tf-c` nor `tf-b/sub1` nor
`tf-file`. -/
theorem C10_scenario_S4 :
    findFoldersNamesWithPrefix (os.ReadDir scenarioS4) "/root" "tf-"
      = (.ok ["other/tf-d", "tf-a", "tf-b"], []) ∧
    List.Perm ["other/tf-d", "tf-a", "tf-b"] ["tf-a", "tf-b", "other/tf-d"] ∧
    "tf-b/sub-tf-c" ∉ ["other/tf-d", "tf-a", "tf-b"] ∧
    "tf-b/sub1" ∉ ["other/tf-d", "tf-a", "tf-b"] ∧
    "tf-file" ∉ ["other/tf-d", "tf-a", "tf-b"] := by
  refine ⟨rfl, by decide, by decide, by decide, by decide⟩

end exec

namespace exec

open schema

/-! ## Aliased components and the non-injective naming rule -/

theorem string_append_left_cancel {a b t : String} (h : t ++ a = t ++ b) : a = b := by
  have hd := congrArg String.data h
  simp only [String.data_append] at hd
  exact String.ext (List.append_cancel_left hd)

theorem string_append_ne_left {a b : String} (h : a ≠ b) (t : String) : t ++ a ≠ t ++ b :=
  fun e => h (string_append_left_cancel e)

/-- C18, as stated, fails: the components `vpc` and `vpc-alias`, both resolved
to the final component `vpc` in the stack `tenant1-ue1-prod`, share the working
directory, but their terraform varfile paths differ, and so do their planfile
paths. -/
theorem C18_counterexample :
    constructTerraformComponentWorkingDir
        { BasePath := "/repo",
          Components := { Terraform := { BasePath := "components/terraform" },
                          Helmfile := { BasePath := "components/helmfile" } } }
        { ComponentFolderPrefix := "", ComponentFolderPrefixReplaced := "",
          FinalComponent := "vpc", Component := "vpc", ContextPrefix := "tenant1-ue1-prod" }
      = constructTerraformComponentWorkingDir
        { BasePath := "/repo",
          Components := { Terraform := { BasePath := "components/terraform" },
                          Helmfile := { BasePath := "components/helmfile" } } }
        { ComponentFolderPrefix := "", ComponentFolderPrefixReplaced := "",
          FinalComponent := "vpc", Component := "vpc-alias",
          ContextPrefix := "tenant1-ue1-prod" } ∧
    constructTerraformComponentVarfilePath
        { BasePath := "/repo",
          Components := { Terraform := { BasePath := "components/terraform" },
                          Helmfile := { BasePath := "components/helmfile" } } }
        { ComponentFolderPrefix := "", ComponentFolderPrefixReplaced := "",
          FinalComponent := "vpc", Component := "vpc", ContextPrefix := "tenant1-ue1-prod" }
      ≠ constructTerraformComponentVarfilePath
        { BasePath := "/repo",
          Components := { Terraform := { BasePath := "components/terraform" },
                          Helmfile := { BasePath := "components/helmfile" } } }
        { ComponentFolderPrefix := "", ComponentFolderPrefixReplaced := "",
          FinalComponent := "vpc", Component := "vpc-alias",
          ContextPrefix := "tenant1-ue1-prod" } ∧
    constructTerraformComponentPlanfilePath
        { BasePath := "/repo",
          Components := { Terraform := { BasePath := "components/terraform" },
                          Helmfile := { BasePath := "components/helmfile" } } }
        { ComponentFolderPrefix := "", ComponentFolderPrefixReplaced := "",
          FinalComponent := "vpc", Component := "vpc", ContextPrefix := "tenant1-ue1-prod" }
      ≠ constructTerraformComponentPlanfilePath
        { BasePath := "/repo",
          Components := { Terraform := { BasePath := "components/terraform" },
                          Helmfile := { BasePath := "components/helmfile" } } }
        { ComponentFolderPrefix := "", ComponentFolderPrefixReplaced := "",
          FinalComponent := "vpc", Component := "vpc-alias",
          ContextPrefix := "tenant1-ue1-prod" } := by
  decide

/-- C18, amended: two infos with distinct `Component` values and the same
`FinalComponent`, all other fields equal, share the terraform working
directory; their terraform varfile names differ and their planfile names
differ, and the varfile path and the planfile path of each are the join of the
shared working directory and its own name. -/
theorem C18_aliased_components (cliConfig : CliConfiguration) (i1 i2 : ConfigAndStacksInfo)
    (hc : i1.Component ≠ i2.Component)
    (hf : i1.FinalComponent = i2.FinalComponent)
    (hd : i1.ComponentFolderPrefix = i2.ComponentFolderPrefix)
    (hp : i1.ComponentFolderPrefixReplaced = i2.ComponentFolderPrefixReplaced)
    (hx : i1.ContextPrefix = i2.ContextPrefix) :
    constructTerraformComponentWorkingDir cliConfig i1
        = constructTerraformComponentWorkingDir cliConfig i2 ∧
    constructTerraformComponentVarfileName i1 ≠ constructTerraformComponentVarfileName i2 ∧
    constructTerraformComponentPlanfileName i1 ≠ constructTerraformComponentPlanfileName i2 ∧
    constructTerraformComponentVarfilePath cliConfig i2
        = filepath.Join [constructTerraformComponentWorkingDir cliConfig i1,
            constructTerraformComponentVarfileName i2] ∧
    constructTerraformComponentPlanfilePath cliConfig i2
        = filepath.Join [constructTerraformComponentWorkingDir cliConfig i1,
            constructTerraformComponentPlanfileName i2] := by
  have hwd : constructTerraformComponentWorkingDir cliConfig i1
      = constructTerraformComponentWorkingDir cliConfig i2 := by
    simp only [constructTerraformComponentWorkingDir, hf, hd]
  have h2 : ∀ sfx : String,
      i1.ContextPrefix ++ "-" ++ i1.Component ++ sfx
        ≠ i1.ContextPrefix ++ "-" ++ i2.Component ++ sfx := fun sfx =>
    string_append_ne (string_append_ne_left hc _) _
  have h3 : ∀ sfx : String,
      i1.ContextPrefix ++ "-" ++ i1.ComponentFolderPrefixReplaced ++ "-" ++ i1.Component ++ sfx
        ≠ i1.ContextPrefix ++ "-" ++ i1.ComponentFolderPrefixReplaced ++ "-" ++ i2.Component
            ++ sfx := fun sfx =>
    string_append_ne (string_append_ne_left hc _) _
  refine ⟨hwd, ?_, ?_, ?_, ?_⟩
  · rw [varfileName_eq, varfileName_eq, ← hp, ← hx]
    by_cases he : i1.ComponentFolderPrefixReplaced = ""
    · simp only [if_pos he]; exact h2 _
    · simp only [if_neg he]; exact h3 _
  · rw [planfileName_eq, planfileName_eq, ← hp, ← hx]
    by_cases he : i1.ComponentFolderPrefixReplaced = ""
    · simp only [if_pos he]; exact h2 _
    · simp only [if_neg he]; exact h3 _
  · rw [hwd]; rfl
  · rw [hwd]; rfl

/-- Witness of C18, amended: the components `vpc` and `vpc-alias`, both
resolved to the final component `vpc`. -/
theorem C18_aliased_components_witness :
    constructTerraformComponentWorkingDir
        { BasePath := "/repo",
          Components := { Terraform := { BasePath := "components/terraform" },
                          Helmfile := { BasePath := "components/helmfile" } } }
        { ComponentFolderPrefix := "", ComponentFolderPrefixReplaced := "",
          FinalComponent := "vpc", Component := "vpc", ContextPrefix := "tenant1-ue1-prod" }
      = constructTerraformComponentWorkingDir
        { BasePath := "/repo",
          Components := { Terraform := { BasePath := "components/terraform" },
                          Helmfile := { BasePath := "components/helmfile" } } }
        { ComponentFolderPrefix := "", ComponentFolderPrefixReplaced := "",
          FinalComponent := "vpc", Component := "vpc-alias",
          ContextPrefix := "tenant1-ue1-prod" } :=
  (C18_aliased_components
    { BasePath := "/repo",
      Components := { Terraform := { BasePath := "components/terraform" },
                      Helmfile := { BasePath := "components/helmfile" } } }
    { ComponentFolderPrefix := "", ComponentFolderPrefixReplaced := "",
      FinalComponent := "vpc", Component := "vpc", ContextPrefix := "tenant1-ue1-prod" }
    { ComponentFolderPrefix := "", ComponentFolderPrefixReplaced := "",
      FinalComponent := "vpc", Component := "vpc-alias", ContextPrefix := "tenant1-ue1-prod" }
    (by decide) rfl rfl rfl rfl).1

/-- C19: the naming rules are not injective in `ContextPrefix`,
`ComponentFolderPrefixReplaced` and `Component`: the context prefix `a-b` with
an empty replaced prefix and the component `c`, and the context prefix `a` with
the replaced prefix `b` and the component `c`, are different triples that give
the same terraform planfile name `a-b-c.planfile`, the same terraform varfile
name and the same helmfile varfile name. -/
theorem C19_names_not_injective :
    ((⟨"", "", "c", "c", "a-b"⟩ : ConfigAndStacksInfo).ContextPrefix,
      (⟨"", "", "c", "c", "a-b"⟩ : ConfigAndStacksInfo).ComponentFolderPrefixReplaced,
      (⟨"", "", "c", "c", "a-b"⟩ : ConfigAndStacksInfo).Component)
      ≠ ((⟨"b", "b", "c", "c", "a"⟩ : ConfigAndStacksInfo).ContextPrefix,
        (⟨"b", "b", "c", "c", "a"⟩ : ConfigAndStacksInfo).ComponentFolderPrefixReplaced,
        (⟨"b", "b", "c", "c", "a"⟩ : ConfigAndStacksInfo).Component) ∧
    constructTerraformComponentPlanfileName ⟨"", "", "c", "c", "a-b"⟩ = "a-b-c.planfile" ∧
    constructTerraformComponentPlanfileName ⟨"b", "b", "c", "c", "a"⟩ = "a-b-c.planfile" ∧
    constructTerraformComponentVarfileName ⟨"", "", "c", "c", "a-b"⟩
      = constructTerraformComponentVarfileName ⟨"b", "b", "c", "c", "a"⟩ ∧
    constructHelmfileComponentVarfileName ⟨"", "", "c", "c", "a-b"⟩
      = constructHelmfileComponentVarfileName ⟨"b", "b", "c", "c", "a"⟩ := by
  decide

end exec

/-! ## The buffer of `Clean` -/

namespace filepath

theorem cleanLoop_eq_cleanState (rooted : Bool) :
    ∀ (fuel : Nat) (p out : List Char) (dotdot : Nat),
      cleanLoop rooted fuel p out dotdot = (cleanState rooted fuel p out dotdot).1 := by
  intro fuel
  induction fuel with
  | zero => intro p out dotdot; rfl
  | succ n ih =>
    intro p out dotdot
    cases p with
    | nil => rfl
    | cons c rest => simp only [cleanLoop, cleanState]; exact ih _ _ _

theorem cleanState_fuel_eq (rooted : Bool) :
    ∀ (f1 f2 : Nat) (p out : List Char) (dotdot : Nat),
      p.length ≤ f1 → p.length ≤ f2 →
      cleanState rooted f1 p out dotdot = cleanState rooted f2 p out dotdot := by
  intro f1
  induction f1 with
  | zero =>
    intro f2 p out dotdot h1 _
    have hp : p = [] := List.length_eq_zero.mp (Nat.le_zero.mp h1)
    subst hp
    cases f2 <;> rfl
  | succ n ih =>
    intro f2 p out dotdot h1 h2
    cases p with
    | nil => cases f2 <;> rfl
    | cons c rest =>
      cases f2 with
      | zero => simp at h2
      | succ m =>
        simp only [cleanState]
        have hl := cleanStep_length rooted c rest out dotdot
        simp only [List.length_cons] at h1 h2
        exact ih m _ _ _ (by omega) (by omega)

theorem cleanRun_nil (rooted : Bool) (out : List Char) (dotdot : Nat) :
    cleanRun rooted [] out dotdot = (out, dotdot) := rfl

theorem cleanRun_cons (rooted : Bool) (c : Char) (rest out : List Char) (dotdot : Nat) :
    cleanRun rooted (c :: rest) out dotdot
      = cleanRun rooted (cleanStep rooted c rest out dotdot).1
          (cleanStep rooted c rest out dotdot).2.1 (cleanStep rooted c rest out dotdot).2.2 := by
  unfold cleanRun
  have hl := cleanStep_length rooted c rest out dotdot
  show cleanState rooted rest.length (cleanStep rooted c rest out dotdot).1 _ _ = _
  exact cleanState_fuel_eq rooted _ _ _ _ _ hl le_rfl

theorem cleanStep_sep (rooted : Bool) (rest out : List Char) (dotdot : Nat) :
    cleanStep rooted '/' rest out dotdot = (rest, out, dotdot) := by
  simp [cleanStep, os.IsPathSeparator]

theorem cleanRun_sep (rooted : Bool) (rest out : List Char) (dotdot : Nat) :
    cleanRun rooted ('/' :: rest) out dotdot = cleanRun rooted rest out dotdot := by
  rw [cleanRun_cons, cleanStep_sep]

theorem cleanStep_dot (rooted : Bool) (rest out : List Char) (dotdot : Nat)
    (hr : elemEnds rest = true) :
    cleanStep rooted '.' rest out dotdot = (rest, out, dotdot) := by
  simp [cleanStep, os.IsPathSeparator, hr]

theorem isName_head_not_sep {c : Char} {t : List Char} (h : isName (c :: t)) :
    os.IsPathSeparator c = false := by
  have := h.2.1
  simp only [List.mem_cons, not_or] at this
  simp only [os.IsPathSeparator, beq_eq_false_iff_ne, ne_eq]
  exact fun e => this.1 e.symm

theorem takeWhile_not_sep {x : List Char} (h : '/' ∉ x) :
    x.takeWhile (fun c => !os.IsPathSeparator c) = x ∧
    x.dropWhile (fun c => !os.IsPathSeparator c) = [] := by
  induction x with
  | nil => simp
  | cons c t ih =>
    simp only [List.mem_cons, not_or] at h
    have hc : os.IsPathSeparator c = false := by
      simp only [os.IsPathSeparator, beq_eq_false_iff_ne, ne_eq]
      exact fun e => h.1 e.symm
    simp [List.takeWhile_cons, List.dropWhile_cons, hc, ih h.2]

/-- The step of `Clean` on a real element copies it. -/
theorem cleanStep_name (rooted : Bool) (c : Char) (t rest out : List Char) (dotdot : Nat)
    (hx : isName (c :: t)) (hr : elemEnds rest = true) :
    cleanStep rooted c (t ++ rest) out dotdot = (rest, addSep rooted out ++ c :: t, dotdot) := by
  have hc := isName_head_not_sep hx
  have hsep : '/' ∉ t := fun h => hx.2.1 (List.mem_cons_of_mem _ h)
  have hd : ¬ (c == '.' && elemEnds (t ++ rest)) = true := by
    intro h
    rw [Bool.and_eq_true, beq_iff_eq] at h
    obtain ⟨h1, h2⟩ := h
    subst h1
    cases t with
    | nil => exact hx.2.2.1 rfl
    | cons d t' =>
      simp only [List.cons_append, elemEnds, os.IsPathSeparator, beq_iff_eq] at h2
      subst h2
      exact hsep (List.mem_cons_self _ _)
  have he : ¬ (c == '.' && (t ++ rest).head? == some '.' && elemEnds (t ++ rest).tail) = true := by
    intro h
    rw [Bool.and_eq_true, Bool.and_eq_true, beq_iff_eq] at h
    obtain ⟨⟨h1, h2⟩, h3⟩ := h
    subst h1
    cases t with
    | nil =>
      rcases (elemEnds_iff rest).1 hr with e | ⟨u, e⟩ <;> subst e <;> simp at h2
    | cons d t' =>
      simp only [List.cons_append, List.head?_cons, beq_iff_eq, Option.some.injEq] at h2
      subst h2
      simp only [List.cons_append, List.tail_cons] at h3
      cases t' with
      | nil => exact hx.2.2.2 rfl
      | cons e t'' =>
        simp only [List.cons_append, elemEnds, os.IsPathSeparator, beq_iff_eq] at h3
        subst h3
        exact hsep (List.mem_cons_of_mem _ (List.mem_cons_self _ _))
  have hcn : ¬ os.IsPathSeparator c = true := by simp [hc]
  have e1 : c :: (t ++ rest) = (c :: t) ++ rest := rfl
  simp only [cleanStep, if_neg hcn, if_neg hd, if_neg he, e1]
  rw [span_append_ends _ _ hr, (takeWhile_not_sep hx.2.1).1, (takeWhile_not_sep hx.2.1).2]
  rfl

end filepath

namespace filepath

theorem Canon_le {rooted : Bool} {out : List Char} {dotdot : Nat}
    (h : Canon rooted out dotdot) : dotdot ≤ out.length := by
  induction h with
  | init => exact le_rfl
  | dotdot _ _ _ _ => exact le_rfl
  | @name out0 dotdot0 x0 _ _ ih =>
    have h1 : out0.length ≤ (addSep rooted out0).length := by
      unfold addSep
      split
      · simp
      · exact le_rfl
    simp only [List.length_append]
    omega

theorem Canon_rooted {out : List Char} {dotdot : Nat} (h : Canon true out dotdot) :
    dotdot = 1 ∧ ∃ t, out = '/' :: t := by
  induction h with
  | init => exact ⟨rfl, [], rfl⟩
  | dotdot _ hr _ _ => cases hr
  | name _ _ ih =>
    obtain ⟨h1, t, rfl⟩ := ih
    refine ⟨h1, ?_⟩
    unfold addSep
    split <;> simp

theorem Canon_unrooted {out : List Char} {dotdot : Nat} (h : Canon false out dotdot) :
    out.head? ≠ some '/' := by
  induction h with
  | init => simp [initOut]
  | @dotdot out0 dotdot0 _ _ _ ih =>
    cases out0 with
    | nil => simp
    | cons c t => simpa using ih
  | @name out0 dotdot0 x0 _ hx ih =>
    cases out0 with
    | nil =>
      obtain ⟨c, t, rfl⟩ := List.exists_cons_of_ne_nil hx.1
      have := isName_head_not_sep hx
      simp only [addSep, List.length_nil]
      simp only [os.IsPathSeparator, beq_eq_false_iff_ne, ne_eq] at this
      simpa using this
    | cons c t =>
      unfold addSep
      split <;> simpa using ih

/-- The scan of `backtrack` passes the bytes that are no separators and lie
above `dotdot`. -/
theorem backtrack_pass (buf : List Char) (dotdot w : Nat) (hw : dotdot ≤ w) :
    ∀ j : Nat, (∀ i, w < i → i ≤ w + j → os.IsPathSeparator (buf.getD i Separator) = false) →
      backtrack buf dotdot (w + j) = backtrack buf dotdot w := by
  intro j
  induction j with
  | zero => intro _; rfl
  | succ j ih =>
    intro h
    have h1 : os.IsPathSeparator (buf.getD (w + j + 1) Separator) = false :=
      h (w + j + 1) (by omega) (by omega)
    have h2 : w + j + 1 > dotdot := by omega
    show backtrack buf dotdot (w + j + 1) = _
    rw [backtrack]
    simp only [h1, h2, decide_True, Bool.not_false, Bool.and_self, if_true]
    exact ih (fun i hi1 hi2 => h i hi1 (by omega))

theorem backtrack_stop (buf : List Char) (dotdot w : Nat)
    (h : w ≤ dotdot ∨ os.IsPathSeparator (buf.getD w Separator) = true) :
    backtrack buf dotdot w = w := by
  cases w with
  | zero => rfl
  | succ w =>
    rw [backtrack]
    rcases h with h | h
    · have : ¬ (w + 1 > dotdot) := by omega
      simp [this]
    · simp only [h, Bool.not_true, Bool.and_false, Bool.false_eq_true, if_false]

theorem getD_name_not_sep (pre x : List Char) (hx : '/' ∉ x) (i : Nat)
    (h1 : pre.length ≤ i) (h2 : i < pre.length + x.length) :
    os.IsPathSeparator ((pre ++ x).getD i Separator) = false := by
  have hlt : i - pre.length < x.length := by omega
  rw [List.getD_eq_getElem?_getD, List.getElem?_append_right h1,
    List.getElem?_eq_getElem hlt]
  simp only [Option.getD_some, os.IsPathSeparator, beq_eq_false_iff_ne, ne_eq]
  intro e
  apply hx
  rw [← e]
  exact List.getElem_mem _

/-- Backtracking over the real element written last gives the buffer as it was
before the element was written. -/
theorem backtrack_name {rooted : Bool} {out : List Char} {dotdot : Nat} {x : List Char}
    (h : Canon rooted out dotdot) (hx : isName x) :
    (addSep rooted out ++ x).take
        (backtrack (addSep rooted out ++ x) dotdot ((addSep rooted out ++ x).length - 1))
      = out := by
  have hle := Canon_le h
  have hxl : 0 < x.length := List.length_pos.2 hx.1
  by_cases hs : ((rooted && out.length != 1) || (!rooted && out.length != 0)) = true
  · -- a separator was added
    have ha : addSep rooted out = out ++ ['/'] := by simp only [addSep, if_pos hs]; rfl
    rw [ha]
    have hlen : (out ++ ['/'] ++ x).length - 1 = out.length + x.length := by
      simp only [List.length_append, List.length_singleton]; omega
    rw [hlen, backtrack_pass _ _ out.length hle x.length, backtrack_stop]
    · simp [List.append_assoc]
    · right
      rw [List.append_assoc, List.getD_eq_getElem?_getD,
        List.getElem?_append_right le_rfl]
      simp [os.IsPathSeparator]
    · intro i hi1 hi2
      exact getD_name_not_sep (out ++ ['/']) x hx.2.1 i (by simp; omega) (by simp; omega)
  · -- no separator was added: the buffer is the initial one
    have ha : addSep rooted out = out := by simp only [addSep, if_neg hs]
    rw [ha]
    have hd : out.length = dotdot := by
      cases rooted with
      | true =>
        have := (Canon_rooted h).1
        simp at hs
        omega
      | false =>
        simp at hs
        rw [hs] at hle ⊢
        simp at hle
        simp [hle]
    have hlen : (out ++ x).length - 1 = out.length + (x.length - 1) := by
      simp only [List.length_append]; omega
    rw [hlen, backtrack_pass _ _ out.length (by omega) (x.length - 1), backtrack_stop]
    · simp
    · left; omega
    · intro i hi1 hi2
      exact getD_name_not_sep out x hx.2.1 i (by omega) (by omega)

end filepath

namespace filepath

theorem takeWhile_not_mem_sep (l : List Char) :
    '/' ∉ l.takeWhile (fun x => !os.IsPathSeparator x) := by
  intro h
  have := List.mem_takeWhile_imp h
  simp [os.IsPathSeparator] at this

theorem takeWhile_eq_nil_iff_elemEnds (l : List Char) :
    l.takeWhile (fun x => !os.IsPathSeparator x) = [] ↔ elemEnds l = true := by
  cases l with
  | nil => simp [elemEnds]
  | cons c t =>
    by_cases hc : os.IsPathSeparator c = true
    · simp [List.takeWhile_cons, elemEnds, hc]
    · simp [List.takeWhile_cons, elemEnds, hc]

/-- The element that the default case of the step of `Clean` copies is a real
element. -/
theorem isName_takeWhile (c : Char) (rest : List Char)
    (hc : ¬ os.IsPathSeparator c = true)
    (hd : ¬ (c == '.' && elemEnds rest) = true)
    (he : ¬ (c == '.' && rest.head? == some '.' && elemEnds rest.tail) = true) :
    isName ((c :: rest).takeWhile (fun x => !os.IsPathSeparator x)) := by
  have hcf : (!os.IsPathSeparator c) = true := by simpa using hc
  have e : (c :: rest).takeWhile (fun x => !os.IsPathSeparator x)
      = c :: rest.takeWhile (fun x => !os.IsPathSeparator x) := by
    simp [List.takeWhile_cons, hcf]
  refine ⟨by rw [e]; simp, takeWhile_not_mem_sep _, ?_, ?_⟩
  · rw [e]
    intro h
    simp only [List.cons.injEq] at h
    obtain ⟨h1, h2⟩ := h
    apply hd
    rw [Bool.and_eq_true, beq_iff_eq]
    exact ⟨h1, (takeWhile_eq_nil_iff_elemEnds rest).1 h2⟩
  · rw [e]
    intro h
    simp only [List.cons.injEq] at h
    obtain ⟨h1, h2⟩ := h
    apply he
    cases rest with
    | nil => simp at h2
    | cons d t =>
      by_cases hdsep : os.IsPathSeparator d = true
      · simp [List.takeWhile_cons, hdsep] at h2
      · have hdf : (!os.IsPathSeparator d) = true := by simpa using hdsep
        simp only [List.takeWhile_cons, hdf, if_true, List.cons.injEq] at h2
        rw [Bool.and_eq_true, Bool.and_eq_true, beq_iff_eq]
        refine ⟨⟨h1, ?_⟩, ?_⟩
        · simp [h2.1]
        · exact (takeWhile_eq_nil_iff_elemEnds t).1 h2.2

/-- Every step of the loop of `Clean` leads from a buffer of the loop to a
buffer of the loop. -/
theorem cleanStep_Canon {rooted : Bool} {out : List Char} {dotdot : Nat}
    (h : Canon rooted out dotdot) (c : Char) (rest : List Char) :
    Canon rooted (cleanStep rooted c rest out dotdot).2.1
      (cleanStep rooted c rest out dotdot).2.2 := by
  by_cases hc : os.IsPathSeparator c = true
  · simp only [cleanStep, if_pos hc]; exact h
  · by_cases hd : (c == '.' && elemEnds rest) = true
    · simp only [cleanStep, if_neg hc, if_pos hd]; exact h
    · by_cases he : (c == '.' && rest.head? == some '.' && elemEnds rest.tail) = true
      · simp only [cleanStep, if_neg hc, if_neg hd, if_pos he]
        by_cases hw : out.length > dotdot
        · simp only [if_pos hw]
          cases h with
          | init => exact absurd hw (Nat.lt_irrefl _)
          | dotdot _ _ _ => exact absurd hw (Nat.lt_irrefl _)
          | name h0 hx => rw [backtrack_name h0 hx]; exact h0
        · simp only [if_neg hw]
          cases rooted with
          | true => simpa using h
          | false =>
            have hl : out.length = dotdot := le_antisymm (by omega) (Canon_le h)
            simpa using Canon.dotdot h rfl hl
      · simp only [cleanStep, if_neg hc, if_neg hd, if_neg he, List.span_eq_take_drop]
        exact Canon.name h (isName_takeWhile c rest hc hd he)

theorem cleanState_Canon {rooted : Bool} :
    ∀ (fuel : Nat) (p out : List Char) (dotdot : Nat), Canon rooted out dotdot →
      Canon rooted (cleanState rooted fuel p out dotdot).1
        (cleanState rooted fuel p out dotdot).2 := by
  intro fuel
  induction fuel with
  | zero => intro p out dotdot h; exact h
  | succ n ih =>
    intro p out dotdot h
    cases p with
    | nil => exact h
    | cons c rest =>
      simp only [cleanState]
      exact ih _ _ _ (cleanStep_Canon h c rest)

theorem cleanRun_Canon {rooted : Bool} {out : List Char} {dotdot : Nat}
    (h : Canon rooted out dotdot) (p : List Char) :
    Canon rooted (cleanRun rooted p out dotdot).1 (cleanRun rooted p out dotdot).2 :=
  cleanState_Canon _ _ _ _ h

end filepath

namespace filepath

theorem elemEnds_append_ends (a rest : List Char) (hr : elemEnds rest = true) :
    elemEnds (a ++ rest) = elemEnds a := by
  cases a with
  | nil => simpa [elemEnds] using hr
  | cons c t => rfl

/-- One iteration of the loop of `Clean` on the bytes before the end of an
element does not depend on what follows the element. -/
theorem cleanStep_append (rooted : Bool) (c : Char) (a rest out : List Char) (dotdot : Nat)
    (hr : elemEnds rest = true) :
    (cleanStep rooted c (a ++ rest) out dotdot).1
        = (cleanStep rooted c a out dotdot).1 ++ rest ∧
    (cleanStep rooted c (a ++ rest) out dotdot).2 = (cleanStep rooted c a out dotdot).2 := by
  have h1 := elemEnds_append_ends a rest hr
  have h2 : (((a ++ rest).head? == some '.') && elemEnds (a ++ rest).tail)
      = ((a.head? == some '.') && elemEnds a.tail) := by
    cases a with
    | nil =>
      rcases (elemEnds_iff rest).1 hr with h | ⟨t, h⟩ <;> subst h <;> simp
    | cons d t =>
      simp only [List.cons_append, List.head?_cons, List.tail_cons]
      rw [elemEnds_append_ends t rest hr]
  have h3 : ((a.head? == some '.') && elemEnds a.tail) = true → ∃ d t, a = d :: t := by
    cases a with
    | nil => simp
    | cons d t => intro _; exact ⟨d, t, rfl⟩
  by_cases hc : os.IsPathSeparator c = true
  · exact ⟨by simp only [cleanStep, if_pos hc], by simp only [cleanStep, if_pos hc]⟩
  · by_cases hd : (c == '.' && elemEnds a) = true
    · have hd1 : (c == '.' && elemEnds (a ++ rest)) = true := by rw [h1]; exact hd
      exact ⟨by simp only [cleanStep, if_neg hc, if_pos hd1, if_pos hd],
        by simp only [cleanStep, if_neg hc, if_pos hd1, if_pos hd]⟩
    · have hd1 : ¬ (c == '.' && elemEnds (a ++ rest)) = true := by rw [h1]; exact hd
      by_cases he : (c == '.' && a.head? == some '.' && elemEnds a.tail) = true
      · have he1 : (c == '.' && (a ++ rest).head? == some '.'
            && elemEnds (a ++ rest).tail) = true := by
          rw [Bool.and_assoc, h2, ← Bool.and_assoc]; exact he
        have hne : ∃ d t, a = d :: t := by
          apply h3
          rw [Bool.and_assoc, Bool.and_eq_true] at he
          exact he.2
        obtain ⟨d, t, rfl⟩ := hne
        simp only [cleanStep, if_neg hc, if_neg hd1, if_pos he1, if_neg hd, if_pos he]
        by_cases hw : out.length > dotdot
        · simp only [if_pos hw, List.cons_append, List.tail_cons, and_self]
        · cases rooted <;> simp [if_neg hw]
      · have he1 : ¬ (c == '.' && (a ++ rest).head? == some '.'
            && elemEnds (a ++ rest).tail) = true := by
          rw [Bool.and_assoc, h2, ← Bool.and_assoc]; exact he
        have e1 : c :: (a ++ rest) = (c :: a) ++ rest := rfl
        simp only [cleanStep, if_neg hc, if_neg hd1, if_neg he1, if_neg hd, if_neg he, e1]
        rw [span_append_ends _ _ hr, List.span_eq_take_drop]
        exact ⟨rfl, rfl⟩

/-- The loop of `Clean` reads a path element by element: the run over bytes
that end with an element, followed by more, is the run over the rest from the
state after the run over those bytes. -/
theorem cleanRun_append (rooted : Bool) :
    ∀ (n : Nat) (x rest out : List Char) (dotdot : Nat), x.length ≤ n →
      elemEnds rest = true →
      cleanRun rooted (x ++ rest) out dotdot
        = cleanRun rooted rest (cleanRun rooted x out dotdot).1
            (cleanRun rooted x out dotdot).2 := by
  intro n
  induction n with
  | zero =>
    intro x rest out dotdot hx _
    have : x = [] := List.length_eq_zero.mp (Nat.le_zero.mp hx)
    subst this
    rfl
  | succ n ih =>
    intro x rest out dotdot hx hr
    cases x with
    | nil => rfl
    | cons c a =>
      obtain ⟨e1, e2⟩ := cleanStep_append rooted c a rest out dotdot hr
      have hl := cleanStep_length rooted c a out dotdot
      simp only [List.length_cons] at hx
      rw [List.cons_append, cleanRun_cons, cleanRun_cons rooted c a, e1, e2]
      exact ih _ rest _ _ (by omega) hr

end filepath

namespace filepath

theorem cleanStep_dotdot (rooted : Bool) (rest out : List Char) (dotdot : Nat)
    (hr : elemEnds rest = true) :
    cleanStep rooted '.' ('.' :: rest) out dotdot =
      if out.length > dotdot then
        (rest, out.take (backtrack out dotdot (out.length - 1)), dotdot)
      else if !rooted then
        (rest, (if out.length > 0 then out ++ [Separator] else out) ++ ['.', '.'],
          ((if out.length > 0 then out ++ [Separator] else out) ++ ['.', '.']).length)
      else (rest, out, dotdot) := by
  have h1 : ¬ os.IsPathSeparator '.' = true := by decide
  have h2 : ¬ (('.' : Char) == '.' && elemEnds ('.' :: rest)) = true := by
    simp [elemEnds, os.IsPathSeparator]
  have h3 : (('.' : Char) == '.' && ('.' :: rest).head? == some '.'
      && elemEnds ('.' :: rest).tail) = true := by
    simp [hr]
  simp only [cleanStep, if_neg h1, if_neg h2, if_pos h3]
  simp only [List.tail_cons]

theorem Clean_eq_cleanOut (p : List Char) (hp : p ≠ []) :
    Clean (String.mk p)
      = String.mk (if (cleanOut p).1.length == 0 then ['.'] else (cleanOut p).1) := by
  obtain ⟨c, t, rfl⟩ := List.exists_cons_of_ne_nil hp
  have n1 : ¬ ((String.mk (c :: t)) == "") = true := by simp [String.ext_iff]
  simp only [Clean, if_neg n1, cleanOut, List.headD_cons, cleanRun]
  by_cases hc : os.IsPathSeparator c = true
  · simp only [hc, if_true, initOut, List.length_singleton, List.drop_succ_cons, List.drop_zero,
      cleanLoop_eq_cleanState]
    rw [cleanState_fuel_eq true (c :: t).length t.length t _ _ (by simp) le_rfl]
  · have hcf : os.IsPathSeparator c = false := by simpa using hc
    simp only [hcf, initOut, List.length_nil, List.drop_zero, cleanLoop_eq_cleanState]
    rfl

theorem cleanOut_Canon (p : List Char) :
    Canon (os.IsPathSeparator (p.headD Separator)) (cleanOut p).1 (cleanOut p).2 :=
  cleanRun_Canon Canon.init _

/-- Reading a buffer of the loop of `Clean` as a path leads the loop to that
buffer again. -/
theorem cleanRun_Canon_self {rooted : Bool} {out : List Char} {dotdot : Nat}
    (h : Canon rooted out dotdot) :
    ∀ rest : List Char, elemEnds rest = true →
      cleanRun rooted (out.drop (initOut rooted).length ++ rest) (initOut rooted)
          (initOut rooted).length
        = cleanRun rooted rest out dotdot := by
  induction h with
  | init => intro rest _; simp
  | @dotdot out0 dd0 h0 hr hl ih =>
    intro rest hrest
    subst hr
    simp only [initOut, List.length_nil, List.drop_zero, Bool.false_eq_true, if_false] at ih ⊢
    have hstep := cleanStep_dotdot false rest out0 dd0 hrest
    have hw : ¬ out0.length > dd0 := by omega
    simp only [if_neg hw, Bool.not_false, if_true] at hstep
    by_cases hpos : out0.length > 0
    · simp only [if_pos hpos] at hstep ⊢
      have e : out0 ++ [Separator] ++ ['.', '.'] ++ rest
          = out0 ++ ('/' :: '.' :: '.' :: rest) := by simp [Separator]
      rw [e, ih ('/' :: '.' :: '.' :: rest) rfl, cleanRun_sep, cleanRun_cons, hstep]
    · have hnil : out0 = [] := List.length_eq_zero.mp (by omega)
      subst hnil
      simp only [List.length_nil] at hl
      subst hl
      simp only [if_neg hpos] at hstep ⊢
      show cleanRun false ('.' :: '.' :: rest) [] 0 = _
      rw [cleanRun_cons, hstep]
  | @name out0 dd0 x h0 hx ih =>
    intro rest hrest
    obtain ⟨c, t, rfl⟩ := List.exists_cons_of_ne_nil hx.1
    have hk : (initOut rooted).length ≤ out0.length := by
      cases rooted with
      | true => obtain ⟨_, u, rfl⟩ := Canon_rooted h0; simp [initOut]
      | false => simp [initOut]
    by_cases hs : ((rooted && out0.length != 1) || (!rooted && out0.length != 0)) = true
    · have ha : addSep rooted out0 = out0 ++ ['/'] := by simp only [addSep, if_pos hs]; rfl
      have e : (addSep rooted out0 ++ c :: t).drop (initOut rooted).length ++ rest
          = out0.drop (initOut rooted).length ++ ('/' :: ((c :: t) ++ rest)) := by
        rw [ha, List.append_assoc, List.drop_append_of_le_length hk]
        simp
      rw [e, ih ('/' :: ((c :: t) ++ rest)) rfl, cleanRun_sep, List.cons_append, cleanRun_cons,
        cleanStep_name rooted c t rest out0 dd0 hx hrest]
    · have ha : addSep rooted out0 = out0 := by simp only [addSep, if_neg hs]
      have hinit : out0 = initOut rooted ∧ dd0 = (initOut rooted).length := by
        cases rooted with
        | true =>
          have hone : out0.length = 1 := by simpa using hs
          obtain ⟨hd, u, rfl⟩ := Canon_rooted h0
          have : u = [] := List.length_eq_zero.mp (by simpa using hone)
          subst this
          exact ⟨rfl, hd⟩
        | false =>
          have hzero : out0.length = 0 := by simpa using hs
          have hnil : out0 = [] := List.length_eq_zero.mp hzero
          subst hnil
          have := Canon_le h0
          simp only [List.length_nil, Nat.le_zero] at this
          exact ⟨rfl, by simp [initOut, this]⟩
      obtain ⟨e1, e2⟩ := hinit
      have e : (addSep rooted out0 ++ c :: t).drop (initOut rooted).length ++ rest
          = c :: (t ++ rest) := by
        rw [ha, e1]
        simp
      rw [e, cleanRun_cons]
      have hstep := cleanStep_name rooted c t rest out0 dd0 hx hrest
      rw [e1, e2] at hstep
      rw [hstep, e1, e2]

end filepath

namespace filepath

theorem Clean_ne_empty (s : String) : Clean s ≠ "" := by
  by_cases hs : s = ""
  · subst hs; decide
  · have hd : s.data ≠ [] := (string_ne_empty_iff s).1 hs
    have h := Clean_eq_cleanOut s.data hd
    rw [string_ne_empty_iff]
    have e : (String.mk s.data) = s := rfl
    rw [e] at h
    rw [h]
    show (if ((cleanOut s.data).1.length == 0) = true then ['.'] else (cleanOut s.data).1) ≠ []
    cases (cleanOut s.data).1 <;> simp

theorem Clean_data_ne_nil (s : String) : (Clean s).data ≠ [] :=
  (string_ne_empty_iff _).1 (Clean_ne_empty s)

/-- The loop of `Clean` on a path that starts with a cleaned path reaches,
after the cleaned path, the state that it reaches after the path itself. -/
theorem cleanOut_Clean_append (x rest : List Char) (hx : x ≠ []) (hr : elemEnds rest = true) :
    cleanOut ((Clean (String.mk x)).data ++ rest) = cleanOut (x ++ rest) := by
  obtain ⟨c, t, rfl⟩ := List.exists_cons_of_ne_nil hx
  have hcan := cleanOut_Canon (c :: t)
  have hk : (initOut (os.IsPathSeparator c)).length ≤ (c :: t).length := by
    unfold initOut; split <;> simp
  -- the right-hand side
  have hR : cleanOut ((c :: t) ++ rest)
      = cleanRun (os.IsPathSeparator c) rest (cleanOut (c :: t)).1 (cleanOut (c :: t)).2 := by
    simp only [cleanOut, List.cons_append, List.headD_cons]
    have := cleanRun_append (os.IsPathSeparator c) _
      ((c :: t).drop (initOut (os.IsPathSeparator c)).length) rest
      (initOut (os.IsPathSeparator c)) (initOut (os.IsPathSeparator c)).length le_rfl hr
    rw [← this, ← List.cons_append, List.drop_append_of_le_length hk]
  rw [hR, Clean_eq_cleanOut _ (List.cons_ne_nil c t)]
  simp only [List.headD_cons] at hcan
  generalize cleanOut (c :: t) = st at hcan ⊢
  obtain ⟨o, d⟩ := st
  simp only at hcan ⊢
  cases o with
  | nil =>
    -- the buffer is empty: the path is not rooted and cleans to `.`
    have hroot : os.IsPathSeparator c = false := by
      cases hc : os.IsPathSeparator c with
      | false => rfl
      | true =>
        rw [hc] at hcan
        obtain ⟨_, u, hu⟩ := Canon_rooted hcan
        cases hu
    have hd0 : d = 0 := by
      have := Canon_le hcan
      simpa using this
    subst hd0
    rw [hroot]
    simp only [List.length_nil, beq_self_eq_true, if_true]
    show cleanRun false ('.' :: rest) [] 0 = _
    rw [cleanRun_cons, cleanStep_dot false rest [] 0 hr]
  | cons a u =>
    have hne : ¬ (((a :: u).length == 0) = true) := by simp
    simp only [if_neg hne]
    have hhead : os.IsPathSeparator a = os.IsPathSeparator c := by
      cases hc : os.IsPathSeparator c with
      | true =>
        rw [hc] at hcan
        obtain ⟨_, v, hv⟩ := Canon_rooted hcan
        cases hv
        rfl
      | false =>
        rw [hc] at hcan
        have := Canon_unrooted hcan
        simp only [List.head?_cons, ne_eq, Option.some.injEq] at this
        simpa [os.IsPathSeparator] using this
    have hk2 : (initOut (os.IsPathSeparator c)).length ≤ (a :: u).length := by
      unfold initOut; split <;> simp
    simp only [cleanOut, List.cons_append, List.headD_cons, hhead]
    rw [← List.cons_append, List.drop_append_of_le_length hk2]
    exact cleanRun_Canon_self hcan rest hr

/-- `Clean` of a path that starts with a cleaned path: the cleaned path may be
replaced by the path it comes from. -/
theorem Clean_Clean_append (x rest : List Char) (hx : x ≠ []) (hr : elemEnds rest = true) :
    Clean (String.mk ((Clean (String.mk x)).data ++ rest)) = Clean (String.mk (x ++ rest)) := by
  rw [Clean_eq_cleanOut ((Clean (String.mk x)).data ++ rest) (by simp [Clean_data_ne_nil]),
    Clean_eq_cleanOut (x ++ rest) (by simp [hx]), cleanOut_Clean_append x rest hx hr]

/-- `Clean` is idempotent. -/
theorem Clean_idem (s : String) : Clean (Clean s) = Clean s := by
  by_cases hs : s = ""
  · subst hs; decide
  · have hd : s.data ≠ [] := (string_ne_empty_iff s).1 hs
    have := Clean_Clean_append s.data [] hd rfl
    simpa using this

/-- Joining a joined path with a further element is joining all elements. -/
theorem Join_Join (a b c : String) : Join [Join [a, b], c] = Join [a, b, c] := by
  have key : ∀ x : String, x ≠ "" →
      Join [Clean x, c] = Clean (x ++ String.singleton Separator ++ c) := by
    intro x hx
    have hd : x.data ≠ [] := (string_ne_empty_iff x).1 hx
    have hne : (Clean x != "") = true := by simpa using Clean_ne_empty x
    simp only [Join, hne, if_true, strings.Join]
    have := Clean_Clean_append x.data ('/' :: c.data) hd rfl
    have e1 : Clean x ++ String.singleton Separator ++ c
        = String.mk ((Clean (String.mk x.data)).data ++ '/' :: c.data) := by
      apply String.ext
      simp [String.singleton, Separator]
    have e2 : x ++ String.singleton Separator ++ c = String.mk (x.data ++ '/' :: c.data) := by
      apply String.ext
      simp [String.singleton, Separator]
    rw [e1, e2, this]
  by_cases ha : a = ""
  · subst ha
    by_cases hb : b = ""
    · subst hb; rfl
    · have hbn : (b != "") = true := by simpa using hb
      have hf : (("" : String) != "") = false := by decide
      have e1 : Join ["", b] = Clean b := by simp [Join, hf, hbn, strings.Join]
      have e2 : Join ["", b, c] = Clean (b ++ String.singleton Separator ++ c) := by
        simp [Join, hf, hbn, strings.Join]
      rw [e1, e2, key b hb]
  · have han : (a != "") = true := by simpa using ha
    have e1 : Join [a, b] = Clean (a ++ String.singleton Separator ++ b) := by
      simp [Join, han, strings.Join]
    have e2 : Join [a, b, c]
        = Clean (a ++ String.singleton Separator ++ b ++ String.singleton Separator ++ c) := by
      simp [Join, han, strings.Join, String.append_assoc]
    have hx : a ++ String.singleton Separator ++ b ≠ "" := by
      rw [string_ne_empty_iff]
      simp [String.data_append, (string_ne_empty_iff a).1 ha]
    rw [e1, e2, key _ hx]

/-- The join of two real path elements is the two with a separator between. -/
theorem Join_names (a b : String) (ha : isName a.data) (hb : isName b.data) :
    Join [a, b] = a ++ String.singleton Separator ++ b := by
  have hane : a ≠ "" := (string_ne_empty_iff a).2 ha.1
  have han : (a != "") = true := by simpa using hane
  obtain ⟨c, t, hct⟩ := List.exists_cons_of_ne_nil ha.1
  have hroot : os.IsPathSeparator c = false := by
    have := ha; rw [hct] at this; exact isName_head_not_sep this
  have hcan1 : Canon false a.data 0 := by
    have := Canon.name (@Canon.init false) ha
    simpa [addSep, initOut] using this
  have hadd : addSep false a.data = a.data ++ ['/'] := by
    rw [hct]; simp [addSep, Separator]
  have hcan2 : Canon false (a.data ++ '/' :: b.data) 0 := by
    have := Canon.name hcan1 hb
    rw [hadd] at this
    simpa using this
  have hself := cleanRun_Canon_self hcan2 [] rfl
  simp only [initOut, Bool.false_eq_true, if_false, List.length_nil, List.drop_zero,
    List.append_nil, cleanRun_nil] at hself
  have hout : cleanOut (a.data ++ '/' :: b.data) = (a.data ++ '/' :: b.data, 0) := by
    simp only [cleanOut, hct, List.cons_append, List.headD_cons, hroot, initOut,
      Bool.false_eq_true, if_false, List.length_nil, List.drop_zero]
    rw [hct] at hself
    exact hself
  have e : strings.Join [a, b] (String.singleton Separator)
      = String.mk (a.data ++ '/' :: b.data) := by
    apply String.ext
    simp [strings.Join, String.singleton, Separator]
  simp only [Join, han, if_true]
  rw [e, Clean_eq_cleanOut _ (by simp [ha.1]), hout]
  apply String.ext
  simp [String.singleton, Separator, hct]

end filepath

/-! ## Find folders with prefix: final segments and errors -/

namespace exec

theorem finalSegment_name (a : String) (ha : '/' ∉ a.data) : finalSegment a = a := by
  have h : '/' ∉ a.data.reverse := by simpa using ha
  simp only [finalSegment, (filepath.takeWhile_not_sep h).1, List.reverse_reverse]

theorem finalSegment_join (a b : String) (hb : '/' ∉ b.data) :
    finalSegment (a ++ String.singleton filepath.Separator ++ b) = b := by
  have e : (a ++ String.singleton filepath.Separator ++ b).data = a.data ++ '/' :: b.data := by
    simp [String.singleton, filepath.Separator]
  have h : '/' ∉ b.data.reverse := by simpa using hb
  have hends : filepath.elemEnds ('/' :: a.data.reverse) = true := rfl
  have hspan := filepath.span_append_ends b.data.reverse ('/' :: a.data.reverse) hends
  rw [List.span_eq_take_drop] at hspan
  have htw := congrArg Prod.fst hspan
  simp only [(filepath.takeWhile_not_sep h).1] at htw
  unfold finalSegment
  rw [e]
  have e2 : (a.data ++ '/' :: b.data).reverse = b.data.reverse ++ '/' :: a.data.reverse := by
    simp
  rw [e2, htw, List.reverse_reverse]

end exec

namespace os

theorem lookup_mem {children : List (String × Node)} {e : String} {child : Node}
    (h : children.lookup e = some child) : (e, child) ∈ children := by
  induction children with
  | nil => simp [List.lookup] at h
  | cons ch rest ih =>
    obtain ⟨n, nd⟩ := ch
    simp only [List.lookup] at h
    split at h
    · rename_i heq
      have hn : e = n := by simpa using heq
      subst hn
      cases h
      exact List.mem_cons_self _ _
    · exact List.mem_cons_of_mem _ (ih h)

theorem walk_valid :
    ∀ (es : List String) (anc : List Node) (cur node : Node),
      (∀ n ∈ anc, Node.ValidNames n) → Node.ValidNames cur →
      walk anc cur es = .ok node → Node.ValidNames node := by
  intro es
  induction es with
  | nil =>
    intro anc cur node _ hcur h
    simp only [walk] at h
    cases h
    exact hcur
  | cons e es ih =>
    intro anc cur node hanc hcur h
    cases cur with
    | file => simp [walk] at h
    | dir children =>
      simp only [walk] at h
      split at h
      · exact ih anc _ node hanc hcur h
      · split at h
        · cases anc with
          | nil => exact ih [] _ node hanc hcur h
          | cons parent anc =>
            simp only at h
            exact ih anc parent node (fun n hn => hanc n (List.mem_cons_of_mem _ hn))
              (hanc parent (List.mem_cons_self _ _)) h
        · split at h
          · cases h
          · rename_i child hl
            have hmem := lookup_mem hl
            cases hcur with
            | dir _ _ hv =>
              refine ih _ child node ?_ (hv _ hmem) h
              intro n hn
              rcases List.mem_cons.1 hn with rfl | hn
              · exact Node.ValidNames.dir _ ‹_› hv
              · exact hanc n hn

theorem mem_insertEntry (d e : DirEntry) (l : List DirEntry) :
    e ∈ insertEntry d l ↔ e = d ∨ e ∈ l := by
  induction l with
  | nil => simp [insertEntry]
  | cons x xs ih =>
    simp only [insertEntry]
    split
    · simp only [List.mem_cons, ih]
      constructor
      · rintro (h | h | h)
        · exact Or.inr (Or.inl h)
        · exact Or.inl h
        · exact Or.inr (Or.inr h)
      · rintro (h | h | h)
        · exact Or.inr (Or.inl h)
        · exact Or.inl h
        · exact Or.inr (Or.inr h)
    · simp

theorem mem_sortEntries (e : DirEntry) (l : List DirEntry) : e ∈ sortEntries l ↔ e ∈ l := by
  induction l with
  | nil => simp [sortEntries]
  | cons x xs ih => simp [sortEntries, mem_insertEntry, ih]

/-- On a filesystem tree whose names are file names, `os.ReadDir` reports
file names only. -/
theorem ReadDir_valid (fs : FileSystem) (hfs : Node.ValidNames fs.root) :
    ∀ (path : String) (entries : List DirEntry), ReadDir fs path = .ok entries →
      ∀ e ∈ entries, filepath.isName e.Name.data := by
  intro path entries h e he
  unfold ReadDir at h
  split at h
  · cases h
  · cases h
  · rename_i children hres
    cases h
    have hnode : Node.ValidNames (.dir children) := by
      unfold FileSystem.resolve at hres
      split at hres
      · cases hres
      · split at hres
        · exact walk_valid _ [] fs.root _ (by simp) hfs hres
        · exact walk_valid _ [] fs.root _ (by simp) hfs hres
    rw [mem_sortEntries, List.mem_map] at he
    obtain ⟨child, hmem, rfl⟩ := he
    cases hnode with
    | dir _ hn _ => exact hn child hmem

theorem validNames_nil : Node.ValidNames (.dir []) :=
  Node.ValidNames.dir _ (by simp) (by simp)

theorem validNames_cons (name : String) (node : Node) (rest : List (String × Node))
    (h1 : filepath.isName name.data) (h2 : Node.ValidNames node)
    (h3 : Node.ValidNames (.dir rest)) : Node.ValidNames (.dir ((name, node) :: rest)) := by
  cases h3 with
  | dir _ hn hv =>
    refine Node.ValidNames.dir _ ?_ ?_
    · intro child hc
      rcases List.mem_cons.1 hc with rfl | hc
      · exact h1
      · exact hn child hc
    · intro child hc
      rcases List.mem_cons.1 hc with rfl | hc
      · exact h2
      · exact hv child hc

end os

namespace exec

theorem scenarioS4_valid : os.Node.ValidNames scenarioS4.root := by
  unfold scenarioS4
  repeat (first
    | exact os.Node.ValidNames.file
    | exact os.validNames_nil
    | apply os.validNames_cons
    | decide)

end exec

namespace exec

theorem mem_specFindFolders_match (readDir : os.ReadDirFn) (root pfx : String)
    (entries : List os.DirEntry) (p : String)
    (hp : p ∈ specFindFolders readDir root pfx entries) :
    ∃ d ∈ entries,
      (p = d.Name ∧ (pfx = "" ∨ pfx.data <+: d.Name.data)) ∨
        ∃ children, readDir (filepath.Join [root, d.Name]) = .ok children ∧
          ∃ s ∈ children, p = filepath.Join [d.Name, s.Name] ∧
            (pfx = "" ∨ pfx.data <+: s.Name.data) := by
  simp only [specFindFolders, List.mem_flatMap] at hp
  obtain ⟨d, hd, hp⟩ := hp
  refine ⟨d, hd, ?_⟩
  by_cases hdir : d.IsDir = true
  · simp only [hdir, if_true, List.mem_append] at hp
    rcases hp with hp | hp
    · left
      split at hp
      · rename_i hm
        exact ⟨by simpa using hp, hm⟩
      · simp at hp
    · right
      cases hr : readDir (filepath.Join [root, d.Name]) with
      | error err => rw [hr] at hp; simp at hp
      | ok children =>
        rw [hr] at hp
        simp only [List.mem_map, List.mem_filter, Bool.and_eq_true, decide_eq_true_eq] at hp
        obtain ⟨s, ⟨hs, _, hm⟩, rfl⟩ := hp
        exact ⟨children, rfl, s, hs, rfl, hm⟩
  · simp [hdir] at hp

theorem find_ok_names (readDir : os.ReadDirFn) (root pfx : String) (names : List String)
    (h : (findFoldersNamesWithPrefix readDir root pfx).1 = .ok names) :
    ∃ entries, readDir root = .ok entries ∧ names = specFindFolders readDir root pfx entries := by
  unfold findFoldersNamesWithPrefix at h
  cases hr : readDir root with
  | error err => rw [hr] at h; cases h
  | ok entries =>
    rw [hr] at h
    simp only [foldl_findLevel1Step, List.nil_append] at h
    cases h
    exact ⟨entries, rfl, rfl⟩

/-- C11: when the names that `os.ReadDir` reports are file names (not empty,
without separator, neither `.` nor `..`), as they are on every filesystem
tree, every path that `findFoldersNamesWithPrefix(root, prefix)` returns has a
final segment that starts with the prefix, or the prefix is empty. -/
theorem C11_find_final_segment (readDir : os.ReadDirFn)
    (hnames : ∀ (path : String) (entries : List os.DirEntry), readDir path = .ok entries →
      ∀ e ∈ entries, filepath.isName e.Name.data)
    (root pfx : String) (names : List String)
    (h : (findFoldersNamesWithPrefix readDir root pfx).1 = .ok names) :
    ∀ p ∈ names, pfx = "" ∨ pfx.data <+: (finalSegment p).data := by
  intro p hp
  obtain ⟨entries, hroot, rfl⟩ := find_ok_names readDir root pfx names h
  obtain ⟨d, hd, hcase⟩ := mem_specFindFolders_match readDir root pfx entries p hp
  have hdn := hnames root entries hroot d hd
  rcases hcase with ⟨rfl, hm⟩ | ⟨children, hch, s, hs, rfl, hm⟩
  · rw [finalSegment_name _ hdn.2.1]
    exact hm
  · have hsn := hnames _ children hch s hs
    rw [filepath.Join_names _ _ hdn hsn, finalSegment_join _ _ hsn.2.1]
    exact hm

/-- Witness of C11: the tree of scenario S4, listed from `/root` with the
prefix `tf-`. -/
theorem C11_find_final_segment_witness :
    (findFoldersNamesWithPrefix (os.ReadDir scenarioS4) "/root" "tf-").1
      = .ok ["other/tf-d", "tf-a", "tf-b"] ∧
    (("tf-" : String) = "" ∨
      ("tf-" : String).data <+: (finalSegment "other/tf-d").data) :=
  ⟨rfl, C11_find_final_segment (os.ReadDir scenarioS4)
    (os.ReadDir_valid scenarioS4 scenarioS4_valid)
    "/root" "tf-" ["other/tf-d", "tf-a", "tf-b"] rfl "other/tf-d" (by decide)⟩

theorem sprintf_subdirectory (path cause : String) :
    fmt.Sprintf "Error reading subdirectory %s: %v" [path, cause]
      = "Error reading subdirectory " ++ path ++ ": " ++ cause := by
  apply String.ext
  simp [fmt.Sprintf, fmt.sprintfChars, fmt.isStringVerb]

theorem errorf_root (root cause : String) :
    fmt.Errorf "error reading root directory %s: %w" [root, cause]
      = "error reading root directory " ++ root ++ ": " ++ cause := by
  apply String.ext
  simp [fmt.Errorf, fmt.sprintfChars, fmt.isStringVerb]

theorem findLevel1Step_log (readDir : os.ReadDirFn) (root pfx : String)
    (st : FindState) (d : os.DirEntry) :
    (findLevel1Step readDir root pfx st d).log
      = st.log ++ specFindWarnings readDir root [d] := by
  unfold findLevel1Step specFindWarnings
  by_cases hd : d.IsDir = true
  · simp only [hd, if_true, List.flatMap_cons, List.flatMap_nil, List.append_nil]
    cases hr : readDir (filepath.Join [root, d.Name]) with
    | error err => simp [utils.LogWarning, sprintf_subdirectory]
    | ok children => simp
  · simp [hd]

theorem specFindWarnings_append (readDir : os.ReadDirFn) (root : String)
    (l1 l2 : List os.DirEntry) :
    specFindWarnings readDir root (l1 ++ l2)
      = specFindWarnings readDir root l1 ++ specFindWarnings readDir root l2 := by
  simp only [specFindWarnings, List.flatMap_append]

theorem specFindFolders_append (readDir : os.ReadDirFn) (root pfx : String)
    (l1 l2 : List os.DirEntry) :
    specFindFolders readDir root pfx (l1 ++ l2)
      = specFindFolders readDir root pfx l1 ++ specFindFolders readDir root pfx l2 := by
  simp only [specFindFolders, List.flatMap_append]

theorem foldl_findLevel1Step_log (readDir : os.ReadDirFn) (root pfx : String)
    (entries : List os.DirEntry) (st : FindState) :
    (entries.foldl (findLevel1Step readDir root pfx) st).log
      = st.log ++ specFindWarnings readDir root entries := by
  induction entries generalizing st with
  | nil => simp [specFindWarnings]
  | cons d entries ih =>
    rw [List.foldl_cons, ih, findLevel1Step_log, List.append_assoc,
      ← specFindWarnings_append]
    rfl

/-- The result of `findFoldersNamesWithPrefix` when the root can be listed. -/
theorem find_of_root_ok (readDir : os.ReadDirFn) (root pfx : String)
    (entries : List os.DirEntry) (h : readDir root = .ok entries) :
    findFoldersNamesWithPrefix readDir root pfx
      = (.ok (specFindFolders readDir root pfx entries),
         specFindWarnings readDir root entries) := by
  simp only [findFoldersNamesWithPrefix, h, foldl_findLevel1Step, foldl_findLevel1Step_log,
    List.nil_append]

/-- C12: `findFoldersNamesWithPrefix(root, prefix)` returns an error exactly
when listing `root` fails; it then returns no folder names, writes no warning,
and the message is `error reading root directory <root>: <cause>`.  When
`root` can be listed and a directory `d` among its entries cannot, the call
returns no error: the log holds the warning
`Error reading subdirectory <join(root, d.name)>: <cause>` between the
warnings for the entries before and after `d`, and the names returned are
those for the entries before `d`, the name of `d` itself when it matches the
prefix, and those for the entries after `d`. -/
theorem C12_find_errors (readDir : os.ReadDirFn) (root pfx : String) :
    ((∃ msg, (findFoldersNamesWithPrefix readDir root pfx).1 = .error msg)
      ↔ ∃ cause, readDir root = .error cause) ∧
    (∀ cause, readDir root = .error cause →
      findFoldersNamesWithPrefix readDir root pfx
        = (.error ("error reading root directory " ++ root ++ ": " ++ cause), [])) ∧
    (∀ (before after : List os.DirEntry) (d : os.DirEntry) (cause : String),
      readDir root = .ok (before ++ d :: after) → d.IsDir = true →
      readDir (filepath.Join [root, d.Name]) = .error cause →
      findFoldersNamesWithPrefix readDir root pfx
        = (.ok (specFindFolders readDir root pfx before
              ++ (if pfx = "" ∨ pfx.data <+: d.Name.data then [d.Name] else [])
              ++ specFindFolders readDir root pfx after),
           specFindWarnings readDir root before
              ++ [{ level := .Warning,
                    message := "Error reading subdirectory " ++ filepath.Join [root, d.Name]
                      ++ ": " ++ cause }]
              ++ specFindWarnings readDir root after)) := by
  refine ⟨?_, ?_, ?_⟩
  · constructor
    · rintro ⟨msg, h⟩
      cases hr : readDir root with
      | error cause => exact ⟨cause, rfl⟩
      | ok entries => rw [find_of_root_ok readDir root pfx entries hr] at h; cases h
    · rintro ⟨cause, h⟩
      exact ⟨fmt.Errorf "error reading root directory %s: %w" [root, cause], by
        simp only [findFoldersNamesWithPrefix, h]⟩
  · intro cause h
    simp only [findFoldersNamesWithPrefix, h, errorf_root]
  · intro before after d cause hroot hdir hfail
    rw [find_of_root_ok readDir root pfx _ hroot]
    have e : before ++ d :: after = before ++ ([d] ++ after) := rfl
    rw [e, specFindFolders_append, specFindFolders_append, specFindWarnings_append,
      specFindWarnings_append]
    have h1 : specFindFolders readDir root pfx [d]
        = if pfx = "" ∨ pfx.data <+: d.Name.data then [d.Name] else [] := by
      simp [specFindFolders, hdir, hfail]
    have h2 : specFindWarnings readDir root [d]
        = [{ level := .Warning,
             message := "Error reading subdirectory " ++ filepath.Join [root, d.Name]
               ++ ": " ++ cause }] := by
      simp [specFindWarnings, hdir, hfail]
    rw [h1, h2]
    simp only [List.append_assoc]

/-- Witness of C12: on the host where `/root/tf-a` cannot be listed, the call
with the prefix `tf-` returns `tf-a`, `tf-b` and `tf-b/tf-c` and writes one
warning. -/
theorem C12_find_errors_witness :
    findFoldersNamesWithPrefix hostUnreadable "/root" "tf-"
      = (.ok (specFindFolders hostUnreadable "/root" "tf-" []
            ++ (if ("tf-" : String) = "" ∨ ("tf-" : String).data <+: ("tf-a" : String).data
                then ["tf-a"] else [])
            ++ specFindFolders hostUnreadable "/root" "tf-" [⟨"tf-b", true⟩]),
         specFindWarnings hostUnreadable "/root" []
            ++ [{ level := .Warning,
                  message := "Error reading subdirectory "
                    ++ filepath.Join ["/root", "tf-a"]
                    ++ ": " ++ "open /root/tf-a: permission denied" }]
            ++ specFindWarnings hostUnreadable "/root" [⟨"tf-b", true⟩]) :=
  (C12_find_errors hostUnreadable "/root" "tf-").2.2 [] [⟨"tf-b", true⟩] ⟨"tf-a", true⟩
    "open /root/tf-a: permission denied" rfl rfl rfl

end exec

/-! ## Removal on a filesystem tree -/

namespace os

theorem lookup_cons_eq (n : String) (nd : Node) (rest : List (String × Node)) :
    ((n, nd) :: rest).lookup n = some nd := by
  rw [List.lookup_cons, beq_self_eq_true]

theorem lookup_cons_ne (n c : String) (nd : Node) (rest : List (String × Node)) (h : c ≠ n) :
    ((n, nd) :: rest).lookup c = rest.lookup c := by
  have hb : (c == n) = false := by simpa using h
  rw [List.lookup_cons, hb]

theorem lookup_filter_ne (children : List (String × Node)) (c c' : String) :
    (children.filter (fun child => child.1 != c)).lookup c'
      = if c' = c then none else children.lookup c' := by
  induction children with
  | nil => simp [List.lookup]
  | cons ch rest ih =>
    obtain ⟨n, nd⟩ := ch
    by_cases hn : n = c
    · subst hn
      have hf : ((n, nd).1 != n) = false := by simp
      rw [List.filter_cons, hf]
      simp only [Bool.false_eq_true, if_false, ih]
      by_cases hc : c' = n
      · simp [hc]
      · rw [if_neg hc, if_neg hc, lookup_cons_ne _ _ _ _ hc]
    · have hf : ((n, nd).1 != c) = true := by simpa using hn
      rw [List.filter_cons, hf]
      simp only [if_true]
      by_cases hc : c' = n
      · subst hc
        rw [lookup_cons_eq, lookup_cons_eq, if_neg hn]
      · rw [lookup_cons_ne _ _ _ _ hc, lookup_cons_ne _ _ _ _ hc, ih]

theorem lookup_map_at (children : List (String × Node)) (c c' : String) (f : Node → Node) :
    (children.map (fun child => if child.1 == c then (child.1, f child.2) else child)).lookup c'
      = if c' = c then (children.lookup c).map f else children.lookup c' := by
  induction children with
  | nil => simp [List.lookup]
  | cons ch rest ih =>
    obtain ⟨n, nd⟩ := ch
    rw [List.map_cons]
    by_cases hn : n = c
    · subst hn
      have hh : (if ((n, nd).1 == n) = true then ((n, nd).1, f (n, nd).2) else (n, nd))
          = (n, f nd) := by simp
      rw [hh]
      by_cases hc : c' = n
      · subst hc
        rw [lookup_cons_eq, lookup_cons_eq, if_pos rfl]
        rfl
      · rw [lookup_cons_ne _ _ _ _ hc, ih, if_neg hc, if_neg hc, lookup_cons_ne _ _ _ _ hc]
    · have hb : ((n, nd).1 == c) = false := by simpa using hn
      have hh : (if ((n, nd).1 == c) = true then ((n, nd).1, f (n, nd).2) else (n, nd))
          = (n, nd) := by rw [hb]; rfl
      rw [hh]
      by_cases hc : c' = n
      · subst hc
        rw [lookup_cons_eq, lookup_cons_eq, if_neg hn]
      · rw [lookup_cons_ne _ _ _ _ hc, lookup_cons_ne _ _ _ _ hc, ih]
        by_cases hcc : c' = c
        · subst hcc
          rw [if_pos rfl, if_pos rfl, lookup_cons_ne _ _ _ _ hc]
        · rw [if_neg hcc, if_neg hcc]

theorem isDir_removeAt (n : Node) (loc : List String) : (n.removeAt loc).isDir = n.isDir := by
  cases n with
  | file => cases loc <;> rfl
  | dir children =>
    cases loc with
    | nil => rfl
    | cons c cs => cases cs <;> rfl

theorem at_dir_cons (children : List (String × Node)) (c : String) (cs : List String) :
    (Node.dir children).at (c :: cs) = (children.lookup c).bind (fun child => child.at cs) := by
  simp only [Node.at]
  cases children.lookup c <;> rfl

theorem kindAt_dir_cons (children : List (String × Node)) (c : String) (cs : List String) :
    (Node.dir children).kindAt (c :: cs)
      = (children.lookup c).bind (fun child => child.kindAt cs) := by
  simp only [Node.kindAt, at_dir_cons]
  cases children.lookup c <;> rfl

theorem removeAt_dir_one (children : List (String × Node)) (c : String) :
    (Node.dir children).removeAt [c] = .dir (children.filter (fun child => child.1 != c)) := rfl

theorem removeAt_dir_more (children : List (String × Node)) (c c2 : String)
    (cs : List String) :
    (Node.dir children).removeAt (c :: c2 :: cs)
      = .dir (children.map (fun child =>
          if child.1 == c then (child.1, child.2.removeAt (c2 :: cs)) else child)) := rfl

/-- The kinds of the entries after a removal: nothing at the location removed
and beneath it, and what was there everywhere else. -/
theorem kindAt_removeAt :
    ∀ (loc : List String) (t : Node) (l : List String), loc ≠ [] →
      (t.removeAt loc).kindAt l = if loc <+: l then none else t.kindAt l := by
  intro loc
  induction loc with
  | nil => intro t l h; exact absurd rfl h
  | cons c cs ih =>
    intro t l _
    cases t with
    | file =>
      cases l with
      | nil => simp [Node.removeAt, Node.kindAt, Node.at]
      | cons c' l' => simp [Node.removeAt, Node.kindAt, Node.at]
    | dir children =>
      cases l with
      | nil =>
        have : ¬ (c :: cs) <+: [] := by simp
        rw [if_neg this]
        cases cs <;> rfl
      | cons c' l' =>
        cases cs with
        | nil =>
          rw [removeAt_dir_one, kindAt_dir_cons, kindAt_dir_cons, lookup_filter_ne]
          by_cases hc : c' = c
          · subst hc
            have hp : [c'] <+: c' :: l' := List.cons_prefix_cons.2 ⟨rfl, List.nil_prefix⟩
            rw [if_pos rfl, if_pos hp]
            rfl
          · have hp : ¬ [c] <+: c' :: l' := fun h => hc (List.cons_prefix_cons.1 h).1.symm
            rw [if_neg hc, if_neg hp]
        | cons c2 cs2 =>
          rw [removeAt_dir_more, kindAt_dir_cons, kindAt_dir_cons,
            lookup_map_at children c c' (fun n => n.removeAt (c2 :: cs2))]
          by_cases hc : c' = c
          · subst hc
            rw [if_pos rfl]
            cases hl : children.lookup c' with
            | none =>
              simp only [Option.map_none', Option.none_bind]
              split <;> rfl
            | some child =>
              simp only [Option.map_some', Option.some_bind]
              rw [ih child l' (by simp)]
              by_cases hp : (c2 :: cs2) <+: l'
              · rw [if_pos hp, if_pos (List.cons_prefix_cons.2 ⟨rfl, hp⟩)]
              · rw [if_neg hp, if_neg (fun h => hp (List.cons_prefix_cons.1 h).2)]
          · have hp : ¬ (c :: c2 :: cs2) <+: c' :: l' :=
              fun h => hc (List.cons_prefix_cons.1 h).1.symm
            rw [if_neg hc, if_neg hp]

end os

namespace os

theorem Pruned_refl (t : Node) : Node.Pruned t t := fun _ _ h => h

theorem Pruned_trans {a b c : Node} (h1 : Node.Pruned a b) (h2 : Node.Pruned b c) :
    Node.Pruned a c := fun l k h => h2 l k (h1 l k h)

theorem removeAt_nil (t : Node) : t.removeAt [] = t := by
  cases t <;> rfl

theorem at_nil (t : Node) : t.at [] = some t := by
  cases t <;> rfl

theorem Pruned_removeAt (t : Node) (loc : List String) : Node.Pruned (t.removeAt loc) t := by
  intro l k h
  cases loc with
  | nil => rw [removeAt_nil] at h; exact h
  | cons c cs =>
    rw [kindAt_removeAt _ _ _ (by simp)] at h
    split at h
    · cases h
    · exact h

theorem Pruned_foldl_removeAt (locs : List (List String)) (t : Node) :
    Node.Pruned (locs.foldl (fun t l => t.removeAt l) t) t := by
  induction locs generalizing t with
  | nil => exact Pruned_refl t
  | cons l locs ih => exact Pruned_trans (ih _) (Pruned_removeAt t l)

theorem kindAt_foldl_removeAt (locs : List (List String)) (t : Node) (l : List String)
    (h : ∀ loc ∈ locs, loc ≠ [] ∧ ¬ loc <+: l) :
    (locs.foldl (fun t l => t.removeAt l) t).kindAt l = t.kindAt l := by
  induction locs generalizing t with
  | nil => rfl
  | cons loc locs ih =>
    rw [List.foldl_cons, ih _ (fun x hx => h x (List.mem_cons_of_mem _ hx)),
      kindAt_removeAt _ _ _ (h loc (List.mem_cons_self _ _)).1,
      if_neg (h loc (List.mem_cons_self _ _)).2]

theorem emptyAt_eq (t : Node) (loc : List String) :
    t.emptyAt loc
      = ((t.childNames loc).map (fun c => loc ++ [c])).foldl (fun t l => t.removeAt l) t := by
  unfold Node.emptyAt
  rw [List.foldl_map]

theorem Pruned_emptyAt (t : Node) (loc : List String) : Node.Pruned (t.emptyAt loc) t := by
  rw [emptyAt_eq]
  exact Pruned_foldl_removeAt _ t

theorem kindAt_emptyAt (t : Node) (loc l : List String) (h : ¬ loc <+: l) :
    (t.emptyAt loc).kindAt l = t.kindAt l := by
  rw [emptyAt_eq]
  apply kindAt_foldl_removeAt
  intro x hx
  obtain ⟨c, _, rfl⟩ := List.mem_map.1 hx
  refine ⟨by simp, fun hp => h ?_⟩
  exact List.IsPrefix.trans (List.prefix_append loc [c]) hp

theorem at_append (t : Node) (l1 l2 : List String) :
    t.at (l1 ++ l2) = (t.at l1).bind (fun n => n.at l2) := by
  induction l1 generalizing t with
  | nil => rw [at_nil]; rfl
  | cons c cs ih =>
    cases t with
    | file => rfl
    | dir children =>
      rw [List.cons_append, at_dir_cons, at_dir_cons]
      cases children.lookup c with
      | none => rfl
      | some child => exact ih child

theorem kindAt_initial {t : Node} {l1 l : List String} (hp : l1 <+: l)
    (h : t.kindAt l ≠ none) : t.kindAt l1 ≠ none := by
  obtain ⟨l2, rfl⟩ := hp
  intro h1
  apply h
  simp only [Node.kindAt, Option.map_eq_none', at_append] at h1 ⊢
  rw [h1]
  rfl

/-- Path resolution on a pruned tree succeeds only where it succeeds, with the
same location, on the tree itself. -/
theorem locateFrom_mono {t' t : Node} (hp : Node.Pruned t' t) :
    ∀ (es loc l : List String), locateFrom t' loc es = .ok l → locateFrom t loc es = .ok l := by
  intro es
  induction es with
  | nil => intro loc l h; exact h
  | cons e es ih =>
    intro loc l h
    simp only [locateFrom] at h ⊢
    split at h
    · rename_i hk
      rw [hp loc true hk]
      simp only
      split at h
      · rename_i he
        rw [if_pos he]
        exact ih _ _ h
      · rename_i he
        rw [if_neg he]
        split at h
        · rename_i he2
          rw [if_pos he2]
          exact ih _ _ h
        · rename_i he2
          rw [if_neg he2]
          split at h
          · cases h
          · rename_i k hk2
            rw [hp _ k hk2]
            exact ih _ _ h
    · cases h

/-- Path resolution leads to a location at which something exists. -/
theorem locateFrom_exists {t : Node} :
    ∀ (es loc l : List String), locateFrom t loc es = .ok l → t.kindAt loc ≠ none →
      t.kindAt l ≠ none := by
  intro es
  induction es with
  | nil =>
    intro loc l h hloc
    simp only [locateFrom] at h
    cases h
    exact hloc
  | cons e es ih =>
    intro loc l h hloc
    simp only [locateFrom] at h
    split at h
    · rename_i hk
      split at h
      · exact ih _ _ h hloc
      · split at h
        · exact ih _ _ h (kindAt_initial (List.dropLast_prefix loc) hloc)
        · split at h
          · cases h
          · rename_i k hk2
            exact ih _ _ h (by rw [hk2]; simp)
    · cases h

end os

namespace os

theorem Trail_at {root : Node} {anc : List Node} {cur : Node} {loc : List String}
    (h : Trail root anc cur loc) : root.at loc = some cur := by
  induction h with
  | root => exact at_nil root
  | child _ hc hl ih =>
    subst hc
    rw [at_append, ih, Option.some_bind, at_dir_cons, hl, Option.some_bind, at_nil]

theorem Trail_parent {root : Node} {anc : List Node} {p cur : Node} {loc : List String}
    (h : Trail root (p :: anc) cur loc) : Trail root anc p loc.dropLast := by
  cases h with
  | child h0 _ _ => rw [List.dropLast_concat]; exact h0

theorem Trail_nil {root : Node} {cur : Node} {loc : List String}
    (h : Trail root [] cur loc) : loc = [] := by
  cases h
  rfl

/-- Where `walk` arrives at a node, `locateFrom` arrives at its location. -/
theorem walk_locate {root : Node} :
    ∀ (es : List String) (anc : List Node) (cur : Node) (loc : List String) (node : Node),
      Trail root anc cur loc → walk anc cur es = .ok node →
      ∃ l, locateFrom root loc es = .ok l ∧ root.at l = some node := by
  intro es
  induction es with
  | nil =>
    intro anc cur loc node ht h
    simp only [walk] at h
    cases h
    exact ⟨loc, rfl, Trail_at ht⟩
  | cons e es ih =>
    intro anc cur loc node ht h
    cases cur with
    | file => simp [walk] at h
    | dir children =>
      have hk : root.kindAt loc = some true := by
        simp only [Node.kindAt, Trail_at ht]; rfl
      simp only [walk] at h
      simp only [locateFrom, hk]
      split at h
      · rename_i he
        rw [if_pos he]
        exact ih anc _ loc node ht h
      · rename_i he
        rw [if_neg he]
        split at h
        · rename_i he2
          rw [if_pos he2]
          cases anc with
          | nil =>
            have := Trail_nil ht
            subst this
            exact ih [] _ [] node ht h
          | cons parent anc =>
            exact ih anc parent _ node (Trail_parent ht) h
        · rename_i he2
          rw [if_neg he2]
          split at h
          · cases h
          · rename_i child hl
            have ht2 : Trail root (Node.dir children :: anc) child (loc ++ [e]) :=
              Trail.child ht rfl hl
            have hk2 : root.kindAt (loc ++ [e]) = some child.isDir := by
              simp only [Node.kindAt, Trail_at ht2]; rfl
            rw [hk2]
            exact ih _ child _ node ht2 h

theorem resolve_locate (fs : FileSystem) (name : String) (node : Node)
    (h : fs.resolve name = .ok node) :
    ∃ l, fs.locate name = .ok l ∧ fs.root.at l = some node := by
  unfold FileSystem.resolve at h
  unfold FileSystem.locate
  split at h
  · cases h
  · rename_i hne
    rw [if_neg hne]
    split at h
    · rename_i hr
      rw [if_pos hr]
      exact walk_locate _ [] fs.root [] node Trail.root h
    · rename_i hr
      rw [if_neg hr]
      exact walk_locate _ [] fs.root [] node Trail.root h

/-- A path at which nothing exists cannot be listed. -/
theorem ReadDir_error_of_not_exists (fs : FileSystem) (name : String)
    (h : fs.pathExists name = false) : ∃ cause, ReadDir fs name = .error cause := by
  unfold ReadDir
  cases hr : fs.resolve name with
  | error cause => exact ⟨_, rfl⟩
  | ok node =>
    obtain ⟨l, hl, _⟩ := resolve_locate fs name node hr
    simp [FileSystem.pathExists, hl] at h

end os

namespace os

theorem locate_mono {fs' fs : FileSystem} (hc : fs'.cwd = fs.cwd)
    (hp : Node.Pruned fs'.root fs.root) (name : String) (l : List String)
    (h : fs'.locate name = .ok l) : fs.locate name = .ok l := by
  unfold FileSystem.locate at h ⊢
  split at h
  · cases h
  · rename_i hne
    rw [if_neg hne]
    split at h
    · rename_i hr
      rw [if_pos hr]
      exact locateFrom_mono hp _ _ _ h
    · rename_i hr
      rw [if_neg hr, ← hc]
      exact locateFrom_mono hp _ _ _ h

theorem locate_exists {fs : FileSystem} {name : String} {l : List String}
    (h : fs.locate name = .ok l) : fs.root.kindAt l ≠ none := by
  have h0 : fs.root.kindAt [] ≠ none := by simp [Node.kindAt, at_nil]
  unfold FileSystem.locate at h
  split at h
  · cases h
  · split at h
    · exact locateFrom_exists _ _ _ h h0
    · exact locateFrom_exists _ _ _ h h0

theorem pathExists_eq_false {fs : FileSystem} {name : String} :
    fs.pathExists name = false ↔ ∀ l, fs.locate name ≠ .ok l := by
  unfold FileSystem.pathExists
  cases fs.locate name with
  | error e => simp
  | ok l => simp

/-- What `os.RemoveAll` does to the filesystem: nothing, or it empties the
directory at the location of the path and gives an error, or it removes the
entry at the location of the path, which is not `/`, and gives none. -/
theorem RemoveAll_spec (fs : FileSystem) (path : String) :
    ((RemoveAll fs path).1 = fs ∧
      ((RemoveAll fs path).2 = none → fs.pathExists path = false)) ∨
    (∃ loc, fs.locate path = .ok loc ∧
      (((RemoveAll fs path).1 = { fs with root := fs.root.emptyAt loc } ∧
          (RemoveAll fs path).2 ≠ none) ∨
       (loc ≠ [] ∧ (RemoveAll fs path).1 = { fs with root := fs.root.removeAt loc } ∧
          (RemoveAll fs path).2 = none))) := by
  unfold RemoveAll
  split
  · rename_i he
    left
    refine ⟨rfl, fun _ => ?_⟩
    have : path = "" := by simpa using he
    subst this
    rfl
  · split
    · left
      exact ⟨rfl, fun h => by simp at h⟩
    · split
      · rename_i hl
        left
        exact ⟨rfl, fun _ => by simp [FileSystem.pathExists, hl]⟩
      · left
        exact ⟨rfl, fun h => by simp at h⟩
      · rename_i loc hl
        right
        refine ⟨loc, hl, ?_⟩
        split
        · left
          exact ⟨rfl, by simp⟩
        · rename_i hc
          right
          refine ⟨?_, rfl, rfl⟩
          intro hnil
          apply hc
          simp [hnil]

theorem RemoveAll_cwd (fs : FileSystem) (path : String) : (RemoveAll fs path).1.cwd = fs.cwd := by
  rcases RemoveAll_spec fs path with ⟨h, _⟩ | ⟨loc, _, ⟨h, _⟩ | ⟨_, h, _⟩⟩ <;> rw [h]

theorem RemoveAll_pruned (fs : FileSystem) (path : String) :
    Node.Pruned (RemoveAll fs path).1.root fs.root := by
  rcases RemoveAll_spec fs path with ⟨h, _⟩ | ⟨loc, _, ⟨h, _⟩ | ⟨_, h, _⟩⟩ <;> rw [h]
  · exact Pruned_refl _
  · exact Pruned_emptyAt _ _
  · exact Pruned_removeAt _ _

/-- `os.RemoveAll` leaves the kind of every entry that is neither at nor
beneath the location of the path as it is. -/
theorem RemoveAll_frame (fs : FileSystem) (path : String) (l : List String)
    (h : ∀ loc, fs.locate path = .ok loc → ¬ loc <+: l) :
    (RemoveAll fs path).1.root.kindAt l = fs.root.kindAt l := by
  rcases RemoveAll_spec fs path with ⟨h1, _⟩ | ⟨loc, hl, ⟨h1, _⟩ | ⟨hne, h1, _⟩⟩ <;> rw [h1]
  · exact kindAt_emptyAt _ _ _ (h loc hl)
  · show (fs.root.removeAt loc).kindAt l = _
    rw [kindAt_removeAt _ _ _ hne, if_neg (h loc hl)]

/-- After `os.RemoveAll` without error nothing exists at or beneath the
location that the path had. -/
theorem RemoveAll_subtree (fs : FileSystem) (path : String) (loc l : List String)
    (herr : (RemoveAll fs path).2 = none) (hloc : fs.locate path = .ok loc) (hl : loc <+: l) :
    (RemoveAll fs path).1.root.kindAt l = none := by
  rcases RemoveAll_spec fs path with ⟨_, h2⟩ | ⟨loc', hl', ⟨_, h2⟩ | ⟨hne, h1, _⟩⟩
  · have := h2 herr
    rw [pathExists_eq_false] at this
    exact absurd hloc (this loc)
  · exact absurd herr h2
  · rw [hloc] at hl'
    cases hl'
    rw [h1]
    show (fs.root.removeAt loc).kindAt l = none
    rw [kindAt_removeAt _ _ _ hne, if_pos hl]

/-- After `os.RemoveAll` without error nothing exists at the path. -/
theorem RemoveAll_gone (fs : FileSystem) (path : String)
    (herr : (RemoveAll fs path).2 = none) : (RemoveAll fs path).1.pathExists path = false := by
  rw [pathExists_eq_false]
  intro l hl
  have hold := locate_mono (RemoveAll_cwd fs path) (RemoveAll_pruned fs path) path l hl
  have := RemoveAll_subtree fs path l l herr hold (List.prefix_refl l)
  exact locate_exists hl this

/-- `os.RemoveAll` of a path at which nothing exists changes nothing. -/
theorem RemoveAll_absent (fs : FileSystem) (path : String) (h : fs.pathExists path = false) :
    (RemoveAll fs path).1 = fs := by
  rcases RemoveAll_spec fs path with ⟨h1, _⟩ | ⟨loc, hl, _⟩
  · exact h1
  · rw [pathExists_eq_false] at h
    exact absurd hl (h loc)

/-- What does not exist before `os.RemoveAll` does not exist after it. -/
theorem RemoveAll_not_exists (fs : FileSystem) (path name : String)
    (h : fs.pathExists name = false) : (RemoveAll fs path).1.pathExists name = false := by
  rw [pathExists_eq_false] at h ⊢
  intro l hl
  exact h l (locate_mono (RemoveAll_cwd fs path) (RemoveAll_pruned fs path) name l hl)

end os

/-! ## Delete files and folders recursive: the calls of the host -/

namespace exec

theorem deleteLevel0Step_fs {σ : Type} (host : os.Host σ) (basePath : String)
    (st : DeleteState σ) (item : String) :
    (deleteLevel0Step host basePath st item).fs
      = (host.RemoveAll st.fs (filepath.Join [basePath, item])).1 := by
  dsimp only [deleteLevel0Step]
  split <;> rfl

theorem deleteLevel0Step_actions {σ : Type} (host : os.Host σ) (basePath : String)
    (st : DeleteState σ) (item : String) :
    (deleteLevel0Step host basePath st item).actions
      = st.actions ++ [.RemoveAll (filepath.Join [basePath, item])] := by
  dsimp only [deleteLevel0Step]
  split <;> rfl

theorem deleteLevel1Item_fs {σ : Type} (host : os.Host σ) (subDirPath : String)
    (st : DeleteState σ) (item : String) :
    (deleteLevel1Item host subDirPath st item).fs
      = (host.RemoveAll st.fs (filepath.Join [subDirPath, item])).1 := by
  dsimp only [deleteLevel1Item]
  split <;> rfl

theorem deleteLevel1Item_actions {σ : Type} (host : os.Host σ) (subDirPath : String)
    (st : DeleteState σ) (item : String) :
    (deleteLevel1Item host subDirPath st item).actions
      = st.actions ++ [.RemoveAll (filepath.Join [subDirPath, item])] := by
  dsimp only [deleteLevel1Item]
  split <;> rfl

/-- A loop of removals: the calls made and the state of the host reached. -/
theorem foldl_removals {σ α : Type} (host : os.Host σ)
    (step : DeleteState σ → α → DeleteState σ) (path : α → String)
    (hfs : ∀ st a, (step st a).fs = (host.RemoveAll st.fs (path a)).1)
    (hact : ∀ st a, (step st a).actions = st.actions ++ [.RemoveAll (path a)])
    (as : List α) (st : DeleteState σ) :
    (as.foldl step st).actions = st.actions ++ as.map (fun a => FsAction.RemoveAll (path a)) ∧
    (as.foldl step st).fs = as.foldl (fun s a => (host.RemoveAll s (path a)).1) st.fs := by
  induction as generalizing st with
  | nil => simp
  | cons a as ih =>
    obtain ⟨h1, h2⟩ := ih (step st a)
    simp only [List.foldl_cons, h1, h2, hact, hfs, List.map_cons, List.append_assoc,
      List.singleton_append, and_self]

/-- The second loop is one loop of removals over the directories among the
entries, each with every item. -/
theorem foldl_deleteLevel1Step {σ : Type} (host : os.Host σ) (basePath : String)
    (items : List String) (entries : List os.DirEntry) (st : DeleteState σ) :
    entries.foldl (deleteLevel1Step host basePath items) st
      = (level1Pairs entries items).foldl
          (fun st pr => deleteLevel1Item host (filepath.Join [basePath, pr.1.Name]) st pr.2)
          st := by
  induction entries generalizing st with
  | nil => rfl
  | cons d entries ih =>
    rw [List.foldl_cons, ih]
    unfold level1Pairs
    by_cases hd : d.IsDir = true
    · simp only [deleteLevel1Step, hd, if_true, List.filter_cons, List.flatMap_cons,
        List.foldl_append, List.foldl_map]
    · simp only [deleteLevel1Step, hd, List.filter_cons, Bool.false_eq_true, if_false]

theorem errorf_basePath (basePath cause : String) :
    fmt.Errorf "error reading the base path %s: %v" [basePath, cause]
      = "error reading the base path " ++ basePath ++ ": " ++ cause := by
  apply String.ext
  simp [fmt.Errorf, fmt.sprintfChars, fmt.isStringVerb]

theorem delete_of_error {σ : Type} (host : os.Host σ) (fs : σ) (basePath : String)
    (items : List String) (cause : String)
    (h : host.ReadDir (deleteLevel0 host fs basePath items).fs basePath = .error cause) :
    deleteFilesAndFoldersRecursive host fs basePath items
      = (some ("error reading the base path " ++ basePath ++ ": " ++ cause),
         { deleteLevel0 host fs basePath items with
           actions := (deleteLevel0 host fs basePath items).actions ++ [.ReadDir basePath] }) := by
  simp only [deleteFilesAndFoldersRecursive, h, errorf_basePath]

theorem delete_of_ok {σ : Type} (host : os.Host σ) (fs : σ) (basePath : String)
    (items : List String) (entries : List os.DirEntry)
    (h : host.ReadDir (deleteLevel0 host fs basePath items).fs basePath = .ok entries) :
    deleteFilesAndFoldersRecursive host fs basePath items
      = (none, (level1Pairs entries items).foldl
          (fun st pr => deleteLevel1Item host (filepath.Join [basePath, pr.1.Name]) st pr.2)
          { deleteLevel0 host fs basePath items with
            actions := (deleteLevel0 host fs basePath items).actions
              ++ [.ReadDir basePath] }) := by
  simp only [deleteFilesAndFoldersRecursive, h, foldl_deleteLevel1Step]

theorem deleteLevel0_actions {σ : Type} (host : os.Host σ) (fs : σ) (basePath : String)
    (items : List String) :
    (deleteLevel0 host fs basePath items).actions
        = items.map (fun item => FsAction.RemoveAll (filepath.Join [basePath, item])) ∧
    (deleteLevel0 host fs basePath items).fs
        = items.foldl (fun s item => (host.RemoveAll s (filepath.Join [basePath, item])).1) fs := by
  have := foldl_removals host (deleteLevel0Step host basePath)
    (fun item => filepath.Join [basePath, item]) (deleteLevel0Step_fs host basePath)
    (deleteLevel0Step_actions host basePath) items { fs := fs, log := [], actions := [] }
  simpa [deleteLevel0] using this

/-- All the calls of the host that `deleteFilesAndFoldersRecursive` makes, in
order. -/
theorem delete_actions {σ : Type} (host : os.Host σ) (fs : σ) (basePath : String)
    (items : List String) :
    (deleteFilesAndFoldersRecursive host fs basePath items).2.actions
      = items.map (fun item => FsAction.RemoveAll (filepath.Join [basePath, item]))
        ++ [FsAction.ReadDir basePath]
        ++ (match host.ReadDir
              (items.foldl (fun s item => (host.RemoveAll s (filepath.Join [basePath, item])).1)
                fs) basePath with
            | .ok entries =>
              (entries.filter (fun d => d.IsDir)).flatMap (fun d =>
                items.map (fun item =>
                  FsAction.RemoveAll (filepath.Join [basePath, d.Name, item])))
            | .error _ => []) := by
  obtain ⟨ha, hf⟩ := deleteLevel0_actions host fs basePath items
  rw [← hf]
  cases hr : host.ReadDir (deleteLevel0 host fs basePath items).fs basePath with
  | error cause =>
    rw [delete_of_error host fs basePath items cause hr]
    simp [ha]
  | ok entries =>
    rw [delete_of_ok host fs basePath items entries hr]
    have := (foldl_removals host
      (fun st (pr : os.DirEntry × String) =>
        deleteLevel1Item host (filepath.Join [basePath, pr.1.Name]) st pr.2)
      (fun pr => filepath.Join [filepath.Join [basePath, pr.1.Name], pr.2])
      (fun st pr => deleteLevel1Item_fs host _ st pr.2)
      (fun st pr => deleteLevel1Item_actions host _ st pr.2)
      (level1Pairs entries items)
      { deleteLevel0 host fs basePath items with
        actions := (deleteLevel0 host fs basePath items).actions ++ [.ReadDir basePath] }).1
    rw [this]
    simp only [ha, level1Pairs, List.map_flatMap, List.map_map, filepath.Join_Join]
    rfl

end exec

namespace exec

/-- C16: `deleteFilesAndFoldersRecursive(basePath, items)` returns an error
exactly when listing `basePath` fails after the level-0 pass, and the message
is `error reading the base path <basePath>: <cause>`; when the listing
succeeds the call returns `nil`, whatever the removals at either level
returned.  This holds on every host, failing removals included. -/
theorem C16_delete_error {σ : Type} (host : os.Host σ) (fs : σ) (basePath : String)
    (items : List String) :
    ((∃ msg, (deleteFilesAndFoldersRecursive host fs basePath items).1 = some msg)
      ↔ ∃ cause, host.ReadDir (deleteLevel0 host fs basePath items).fs basePath
          = .error cause) ∧
    (∀ cause, host.ReadDir (deleteLevel0 host fs basePath items).fs basePath = .error cause →
      (deleteFilesAndFoldersRecursive host fs basePath items).1
        = some ("error reading the base path " ++ basePath ++ ": " ++ cause)) ∧
    (∀ entries, host.ReadDir (deleteLevel0 host fs basePath items).fs basePath = .ok entries →
      (deleteFilesAndFoldersRecursive host fs basePath items).1 = none) := by
  refine ⟨?_, ?_, ?_⟩
  · constructor
    · rintro ⟨msg, h⟩
      cases hr : host.ReadDir (deleteLevel0 host fs basePath items).fs basePath with
      | error cause => exact ⟨cause, rfl⟩
      | ok entries => rw [delete_of_ok host fs basePath items entries hr] at h; cases h
    · rintro ⟨cause, h⟩
      exact ⟨_, by rw [delete_of_error host fs basePath items cause h]⟩
  · intro cause h
    rw [delete_of_error host fs basePath items cause h]
  · intro entries h
    rw [delete_of_ok host fs basePath items entries h]

/-- Witness of C16: scenario S6, the call on `/does-not-exist` with the item
`x`, returns the error that names `/does-not-exist`; and the call on `.` with
the empty item from the working directory `/root`, in which the removal of
`.` fails, returns `nil`. -/
theorem C16_delete_error_witness :
    (deleteFilesAndFoldersRecursive os.treeHost scenarioS5 "/does-not-exist" ["x"]).1
      = some ("error reading the base path " ++ "/does-not-exist" ++ ": "
          ++ "open /does-not-exist: no such file or directory") ∧
    (deleteFilesAndFoldersRecursive os.treeHost { scenarioS5 with cwd := ["root"] } "." [""]).1
      = none ∧
    (deleteLevel0 os.treeHost { scenarioS5 with cwd := ["root"] } "." [""]).log
      = [{ level := .Warning, message := "Error deleting .: RemoveAll .: invalid argument" }] :=
  ⟨(C16_delete_error os.treeHost scenarioS5 "/does-not-exist" ["x"]).2.1
      "open /does-not-exist: no such file or directory" rfl,
    (C16_delete_error os.treeHost { scenarioS5 with cwd := ["root"] } "." [""]).2.2
      [⟨"groupA", true⟩, ⟨"groupB", true⟩, ⟨"nested", true⟩, ⟨"planfile.txt", false⟩] rfl,
    rfl⟩

/-- C17: within a call of `deleteFilesAndFoldersRecursive` the level-0 pass
completes before the level-1 pass begins.  The calls of the host are, in
order: the removal of `join(basePath, item)` for every item, in item order;
the listing of `basePath`; and, when the listing succeeds, the removal of
`join(basePath, d, item)` for every directory `d` of the listing and every
item.  The listing is that of the state of the host after all the level-0
removals.  For scenario S5 the calls are as listed. -/
theorem C17_delete_order :
    (∀ (σ : Type) (host : os.Host σ) (fs : σ) (basePath : String) (items : List String),
      (deleteFilesAndFoldersRecursive host fs basePath items).2.actions
        = items.map (fun item => FsAction.RemoveAll (filepath.Join [basePath, item]))
          ++ [FsAction.ReadDir basePath]
          ++ (match host.ReadDir
                (items.foldl
                  (fun s item => (host.RemoveAll s (filepath.Join [basePath, item])).1) fs)
                basePath with
              | .ok entries =>
                (entries.filter (fun d => d.IsDir)).flatMap (fun d =>
                  items.map (fun item =>
                    FsAction.RemoveAll (filepath.Join [basePath, d.Name, item])))
              | .error _ => [])) ∧
    (deleteFilesAndFoldersRecursive os.treeHost scenarioS5 "/root"
        ["planfile.txt", "nested/dir"]).2.actions
      = [.RemoveAll "/root/planfile.txt", .RemoveAll "/root/nested/dir", .ReadDir "/root",
         .RemoveAll "/root/groupA/planfile.txt", .RemoveAll "/root/groupA/nested/dir",
         .RemoveAll "/root/groupB/planfile.txt", .RemoveAll "/root/groupB/nested/dir",
         .RemoveAll "/root/nested/planfile.txt", .RemoveAll "/root/nested/nested/dir"] :=
  ⟨fun _ host fs basePath items => delete_actions host fs basePath items, by decide⟩

end exec

/-! ## Delete files and folders recursive on a filesystem tree -/

namespace exec

theorem noWarning_append {l1 l2 : List utils.LogRecord} :
    utils.noWarning (l1 ++ l2) ↔ utils.noWarning l1 ∧ utils.noWarning l2 := by
  simp only [utils.noWarning, List.mem_append]
  constructor
  · intro h
    exact ⟨fun r hr => h r (Or.inl hr), fun r hr => h r (Or.inr hr)⟩
  · rintro ⟨h1, h2⟩ r (hr | hr)
    · exact h1 r hr
    · exact h2 r hr

theorem deleteLevel0Step_noWarning {σ : Type} (host : os.Host σ) (basePath : String)
    (st : DeleteState σ) (item : String)
    (h : utils.noWarning (deleteLevel0Step host basePath st item).log) :
    utils.noWarning st.log ∧ (host.RemoveAll st.fs (filepath.Join [basePath, item])).2 = none := by
  dsimp only [deleteLevel0Step] at h
  split at h
  · rename_i err he
    simp only [utils.LogWarning] at h
    have := (noWarning_append.1 h).2 _ (List.mem_singleton_self _)
    exact absurd rfl this
  · rename_i he
    simp only [utils.LogInfo] at h
    exact ⟨(noWarning_append.1 h).1, he⟩

theorem deleteLevel1Item_noWarning {σ : Type} (host : os.Host σ) (subDirPath : String)
    (st : DeleteState σ) (item : String)
    (h : utils.noWarning (deleteLevel1Item host subDirPath st item).log) :
    utils.noWarning st.log ∧ (host.RemoveAll st.fs (filepath.Join [subDirPath, item])).2 = none := by
  dsimp only [deleteLevel1Item] at h
  split at h
  · rename_i err he
    simp only [utils.LogWarning] at h
    have := (noWarning_append.1 h).2 _ (List.mem_singleton_self _)
    exact absurd rfl this
  · rename_i he
    exact ⟨h, he⟩

/-- A loop of removals on a filesystem tree leaves the working directory and
prunes the tree. -/
theorem foldl_later {α : Type} (step : DeleteState os.FileSystem → α → DeleteState os.FileSystem)
    (path : α → String)
    (hfs : ∀ st a, (step st a).fs = (os.RemoveAll st.fs (path a)).1)
    (as : List α) (st : DeleteState os.FileSystem) :
    (as.foldl step st).fs.cwd = st.fs.cwd ∧
    os.Node.Pruned (as.foldl step st).fs.root st.fs.root := by
  induction as generalizing st with
  | nil => exact ⟨rfl, os.Pruned_refl _⟩
  | cons a as ih =>
    obtain ⟨h1, h2⟩ := ih (step st a)
    rw [List.foldl_cons]
    rw [hfs] at h1 h2
    exact ⟨h1.trans (os.RemoveAll_cwd _ _), os.Pruned_trans h2 (os.RemoveAll_pruned _ _)⟩

theorem foldl_not_exists {α : Type}
    (step : DeleteState os.FileSystem → α → DeleteState os.FileSystem) (path : α → String)
    (hfs : ∀ st a, (step st a).fs = (os.RemoveAll st.fs (path a)).1)
    (as : List α) (st : DeleteState os.FileSystem) (name : String)
    (h : st.fs.pathExists name = false) : (as.foldl step st).fs.pathExists name = false := by
  obtain ⟨h1, h2⟩ := foldl_later step path hfs as st
  rw [os.pathExists_eq_false] at h ⊢
  exact fun l hl => h l (os.locate_mono h1 h2 name l hl)

/-- A loop of removals none of which fails: afterwards nothing exists at any
of the paths. -/
theorem foldl_gone {α : Type} (step : DeleteState os.FileSystem → α → DeleteState os.FileSystem)
    (path : α → String)
    (hfs : ∀ st a, (step st a).fs = (os.RemoveAll st.fs (path a)).1)
    (hlog : ∀ st a, utils.noWarning (step st a).log →
      utils.noWarning st.log ∧ (os.RemoveAll st.fs (path a)).2 = none)
    (as : List α) (st : DeleteState os.FileSystem)
    (h : utils.noWarning (as.foldl step st).log) :
    utils.noWarning st.log ∧ ∀ a ∈ as, (as.foldl step st).fs.pathExists (path a) = false := by
  induction as generalizing st with
  | nil => exact ⟨h, by simp⟩
  | cons a as ih =>
    rw [List.foldl_cons] at h ⊢
    obtain ⟨h1, h2⟩ := ih (step st a) h
    obtain ⟨h3, h4⟩ := hlog st a h1
    refine ⟨h3, ?_⟩
    intro b hb
    rcases List.mem_cons.1 hb with rfl | hb
    · apply foldl_not_exists step path hfs
      rw [hfs]
      exact os.RemoveAll_gone _ _ h4
    · exact h2 b hb

/-- A loop of removals leaves the kind of every entry that is neither at nor
beneath the location of one of the paths as it is. -/
theorem foldl_frame {α : Type} (step : DeleteState os.FileSystem → α → DeleteState os.FileSystem)
    (path : α → String)
    (hfs : ∀ st a, (step st a).fs = (os.RemoveAll st.fs (path a)).1)
    (fs0 : os.FileSystem) (l : List String) (as : List α) (st : DeleteState os.FileSystem)
    (hc : st.fs.cwd = fs0.cwd) (hp : os.Node.Pruned st.fs.root fs0.root)
    (h : ∀ a ∈ as, ∀ loc, fs0.locate (path a) = .ok loc → ¬ loc <+: l) :
    (as.foldl step st).fs.root.kindAt l = st.fs.root.kindAt l := by
  induction as generalizing st with
  | nil => rfl
  | cons a as ih =>
    rw [List.foldl_cons]
    have hc2 : (step st a).fs.cwd = fs0.cwd := by rw [hfs, os.RemoveAll_cwd]; exact hc
    have hp2 : os.Node.Pruned (step st a).fs.root fs0.root := by
      rw [hfs]; exact os.Pruned_trans (os.RemoveAll_pruned _ _) hp
    rw [ih (step st a) hc2 hp2 (fun b hb => h b (List.mem_cons_of_mem _ hb)), hfs]
    apply os.RemoveAll_frame
    intro loc hloc
    exact h a (List.mem_cons_self _ _) loc (os.locate_mono hc hp _ _ hloc)

/-- A loop of removals of paths at which nothing exists changes nothing. -/
theorem foldl_absent {α : Type} (step : DeleteState os.FileSystem → α → DeleteState os.FileSystem)
    (path : α → String)
    (hfs : ∀ st a, (step st a).fs = (os.RemoveAll st.fs (path a)).1)
    (as : List α) (st : DeleteState os.FileSystem)
    (h : ∀ a ∈ as, st.fs.pathExists (path a) = false) : (as.foldl step st).fs = st.fs := by
  induction as generalizing st with
  | nil => rfl
  | cons a as ih =>
    have e : (step st a).fs = st.fs := by
      rw [hfs]; exact os.RemoveAll_absent _ _ (h a (List.mem_cons_self _ _))
    rw [List.foldl_cons, ih (step st a) (fun b hb => by
      rw [e]; exact h b (List.mem_cons_of_mem _ hb)), e]

theorem mem_level1Pairs {entries : List os.DirEntry} {items : List String}
    {pr : os.DirEntry × String} :
    pr ∈ level1Pairs entries items ↔ pr.1 ∈ entries ∧ pr.1.IsDir = true ∧ pr.2 ∈ items := by
  obtain ⟨d, item⟩ := pr
  simp only [level1Pairs, List.mem_flatMap, List.mem_filter, List.mem_map, Prod.mk.injEq]
  constructor
  · rintro ⟨d', ⟨h1, h2⟩, item', h3, rfl, rfl⟩
    exact ⟨h1, h2, h3⟩
  · rintro ⟨h1, h2, h3⟩
    exact ⟨d, ⟨h1, h2⟩, item, h3, rfl, rfl⟩

end exec

namespace exec

theorem beneath_eq_false {fs : os.FileSystem} {name : String} {l : List String} :
    fs.beneath name l = false ↔ ∀ loc, fs.locate name = .ok loc → ¬ loc <+: l := by
  unfold os.FileSystem.beneath
  cases fs.locate name with
  | error e => simp
  | ok loc => simp

theorem deleteLevel0_eq (fs : os.FileSystem) (basePath : String) (items : List String) :
    deleteLevel0 os.treeHost fs basePath items
      = items.foldl (deleteLevel0Step os.treeHost basePath)
          { fs := fs, log := [], actions := [] } := rfl

/-- C13: when a call of `deleteFilesAndFoldersRecursive(basePath, items)` on a
filesystem tree returns no error and no removal fails (the log holds no
warning), then after the call nothing exists at `join(basePath, item)` for
every item, and nothing exists at `join(basePath, d, item)` for every item and
every directory `d` of the listing of `basePath` after the level-0 pass. -/
theorem C13_delete_removes (fs : os.FileSystem) (basePath : String) (items : List String)
    (hret : (deleteFilesAndFoldersRecursive os.treeHost fs basePath items).1 = none)
    (hnofail : utils.noWarning
      (deleteFilesAndFoldersRecursive os.treeHost fs basePath items).2.log) :
    (∀ item ∈ items,
      (deleteFilesAndFoldersRecursive os.treeHost fs basePath items).2.fs.pathExists
        (filepath.Join [basePath, item]) = false) ∧
    (∀ entries,
      os.ReadDir (deleteLevel0 os.treeHost fs basePath items).fs basePath = .ok entries →
      ∀ d ∈ entries, d.IsDir = true → ∀ item ∈ items,
        (deleteFilesAndFoldersRecursive os.treeHost fs basePath items).2.fs.pathExists
          (filepath.Join [basePath, d.Name, item]) = false) := by
  cases hr : os.ReadDir (deleteLevel0 os.treeHost fs basePath items).fs basePath with
  | error cause =>
    rw [delete_of_error os.treeHost fs basePath items cause hr] at hret
    cases hret
  | ok entries =>
    rw [delete_of_ok os.treeHost fs basePath items entries hr] at hnofail ⊢
    simp only at hnofail ⊢
    -- the second loop
    obtain ⟨hlog0, hgone1⟩ := foldl_gone
      (fun st (pr : os.DirEntry × String) =>
        deleteLevel1Item os.treeHost (filepath.Join [basePath, pr.1.Name]) st pr.2)
      (fun pr => filepath.Join [filepath.Join [basePath, pr.1.Name], pr.2])
      (fun st pr => deleteLevel1Item_fs os.treeHost _ st pr.2)
      (fun st pr => deleteLevel1Item_noWarning os.treeHost _ st pr.2)
      (level1Pairs entries items) _ hnofail
    -- the first loop
    have hlog0' : utils.noWarning (deleteLevel0 os.treeHost fs basePath items).log := hlog0
    rw [deleteLevel0_eq] at hlog0'
    obtain ⟨_, hgone0⟩ := foldl_gone (deleteLevel0Step os.treeHost basePath)
      (fun item => filepath.Join [basePath, item])
      (deleteLevel0Step_fs os.treeHost basePath)
      (deleteLevel0Step_noWarning os.treeHost basePath) items _ hlog0'
    refine ⟨?_, ?_⟩
    · intro item hitem
      apply foldl_not_exists
        (fun st (pr : os.DirEntry × String) =>
          deleteLevel1Item os.treeHost (filepath.Join [basePath, pr.1.Name]) st pr.2)
        (fun pr => filepath.Join [filepath.Join [basePath, pr.1.Name], pr.2])
        (fun st pr => deleteLevel1Item_fs os.treeHost _ st pr.2)
      exact hgone0 item hitem
    · intro entries' he d hd hdir item hitem
      cases he
      have := hgone1 (d, item) (mem_level1Pairs.2 ⟨hd, hdir, hitem⟩)
      simp only [filepath.Join_Join] at this
      exact this

/-- Witness of C13: scenario S5.  After the call on `/root` with the items
`planfile.txt` and `nested/dir` nothing exists at `/root/planfile.txt`, at
`/root/nested/dir` and at `/root/groupA/planfile.txt`. -/
theorem C13_delete_removes_witness :
    (deleteFilesAndFoldersRecursive os.treeHost scenarioS5 "/root"
        ["planfile.txt", "nested/dir"]).2.fs.pathExists "/root/planfile.txt" = false ∧
    (deleteFilesAndFoldersRecursive os.treeHost scenarioS5 "/root"
        ["planfile.txt", "nested/dir"]).2.fs.pathExists "/root/nested/dir" = false ∧
    (deleteFilesAndFoldersRecursive os.treeHost scenarioS5 "/root"
        ["planfile.txt", "nested/dir"]).2.fs.pathExists "/root/groupA/planfile.txt" = false :=
  have h := C13_delete_removes scenarioS5 "/root" ["planfile.txt", "nested/dir"] rfl
    (by decide)
  ⟨h.1 "planfile.txt" (by decide), h.1 "nested/dir" (by decide),
    h.2 [⟨"groupA", true⟩, ⟨"groupB", true⟩, ⟨"nested", true⟩] rfl ⟨"groupA", true⟩
      (by decide) rfl "planfile.txt" (by decide)⟩

end exec

namespace exec

/-- C14: `deleteFilesAndFoldersRecursive(basePath, items)` on a filesystem
tree leaves the kind (nothing, file or directory) of every entry as it is,
when the location of the entry is neither that of `join(basePath, item)` nor
beneath it for any item, and neither that of `join(basePath, d, item)` nor
beneath it for any item and any directory `d` of the listing of `basePath`
after the level-0 pass; the working directory stays.  Every removal that the
call attempts is of `join(basePath, item)` or of `join(basePath, d, item)`
for a directory `d` of that listing: non-directory children of `basePath` are
not descended into. -/
theorem C14_delete_frame (fs : os.FileSystem) (basePath : String) (items : List String)
    (l : List String)
    (h0 : ∀ item ∈ items, fs.beneath (filepath.Join [basePath, item]) l = false)
    (h1 : ∀ entries,
      os.ReadDir (deleteLevel0 os.treeHost fs basePath items).fs basePath = .ok entries →
      ∀ d ∈ entries, d.IsDir = true → ∀ item ∈ items,
        fs.beneath (filepath.Join [basePath, d.Name, item]) l = false) :
    (deleteFilesAndFoldersRecursive os.treeHost fs basePath items).2.fs.root.kindAt l
        = fs.root.kindAt l ∧
    (deleteFilesAndFoldersRecursive os.treeHost fs basePath items).2.fs.cwd = fs.cwd ∧
    (∀ path,
      FsAction.RemoveAll path
          ∈ (deleteFilesAndFoldersRecursive os.treeHost fs basePath items).2.actions →
      (∃ item ∈ items, path = filepath.Join [basePath, item]) ∨
      (∃ entries,
        os.ReadDir (deleteLevel0 os.treeHost fs basePath items).fs basePath = .ok entries ∧
        ∃ d ∈ entries, d.IsDir = true ∧
          ∃ item ∈ items, path = filepath.Join [basePath, d.Name, item])) := by
  -- the first loop
  have hL0 := foldl_later (deleteLevel0Step os.treeHost basePath)
    (fun item => filepath.Join [basePath, item]) (deleteLevel0Step_fs os.treeHost basePath)
    items { fs := fs, log := [], actions := [] }
  have hF0 := foldl_frame (deleteLevel0Step os.treeHost basePath)
    (fun item => filepath.Join [basePath, item]) (deleteLevel0Step_fs os.treeHost basePath)
    fs l items { fs := fs, log := [], actions := [] } rfl (os.Pruned_refl _)
    (fun item hitem => beneath_eq_false.1 (h0 item hitem))
  rw [← deleteLevel0_eq] at hL0 hF0
  simp only at hL0 hF0
  refine ⟨?_, ?_, ?_⟩
  · cases hr : os.ReadDir (deleteLevel0 os.treeHost fs basePath items).fs basePath with
    | error cause =>
      rw [delete_of_error os.treeHost fs basePath items cause hr]
      exact hF0
    | ok entries =>
      rw [delete_of_ok os.treeHost fs basePath items entries hr]
      have hF1 := foldl_frame
        (fun st (pr : os.DirEntry × String) =>
          deleteLevel1Item os.treeHost (filepath.Join [basePath, pr.1.Name]) st pr.2)
        (fun pr => filepath.Join [filepath.Join [basePath, pr.1.Name], pr.2])
        (fun st pr => deleteLevel1Item_fs os.treeHost _ st pr.2)
        fs l (level1Pairs entries items)
        { deleteLevel0 os.treeHost fs basePath items with
          actions := (deleteLevel0 os.treeHost fs basePath items).actions
            ++ [.ReadDir basePath] }
        hL0.1 hL0.2
        (fun pr hpr => by
          obtain ⟨hd, hdir, hitem⟩ := mem_level1Pairs.1 hpr
          have := h1 entries hr pr.1 hd hdir pr.2 hitem
          rw [← filepath.Join_Join] at this
          exact beneath_eq_false.1 this)
      simp only at hF1 ⊢
      rw [hF1]
      exact hF0
  · cases hr : os.ReadDir (deleteLevel0 os.treeHost fs basePath items).fs basePath with
    | error cause =>
      rw [delete_of_error os.treeHost fs basePath items cause hr]
      exact hL0.1
    | ok entries =>
      rw [delete_of_ok os.treeHost fs basePath items entries hr]
      have hL1 := foldl_later
        (fun st (pr : os.DirEntry × String) =>
          deleteLevel1Item os.treeHost (filepath.Join [basePath, pr.1.Name]) st pr.2)
        (fun pr => filepath.Join [filepath.Join [basePath, pr.1.Name], pr.2])
        (fun st pr => deleteLevel1Item_fs os.treeHost _ st pr.2)
        (level1Pairs entries items)
        { deleteLevel0 os.treeHost fs basePath items with
          actions := (deleteLevel0 os.treeHost fs basePath items).actions
            ++ [.ReadDir basePath] }
      exact hL1.1.trans hL0.1
  · intro path hpath
    rw [delete_actions] at hpath
    obtain ⟨_, hfs⟩ := deleteLevel0_actions os.treeHost fs basePath items
    simp only [List.mem_append, List.mem_map, List.mem_singleton, FsAction.RemoveAll.injEq]
      at hpath
    rcases hpath with (⟨item, hitem, rfl⟩ | hfalse) | hlevel1
    · exact Or.inl ⟨item, hitem, rfl⟩
    · cases hfalse
    · right
      rw [← hfs] at hlevel1
      cases hr : os.ReadDir (deleteLevel0 os.treeHost fs basePath items).fs basePath with
      | error cause =>
        have hr' : os.treeHost.ReadDir (deleteLevel0 os.treeHost fs basePath items).fs basePath
            = .error cause := hr
        rw [hr'] at hlevel1
        simp at hlevel1
      | ok entries =>
        have hr' : os.treeHost.ReadDir (deleteLevel0 os.treeHost fs basePath items).fs basePath
            = .ok entries := hr
        rw [hr'] at hlevel1
        simp only [List.mem_flatMap, List.mem_filter, List.mem_map,
          FsAction.RemoveAll.injEq] at hlevel1
        obtain ⟨d, ⟨hd, hdir⟩, item, hitem, rfl⟩ := hlevel1
        exact ⟨entries, rfl, d, hd, hdir, item, hitem, rfl⟩

/-- The call on `..` with the item `groupA`, from the working directory
`/root/groupA`: the level-0 pass removes the working directory, `..` is still
listed from the handle of the working directory, the level-1 pass removes
`/root/groupB/groupA`, and the call returns `nil`. -/
theorem delete_from_removed_cwd :
    (deleteFilesAndFoldersRecursive os.treeHost scenarioRelative ".." ["groupA"]).1 = none ∧
    (deleteFilesAndFoldersRecursive os.treeHost scenarioRelative ".." ["groupA"]).2.actions
      = [.RemoveAll "../groupA", .ReadDir "..", .RemoveAll "../groupB/groupA"] ∧
    (deleteLevel0 os.treeHost scenarioRelative ".." ["groupA"]).fs.root.kindAt
        ["root", "groupA"] = none ∧
    os.ReadDir (deleteLevel0 os.treeHost scenarioRelative ".." ["groupA"]).fs ".."
      = .ok [⟨"groupB", true⟩] ∧
    scenarioRelative.root.kindAt ["root", "groupB", "groupA"] = some true ∧
    (deleteFilesAndFoldersRecursive os.treeHost scenarioRelative ".."
        ["groupA"]).2.fs.root.kindAt ["root", "groupB", "groupA"] = none ∧
    (deleteFilesAndFoldersRecursive os.treeHost scenarioRelative ".."
        ["groupA"]).2.fs.root.kindAt ["root", "groupB"] = some true :=
  ⟨rfl, by decide, by decide, rfl, by decide, by decide, by decide⟩

/-- Witness of C14: scenario S5, where the call on `/root` with the items
`planfile.txt` and `nested/dir` leaves `/root/groupB/main.tf` a file; and the
call on `..` with the item `groupA` from the working directory `/root/groupA`,
which leaves `/root/groupB` a directory. -/
theorem C14_delete_frame_witness :
    ((deleteFilesAndFoldersRecursive os.treeHost scenarioS5 "/root"
        ["planfile.txt", "nested/dir"]).2.fs.root.kindAt ["root", "groupB", "main.tf"]
      = scenarioS5.root.kindAt ["root", "groupB", "main.tf"] ∧
     scenarioS5.root.kindAt ["root", "groupB", "main.tf"] = some false) ∧
    ((deleteFilesAndFoldersRecursive os.treeHost scenarioRelative ".."
        ["groupA"]).2.fs.root.kindAt ["root", "groupB"]
      = scenarioRelative.root.kindAt ["root", "groupB"] ∧
     scenarioRelative.root.kindAt ["root", "groupB"] = some true) :=
  ⟨⟨(C14_delete_frame scenarioS5 "/root" ["planfile.txt", "nested/dir"]
      ["root", "groupB", "main.tf"] (by decide)
      (fun entries he => by
        have e : os.ReadDir (deleteLevel0 os.treeHost scenarioS5 "/root"
            ["planfile.txt", "nested/dir"]).fs "/root"
            = .ok [⟨"groupA", true⟩, ⟨"groupB", true⟩, ⟨"nested", true⟩] := rfl
        rw [e] at he
        cases he
        decide)).1,
    rfl⟩,
   ⟨(C14_delete_frame scenarioRelative ".." ["groupA"] ["root", "groupB"] (by decide)
      (fun entries he => by
        have e : os.ReadDir (deleteLevel0 os.treeHost scenarioRelative ".."
            ["groupA"]).fs ".." = .ok [⟨"groupB", true⟩] := rfl
        rw [e] at he
        cases he
        decide)).1,
    rfl⟩⟩

end exec

/-! ## Delete files and folders recursive: missing items, the base path as an item -/

namespace exec

/-- C15, as stated, fails for a `basePath` that cannot be listed: in scenario
S6 nothing exists at `/does-not-exist/x` and `/does-not-exist` has no
subdirectory (it cannot be listed), yet the call returns an error. -/
theorem C15_counterexample :
    scenarioS5.pathExists (filepath.Join ["/does-not-exist", "x"]) = false ∧
    os.ReadDir scenarioS5 "/does-not-exist"
      = .error "open /does-not-exist: no such file or directory" ∧
    (deleteFilesAndFoldersRecursive os.treeHost scenarioS5 "/does-not-exist" ["x"]).1
      = some ("error reading the base path /does-not-exist: "
          ++ "open /does-not-exist: no such file or directory") ∧
    (deleteFilesAndFoldersRecursive os.treeHost scenarioS5 "/does-not-exist" ["x"]).1 ≠ none :=
  ⟨by decide, rfl, rfl, by decide⟩

/-- C15, amended: for every `basePath` that can be listed and every list of
items none of which exists under `basePath` or under any immediate
subdirectory of `basePath`, the call on a filesystem tree returns `nil`, and
it leaves the filesystem as it is. -/
theorem C15_delete_nonexistent (fs : os.FileSystem) (basePath : String)
    (items : List String) (entries : List os.DirEntry)
    (hlist : os.ReadDir fs basePath = .ok entries)
    (h0 : ∀ item ∈ items, fs.pathExists (filepath.Join [basePath, item]) = false)
    (h1 : ∀ d ∈ entries, d.IsDir = true → ∀ item ∈ items,
      fs.pathExists (filepath.Join [basePath, d.Name, item]) = false) :
    (deleteFilesAndFoldersRecursive os.treeHost fs basePath items).1 = none ∧
    (deleteFilesAndFoldersRecursive os.treeHost fs basePath items).2.fs = fs := by
  have hA0 := foldl_absent (deleteLevel0Step os.treeHost basePath)
    (fun item => filepath.Join [basePath, item]) (deleteLevel0Step_fs os.treeHost basePath)
    items { fs := fs, log := [], actions := [] } h0
  rw [← deleteLevel0_eq] at hA0
  simp only at hA0
  have hr : os.ReadDir (deleteLevel0 os.treeHost fs basePath items).fs basePath
      = .ok entries := by rw [hA0]; exact hlist
  rw [delete_of_ok os.treeHost fs basePath items entries hr]
  refine ⟨rfl, ?_⟩
  have hA1 := foldl_absent
    (fun st (pr : os.DirEntry × String) =>
      deleteLevel1Item os.treeHost (filepath.Join [basePath, pr.1.Name]) st pr.2)
    (fun pr => filepath.Join [filepath.Join [basePath, pr.1.Name], pr.2])
    (fun st pr => deleteLevel1Item_fs os.treeHost _ st pr.2)
    (level1Pairs entries items)
    { deleteLevel0 os.treeHost fs basePath items with
      actions := (deleteLevel0 os.treeHost fs basePath items).actions ++ [.ReadDir basePath] }
    (fun pr hpr => by
      obtain ⟨hd, hdir, hitem⟩ := mem_level1Pairs.1 hpr
      have := h1 pr.1 hd hdir pr.2 hitem
      rw [← filepath.Join_Join] at this
      simp only [hA0]
      exact this)
  simp only at hA1 ⊢
  rw [hA1]
  exact hA0

/-- Witness of C15, amended: scenario S5 with the items `missing.txt` and
`no/such`. -/
theorem C15_delete_nonexistent_witness :
    (deleteFilesAndFoldersRecursive os.treeHost scenarioS5 "/root"
        ["missing.txt", "no/such"]).1 = none ∧
    (deleteFilesAndFoldersRecursive os.treeHost scenarioS5 "/root"
        ["missing.txt", "no/such"]).2.fs = scenarioS5 :=
  C15_delete_nonexistent scenarioS5 "/root" ["missing.txt", "no/such"]
    [⟨"groupA", true⟩, ⟨"groupB", true⟩, ⟨"nested", true⟩, ⟨"planfile.txt", false⟩]
    rfl (by decide) (by decide)

/-- C20: when the turn of an item comes whose join with `basePath` is
`basePath` itself, and `basePath` is then a directory that can be listed and
whose removal succeeds, the level-0 pass of `deleteFilesAndFoldersRecursive`
on a filesystem tree removes `basePath` and everything beneath it, and the
call returns the error `error reading the base path <basePath>: <cause>`
after the listing of `basePath` has failed, without a level-1 pass. -/
theorem C20_delete_base_path (fs : os.FileSystem) (basePath : String)
    (before after : List String) (item : String) (entries : List os.DirEntry)
    (hjoin : filepath.Join [basePath, item] = basePath)
    (hdir : os.ReadDir (deleteLevel0 os.treeHost fs basePath before).fs basePath
      = .ok entries)
    (hrm : (os.RemoveAll (deleteLevel0 os.treeHost fs basePath before).fs basePath).2 = none) :
    (∃ cause,
      (deleteFilesAndFoldersRecursive os.treeHost fs basePath (before ++ item :: after)).1
        = some ("error reading the base path " ++ basePath ++ ": " ++ cause)) ∧
    (deleteFilesAndFoldersRecursive os.treeHost fs basePath
      (before ++ item :: after)).2.fs.pathExists basePath = false ∧
    (∃ loc, (deleteLevel0 os.treeHost fs basePath before).fs.locate basePath = .ok loc ∧
      (deleteLevel0 os.treeHost fs basePath before).fs.root.kindAt loc = some true ∧
      ∀ l, loc <+: l →
        (deleteFilesAndFoldersRecursive os.treeHost fs basePath
          (before ++ item :: after)).2.fs.root.kindAt l = none) ∧
    (deleteFilesAndFoldersRecursive os.treeHost fs basePath
        (before ++ item :: after)).2.actions
      = (before ++ item :: after).map
          (fun item => FsAction.RemoveAll (filepath.Join [basePath, item]))
        ++ [FsAction.ReadDir basePath] := by
  -- the state of the first loop
  have hsplit : deleteLevel0 os.treeHost fs basePath (before ++ item :: after)
      = after.foldl (deleteLevel0Step os.treeHost basePath)
          (deleteLevel0Step os.treeHost basePath
            (deleteLevel0 os.treeHost fs basePath before) item) := by
    simp only [deleteLevel0, List.foldl_append, List.foldl_cons]
  have hstep : (deleteLevel0Step os.treeHost basePath
      (deleteLevel0 os.treeHost fs basePath before) item).fs
      = (os.RemoveAll (deleteLevel0 os.treeHost fs basePath before).fs basePath).1 := by
    rw [deleteLevel0Step_fs, hjoin]; rfl
  have hgone1 : (deleteLevel0Step os.treeHost basePath
      (deleteLevel0 os.treeHost fs basePath before) item).fs.pathExists basePath = false := by
    rw [hstep]; exact os.RemoveAll_gone _ _ hrm
  have hgone : (deleteLevel0 os.treeHost fs basePath
      (before ++ item :: after)).fs.pathExists basePath = false := by
    rw [hsplit]
    exact foldl_not_exists (deleteLevel0Step os.treeHost basePath)
      (fun item => filepath.Join [basePath, item]) (deleteLevel0Step_fs os.treeHost basePath)
      after _ basePath hgone1
  obtain ⟨cause, hcause⟩ := os.ReadDir_error_of_not_exists _ _ hgone
  rw [delete_of_error os.treeHost fs basePath (before ++ item :: after) cause hcause]
  refine ⟨⟨cause, rfl⟩, hgone, ?_, ?_⟩
  · -- the directory and everything beneath it
    have hnode : ∃ node, (deleteLevel0 os.treeHost fs basePath before).fs.resolve basePath
        = .ok node ∧ node.isDir = true := by
      unfold os.ReadDir at hdir
      split at hdir
      · cases hdir
      · cases hdir
      · rename_i children hres
        exact ⟨_, hres, rfl⟩
    obtain ⟨node, hres, hisdir⟩ := hnode
    obtain ⟨loc, hloc, hat⟩ := os.resolve_locate _ _ _ hres
    refine ⟨loc, hloc, by simp [os.Node.kindAt, hat, hisdir], ?_⟩
    intro l hl
    have h1 := os.RemoveAll_subtree _ basePath loc l hrm hloc hl
    rw [← hstep] at h1
    have hlater := foldl_later (deleteLevel0Step os.treeHost basePath)
      (fun item => filepath.Join [basePath, item]) (deleteLevel0Step_fs os.treeHost basePath)
      after (deleteLevel0Step os.treeHost basePath
        (deleteLevel0 os.treeHost fs basePath before) item)
    rw [← hsplit] at hlater
    show (deleteLevel0 os.treeHost fs basePath (before ++ item :: after)).fs.root.kindAt l = none
    cases hk : (deleteLevel0 os.treeHost fs basePath (before ++ item :: after)).fs.root.kindAt l with
    | none => rfl
    | some k =>
      have := hlater.2 l k hk
      rw [h1] at this
      cases this
  · simp only [(deleteLevel0_actions os.treeHost fs basePath (before ++ item :: after)).1]

/-- Witness of C20: scenario S5 on `/root`, with the items `planfile.txt`, the
empty item and `x`, and with the single item `.`. -/
theorem C20_delete_base_path_witness :
    ((∃ cause,
      (deleteFilesAndFoldersRecursive os.treeHost scenarioS5 "/root"
          (["planfile.txt"] ++ "" :: ["x"])).1
        = some ("error reading the base path " ++ "/root" ++ ": " ++ cause)) ∧
     (deleteFilesAndFoldersRecursive os.treeHost scenarioS5 "/root"
      (["planfile.txt"] ++ "" :: ["x"])).2.fs.pathExists "/root" = false) ∧
    ((∃ cause,
      (deleteFilesAndFoldersRecursive os.treeHost scenarioS5 "/root" ([] ++ "." :: [])).1
        = some ("error reading the base path " ++ "/root" ++ ": " ++ cause)) ∧
     (deleteFilesAndFoldersRecursive os.treeHost scenarioS5 "/root"
      ([] ++ "." :: [])).2.fs.pathExists "/root" = false) :=
  have h := C20_delete_base_path scenarioS5 "/root" ["planfile.txt"] ["x"] ""
    [⟨"groupA", true⟩, ⟨"groupB", true⟩, ⟨"nested", true⟩]
    (by decide) rfl rfl
  have g := C20_delete_base_path scenarioS5 "/root" [] [] "."
    [⟨"groupA", true⟩, ⟨"groupB", true⟩, ⟨"nested", true⟩, ⟨"planfile.txt", false⟩]
    (by decide) rfl rfl
  ⟨⟨h.1, h.2.1⟩, ⟨g.1, g.2.1⟩⟩

end exec

end Atmos
